import Mathlib

/-!
# Group-lasso path solver (`src/grouplasso.cpp`)

A shallow embedding of `rcppLinSolver` / `rcppLinNest` and of the reference
link, loss and gradient routines.  `double` values are elements of a linearly
ordered field `K` (exact arithmetic); the square root of `<math.h>` is the field
`sqrt` of `Params`.  Numeric vectors are functions on indices, a write is
`Function.update`, and the flat matrices `X[k + nrow * j]` and
`beta[step * ncol + j]` keep the index arithmetic of the source.

Comparisons are decided exactly.  Where rounding could decide a tie such as
`diff = 0` either way in `double`, the theorems on the proximal step and on the
unpenalised scenario bound the result for every step the line search can
accept, and do not fix the step.
-/

namespace GroupLasso

/-- Counted loop `for (j = 0; j < n; j++) acc = body j acc`. -/
def forLoop {α : Type} (n : ℕ) (body : ℕ → α → α) (init : α) : α :=
  match n with
  | 0 => init
  | m + 1 => body m (forLoop m body init)

/-- Counted loop whose body may fail to return (a non-terminating inner search). -/
def forLoopM {α : Type} (n : ℕ) (body : ℕ → α → Option α) (init : α) : Option α :=
  match n with
  | 0 => some init
  | m + 1 => (forLoopM m body init).bind (body m)

section Model

variable {K : Type} [LinearOrderedField K]

/-- Rcpp sugar `sum(v)` for a vector of length `n`. -/
def vsum (n : ℕ) (v : ℕ → K) : K :=
  forLoop n (fun k acc => acc + v k) 0

/-- Source `identityLinkCpp`: `expect[i] = eta[i]`. -/
def identityLinkCpp (eta : ℕ → K) : ℕ → K :=
  fun i => eta i

/-- Source `linLogLik` (lines 30-34) on vectors of length `n`. -/
def linLogLik (n : ℕ) (expect y w : ℕ → K) : K :=
  let squareSum := 1 / 2 * vsum n (fun k => w k * (expect k - y k) ^ 2)
  squareSum / vsum n w

/-- Source `rcppLinGradCalc` (lines 38-42): the vector written to `ldot`, which
shares its storage with the caller's vector of the same length. -/
def rcppLinGradCalc (n : ℕ) (expect y w : ℕ → K) : ℕ → K :=
  let sumw := vsum n w
  fun k => w k * (expect k - y k) / sumw

/-- The arguments of `rcppLinSolver` / `rcppLinNest` that are only read. -/
structure Params (K : Type) where
  X : ℕ → K
  y : ℕ → K
  w : ℕ → K
  adaweights : ℕ → K
  nrow : ℕ
  ncol : ℕ
  numGroup : ℕ
  link : (ℕ → K) → (ℕ → K)
  loglik : (ℕ → K) → (ℕ → K) → (ℕ → K) → K
  rangeGroupInd : ℕ → ℕ
  groupLen : ℕ → ℕ
  lambda : ℕ → K
  nlam : ℕ
  innerIter : ℤ
  outerIter : ℤ
  thresh : K
  outerThresh : K
  gamma : K
  momentum : K
  reset : ℤ
  sqrt : K → K

/-- The variables `rcppLinSolver` mutates: the shared arrays and flag passed by
reference, and its locals `theta` and `t` that live across groups. -/
structure State (K : Type) where
  beta : ℕ → K
  eta : ℕ → K
  betaIsZero : ℕ → ℤ
  isActive : ℕ → ℤ
  groupChange : ℤ
  theta : ℕ → K
  t : K

/-- Lines 83-90: `etaNull`, the predictor without group `i`. -/
def etaNull (P : Params K) (step i : ℕ) (s : State K) : ℕ → K :=
  fun k =>
    if k < P.nrow then
      forLoop (P.groupLen i)
        (fun j acc => acc - P.X (k + P.nrow * (P.rangeGroupInd i + j))
            * s.beta (step * P.ncol + (P.rangeGroupInd i + j)))
        (s.eta k)
    else 0

/-- Lines 96-104 and 155-162: `grad[j] = sum_k X[k + nrow * (j + start)] * ldot[k]`. -/
def groupGrad (P : Params K) (i : ℕ) (ldot : ℕ → K) : ℕ → K :=
  fun j =>
    forLoop P.nrow
      (fun k acc => acc + P.X (k + P.nrow * (j + P.rangeGroupInd i)) * ldot k) 0

/-- Lines 93-104: the screening gradient, computed at `etaNull`. -/
def nullGrad (P : Params K) (step i : ℕ) (s : State K) : ℕ → K :=
  groupGrad P i (rcppLinGradCalc P.nrow (P.link (etaNull P step i s)) P.y P.w)

/-- Line 106: `zeroCheck = sum(pow(grad, 2))`. -/
def zeroCheck (P : Params K) (step i : ℕ) (s : State K) : K :=
  vsum (P.groupLen i) (fun j => nullGrad P step i s j ^ 2)

/-- Line 108: the zero test. -/
def zeroTest (P : Params K) (step i : ℕ) (s : State K) : Prop :=
  zeroCheck P step i s ≤ P.adaweights i ^ 2 * P.lambda step ^ 2 * (P.groupLen i : K)

instance (P : Params K) (step i : ℕ) (s : State K) : Decidable (zeroTest P step i s) := by
  unfold zeroTest
  infer_instance

/-- Lines 110-124: the branch taken when the zero test passes. -/
def zeroBranch (P : Params K) (step i : ℕ) (s : State K) : State K :=
  let eta1 : ℕ → K :=
    if s.betaIsZero i = 0 then
      fun k =>
        if k < P.nrow then
          forLoop (P.groupLen i)
            (fun j acc => acc - P.X (k + P.nrow * (P.rangeGroupInd i + j))
                * s.beta (step * P.ncol + (P.rangeGroupInd i + j)))
            (s.eta k)
        else s.eta k
    else s.eta
  { s with
    eta := eta1
    betaIsZero := Function.update s.betaIsZero i 1
    beta := forLoop (P.groupLen i)
      (fun j b => Function.update b (step * P.ncol + j + P.rangeGroupInd i) 0) s.beta }

/-- Lines 128-139: entry of the active branch. -/
def activeInit (P : Params K) (step i : ℕ) (s : State K) : State K :=
  { s with
    groupChange := if s.isActive i = 0 then 1 else s.groupChange
    isActive := Function.update s.isActive i 1
    theta := fun k => if k < P.ncol then s.beta (step * P.ncol + k) else s.theta k
    betaIsZero := Function.update s.betaIsZero i 0 }

/-- Lines 173-176: the candidate `z[j] = beta[...] - t * grad[j]`. -/
def candidate (P : Params K) (step i : ℕ) (s : State K) (grad : ℕ → K) (t : K) : ℕ → K :=
  fun j => s.beta (step * P.ncol + j + P.rangeGroupInd i) - t * grad j

/-- Lines 178-189: the shrinkage factor `uOp` for a candidate `z`. -/
def shrink (P : Params K) (step i : ℕ) (z : ℕ → K) (t : K) : K :=
  let norm := P.sqrt (vsum (P.groupLen i) (fun j => z j ^ 2))
  let uOp :=
    if norm ≠ 0 then
      1 - P.adaweights i * P.lambda step * P.sqrt (P.groupLen i : K) * t / norm
    else 0
  if uOp < 0 then 0 else uOp

/-- Lines 191-193: `U[j] = uOp * z[j]`. -/
def softThreshold (P : Params K) (step i : ℕ) (z : ℕ → K) (t : K) : ℕ → K :=
  fun j => shrink P step i z t * z j

/-- What one pass of the back-tracking body computes. -/
structure Trial (K : Type) where
  U : ℕ → K
  G : ℕ → K
  etaNew : ℕ → K
  Lnew : K
  diff : K

/-- Lines 173-214: one trial of the line search at step size `t`. -/
def trial (P : Params K) (step i : ℕ) (s : State K) (grad : ℕ → K) (Lold t : K) : Trial K :=
  let z := candidate P step i s grad t
  let U := softThreshold P step i z t
  let G : ℕ → K := fun j => 1 / t * (s.beta (step * P.ncol + j + P.rangeGroupInd i) - U j)
  let etaNew : ℕ → K := fun k =>
    if k < P.nrow then
      forLoop (P.groupLen i)
        (fun j acc => acc - t * G j * P.X (k + P.nrow * (P.rangeGroupInd i + j))) (s.eta k)
    else 0
  let Lnew := P.loglik (P.link etaNew) P.y P.w
  let sqNormG := vsum (P.groupLen i) (fun j => G j ^ 2)
  let iProd := vsum (P.groupLen i) (fun j => grad j * G j)
  { U := U, G := G, etaNew := etaNew, Lnew := Lnew
    diff := Lold - Lnew - t * iProd + t / 2 * sqNormG }

/-- Lines 164-217: `diff = -1; while (diff < 0) { trial; t = t * gamma }`.
The loop has no cap in the source, so the model takes `fuel`, the number of
trials it may make, and returns `none` when they are used up.  The result is
the value of `t` on leaving the loop and the last trial. -/
def backtrack (P : Params K) (step i : ℕ) (s : State K) (grad : ℕ → K) (Lold : K) :
    ℕ → K → Option (K × Trial K)
  | 0, _ => none
  | fuel + 1, t =>
    let r := trial P step i s grad Lold t
    if r.diff < 0 then backtrack P step i s grad Lold fuel (t * P.gamma)
    else some (t * P.gamma, r)

/-- Line 229: the integer expression `count % reset / (count % reset + 3)`
(C division and remainder truncate). -/
def momentumWeight (count reset : ℤ) : ℤ :=
  Int.tdiv (Int.tmod count reset) (Int.tmod count reset + 3)

/-- Lines 224-235: the body of the commit loop for coefficient `j` of the
group; the accumulator is the state and `check`. -/
def commitCoef (P : Params K) (step i : ℕ) (count : ℤ) (U : ℕ → K) (j : ℕ)
    (a : State K × K) : State K × K :=
  let s := a.1
  let c := step * P.ncol + j + P.rangeGroupInd i
  let check := a.2 + |s.theta (j + P.rangeGroupInd i) - U j|
  let eta1 : ℕ → K := fun k =>
    if k < P.nrow then s.eta k - P.X (k + P.nrow * (j + P.rangeGroupInd i)) * s.beta c
    else s.eta k
  let beta1 := Function.update s.beta c
    (U j + (momentumWeight count P.reset : K) * (U j - s.theta (j + P.rangeGroupInd i)))
  let theta1 := Function.update s.theta (j + P.rangeGroupInd i) (U j)
  let eta2 : ℕ → K := fun k =>
    if k < P.nrow then eta1 k + P.X (k + P.nrow * (j + P.rangeGroupInd i)) * beta1 c
    else eta1 k
  ({ s with eta := eta2, beta := beta1, theta := theta1 }, check)

/-- Lines 220-236: `check = 0` and the commit loop over the group. -/
def commit (P : Params K) (step i : ℕ) (count : ℤ) (U : ℕ → K) (s : State K) : State K × K :=
  forLoop (P.groupLen i) (commitCoef P step i count U) (s, 0)

/-- Lines 152-162: the gradient of the group at the current `eta`. -/
def currentGrad (P : Params K) (i : ℕ) (s : State K) : ℕ → K :=
  groupGrad P i (rcppLinGradCalc P.nrow (P.link s.eta) P.y P.w)

/-- Lines 166-167: `Lold`. -/
def currentLoss (P : Params K) (s : State K) : K :=
  P.loglik (P.link s.eta) P.y P.w

/-- Lines 150-236: one pass of the inner loop body; `count` is the value after
`count++`.  Returns the new state and `check`. -/
def innerIteration (P : Params K) (step i fuel : ℕ) (count : ℤ) (s : State K) :
    Option (State K × K) :=
  match backtrack P step i s (currentGrad P i s) (currentLoss P s) fuel s.t with
  | none => none
  | some (t1, r) => some (commit P step i count r.U { s with t := t1 / P.gamma })

/-- Lines 148-237: `while (count <= innerIter && check > thresh)`.  The first
argument is the loop variant `innerIter + 1 - count`: when it is `0` the test
`count <= innerIter` is false. -/
def innerLoop (P : Params K) (step i fuel : ℕ) : ℕ → ℤ → K → State K → Option (State K)
  | 0, _, _, s => some s
  | rem + 1, count, check, s =>
    if count ≤ P.innerIter ∧ check > P.thresh then
      match innerIteration P step i fuel (count + 1) s with
      | none => none
      | some (s1, check1) => innerLoop P step i fuel rem (count + 1) check1 s1
    else some s

/-- Lines 78-239: the body of the loop over groups for group `i`. -/
def solveGroup (P : Params K) (step : ℕ) (useGroup : ℕ → ℤ) (fuel i : ℕ) (s : State K) :
    Option (State K) :=
  if useGroup i = 1 then
    if zeroTest P step i s then some (zeroBranch P step i s)
    else innerLoop P step i fuel (P.innerIter + 1).toNat 0 100000 (activeInit P step i s)
  else some s

/-- Source `rcppLinSolver` (lines 53-241): the locals `theta` and `t` are
initialised, then the groups are visited in order.  `fuel` bounds every line
search. -/
def rcppLinSolver (P : Params K) (step : ℕ) (useGroup : ℕ → ℤ) (fuel : ℕ) (s : State K) :
    Option (State K) :=
  forLoopM P.numGroup (solveGroup P step useGroup fuel)
    { s with theta := fun _ => 0, t := P.momentum }

/-- Lines 309-312: the L1 change of row `step` over a refinement pass. -/
def rowChange (P : Params K) (step : ℕ) (old new : ℕ → K) : K :=
  forLoop P.ncol
    (fun i acc => acc + |old (step * P.ncol + i) - new (step * P.ncol + i)|) 0

/-- The variables of one path step of `rcppLinNest`. -/
structure NestState (K : Type) where
  st : State K
  outermostCounter : ℤ
  outermostCheck : K

/-- Lines 293-313: `while (outermostCounter < outerIter && outermostCheck > outerThresh)`.
The first argument is the loop variant `outerIter - outermostCounter`. -/
def refineLoop (P : Params K) (step fuel : ℕ) : ℕ → NestState K → Option (NestState K)
  | 0, ns => some ns
  | rem + 1, ns =>
    if ns.outermostCounter < P.outerIter ∧ ns.outermostCheck > P.outerThresh then
      match rcppLinSolver P step ns.st.isActive fuel ns.st with
      | none => none
      | some s1 =>
        refineLoop P step fuel rem
          { st := s1
            outermostCounter := ns.outermostCounter + 1
            outermostCheck := rowChange P step ns.st.beta s1.beta }
    else some ns

/-- Lines 287-314: `while (groupChange == 1)`.  The loop has no cap in the
source; `scans` is the number of full scans the model may make, and the result
is `none` when a further scan is due after they are used up, or when a line
search does not return. -/
def scanLoop (P : Params K) (step fuel : ℕ) : ℕ → NestState K → Option (NestState K)
  | 0, ns => if ns.st.groupChange = 1 then none else some ns
  | scans + 1, ns =>
    if ns.st.groupChange = 1 then
      match rcppLinSolver P step (fun _ => 1) fuel { ns.st with groupChange := 0 } with
      | none => none
      | some s1 =>
        match refineLoop P step fuel (P.outerIter - ns.outermostCounter).toNat
            { ns with st := s1 } with
        | none => none
        | some ns1 => scanLoop P step fuel scans ns1
    else some ns

/-- Lines 260-285: the prologue of a path step. -/
def stepInit (P : Params K) (step : ℕ) (s : State K) : NestState K :=
  { st :=
      { s with
        isActive := fun i => if i < P.numGroup then 0 else s.isActive i
        beta :=
          if 0 < step then
            forLoop P.ncol
              (fun i b => Function.update b (step * P.ncol + i) (b ((step - 1) * P.ncol + i)))
              s.beta
          else s.beta
        groupChange := 1 }
    outermostCounter := 0
    outermostCheck := 100000 }

/-- Lines 258-315: one iteration of the loop over the path. -/
def pathStep (P : Params K) (fuel scans step : ℕ) (s : State K) : Option (State K) :=
  (scanLoop P step fuel scans (stepInit P step s)).map (fun ns => ns.st)

/-- Source `rcppLinNest` (lines 246-317); the result is the final state of the
arrays passed by reference. -/
def rcppLinNest (P : Params K) (fuel scans : ℕ) (s : State K) : Option (State K) :=
  forLoopM P.nlam (pathStep P fuel scans) s

end Model

section Predicates

variable {K : Type} [LinearOrderedField K]

/-- The groups lie inside `[0, ncol)` and are pairwise disjoint. -/
def GroupsOK (P : Params K) : Prop :=
  (∀ i, i < P.numGroup → P.rangeGroupInd i + P.groupLen i ≤ P.ncol) ∧
  (∀ i i2, i < P.numGroup → i2 < P.numGroup → i ≠ i2 →
    P.rangeGroupInd i + P.groupLen i ≤ P.rangeGroupInd i2 ∨
    P.rangeGroupInd i2 + P.groupLen i2 ≤ P.rangeGroupInd i)

/-- The invariant `eta = X * beta[step]`. -/
def LinPred (P : Params K) (step : ℕ) (s : State K) : Prop :=
  ∀ k, k < P.nrow →
    s.eta k = ∑ j ∈ Finset.range P.ncol, P.X (k + P.nrow * j) * s.beta (step * P.ncol + j)

/-- Every group flagged `betaIsZero = 1` has all-zero coefficients in row `step`. -/
def ZeroFlags (P : Params K) (step : ℕ) (s : State K) : Prop :=
  ∀ i, i < P.numGroup → s.betaIsZero i = 1 →
    ∀ j, j < P.groupLen i → s.beta (step * P.ncol + j + P.rangeGroupInd i) = 0

/-- States reached from `s` by completed passes of the inner loop body for
group `i` (any `count`, any amount of line-search fuel). -/
inductive InnerReach (P : Params K) (step i : ℕ) (s : State K) : State K → Prop
  | start : InnerReach P step i s s
  | next (s1 s2 : State K) (fuel : ℕ) (count : ℤ) (check : K) :
      InnerReach P step i s s1 →
      innerIteration P step i fuel count s1 = some (s2, check) →
      InnerReach P step i s s2

/-- The invariant carried through the active branch of group `i`. -/
def ActiveInv (P : Params K) (step i : ℕ) (s : State K) : Prop :=
  LinPred P step s ∧ ZeroFlags P step s ∧ s.betaIsZero i = 0

/-- The field `sqrt` is a square root on the non-negative elements. -/
def IsSqrt (f : K → K) : Prop :=
  ∀ x, 0 ≤ x → 0 ≤ f x ∧ f x * f x = x

/-- Euclidean norm of the first `n` entries, with the square root `f`. -/
def norm2 (f : K → K) (n : ℕ) (x : ℕ → K) : K :=
  f (∑ j ∈ Finset.range n, x j ^ 2)

/-- The objective of the proximal problem at `z` with penalty weight `c`:
`(1/2) * ||x - z||^2 + c * ||x||`. -/
def proxObjective (f : K → K) (n : ℕ) (c : K) (z x : ℕ → K) : K :=
  1 / 2 * ∑ j ∈ Finset.range n, (x j - z j) ^ 2 + c * norm2 f n x

/-- The contribution `X[:, group i] * v` of group `i` to the predictor. -/
def groupPredictor (P : Params K) (i : ℕ) (v : ℕ → K) : ℕ → K :=
  fun k => ∑ j ∈ Finset.range (P.groupLen i), P.X (k + P.nrow * (P.rangeGroupInd i + j)) * v j

/-- The coefficients of group `i` in row `step`. -/
def groupCoef (P : Params K) (step i : ℕ) (s : State K) : ℕ → K :=
  fun j => s.beta (step * P.ncol + j + P.rangeGroupInd i)

/-- The step size `t` is the reciprocal curvature of the reference loss along
the columns of group `i`: `t * X_g^T diag(w) X_g = sum(w) * I`. -/
def Curvature (P : Params K) (i : ℕ) (t : K) : Prop :=
  ∀ j j2, j < P.groupLen i → j2 < P.groupLen i →
    ∑ k ∈ Finset.range P.nrow, P.w k * P.X (k + P.nrow * (P.rangeGroupInd i + j))
        * P.X (k + P.nrow * (P.rangeGroupInd i + j2))
      = if j = j2 then vsum P.nrow P.w / t else 0

/-- The analytic solution of the group's penalised problem at step size `t`:
the soft-threshold of `-t * (screening gradient)`. -/
def analyticSolution (P : Params K) (step i : ℕ) (s : State K) : ℕ → K :=
  softThreshold P step i (fun j => -(s.t * nullGrad P step i s j)) s.t

/-- Distinct columns of `X` are orthogonal for the weights `w`. -/
def ColumnsOrthogonal (P : Params K) : Prop :=
  ∀ c c2, c < P.ncol → c2 < P.ncol → c ≠ c2 →
    ∑ k ∈ Finset.range P.nrow, P.w k * P.X (k + P.nrow * c) * P.X (k + P.nrow * c2) = 0

/-- Every back-tracking search of path step `step` that starts from a positive
step size exits after finitely many trials. -/
def LineSearchExits (P : Params K) (step : ℕ) : Prop :=
  ∀ (s : State K) (i : ℕ), i < P.numGroup → 0 < s.t →
    ∃ n, (backtrack P step i s (currentGrad P i s) (currentLoss P s) n s.t).isSome = true

/-- The number of groups not yet marked active. -/
def inactiveCount (P : Params K) (s : State K) : ℕ :=
  ((Finset.range P.numGroup).filter (fun i => s.isActive i = 0)).card

/-- The states of a full scan in which every group so far took the zero
branch. -/
def zeroScan (P : Params K) (step : ℕ) (n : ℕ) (s : State K) : State K :=
  forLoop n (fun i acc => zeroBranch P step i acc) s

/-- The state in which the first call of `rcppLinSolver` of a path step starts
visiting the groups. -/
def scanStart (P : Params K) (step : ℕ) (s : State K) : State K :=
  { (stepInit P step s).st with groupChange := 0, theta := fun _ => 0, t := P.momentum }

/-- Four observations, two groups of one column each; the columns
`(1/2, 1/2, 1/2, 1/2)` and `(1/2, -1/2, 1/2, -1/2)` are orthonormal, the weights
are 1, `y = (1, 2, 3, 4)`, identity link and reference loss. -/
def fourByTwo (K : Type) [LinearOrderedField K] (sqrt : K → K) (lam mom : K)
    (inner outer : ℤ) : Params K :=
  { X := fun idx => if idx < 4 then 1 / 2 else if idx % 2 = 0 then 1 / 2 else -(1 / 2)
    y := fun k => (k : K) + 1
    w := fun _ => 1
    adaweights := fun _ => 1
    nrow := 4
    ncol := 2
    numGroup := 2
    link := identityLinkCpp
    loglik := linLogLik 4
    rangeGroupInd := fun i => i
    groupLen := fun _ => 1
    lambda := fun _ => lam
    nlam := 1
    innerIter := inner
    outerIter := outer
    thresh := 0
    outerThresh := 0
    gamma := 1 / 2
    momentum := mom
    reset := 10
    sqrt := sqrt }

/-- The start of `rcppLinNest` on the two-column instance: `beta = 0`, `eta = 0`. -/
def zeroState (K : Type) [LinearOrderedField K] : State K :=
  { beta := fun _ => 0
    eta := fun _ => 0
    betaIsZero := fun _ => 1
    isActive := fun _ => 0
    groupChange := 0
    theta := fun _ => 0
    t := 0 }

/-- A one-observation, one-column instance: `X = [1]`, `y = [2]`, `w = [1]`, one
group of length 1, identity link and the reference loss. -/
def oneByOne (K : Type) [LinearOrderedField K] (sqrt : K → K) (lam mom : K) : Params K :=
  { X := fun _ => 1
    y := fun _ => 2
    w := fun _ => 1
    adaweights := fun _ => 1
    nrow := 1
    ncol := 1
    numGroup := 1
    link := identityLinkCpp
    loglik := linLogLik 1
    rangeGroupInd := fun _ => 0
    groupLen := fun _ => 1
    lambda := fun _ => lam
    nlam := 1
    innerIter := 0
    outerIter := 0
    thresh := 0
    outerThresh := 0
    gamma := 1 / 2
    momentum := mom
    reset := 10
    sqrt := sqrt }

/-- A state of the one-column instance with coefficient `b`, `eta = X * b` and
step size `t`. -/
def oneByOneState (K : Type) [LinearOrderedField K] (b : K) (flag : ℤ) (t : K) : State K :=
  { beta := fun _ => b
    eta := fun _ => b
    betaIsZero := fun _ => flag
    isActive := fun _ => 0
    groupChange := 0
    theta := fun _ => 0
    t := t }

/-- The weighted squared length `sum_k w[k] * (X_g v)[k]^2` of the image of `v`
under the columns of group `i`. -/
def weightedFit (P : Params K) (i : ℕ) (v : ℕ → K) : K :=
  ∑ k ∈ Finset.range P.nrow, P.w k * groupPredictor P i v k ^ 2

/-- The constant `sum_k w[k] * sum_j X[k, j]^2` over the columns of group `i`. -/
def columnMass (P : Params K) (i : ℕ) : K :=
  ∑ k ∈ Finset.range P.nrow, P.w k
    * ∑ j ∈ Finset.range (P.groupLen i), P.X (k + P.nrow * (P.rangeGroupInd i + j)) ^ 2

/-- Entry `c` of the flat coefficient array is a coefficient of row `step` in a
column of a group `i < n` that the call scans (`useGroup[i] = 1`). -/
def ScannedEntry (P : Params K) (step : ℕ) (useGroup : ℕ → ℤ) (n c : ℕ) : Prop :=
  ∃ i j, i < n ∧ useGroup i = 1 ∧ j < P.groupLen i ∧ c = step * P.ncol + j + P.rangeGroupInd i

/-- Every group lies inside `[0, ncol)`. -/
def GroupsInRange (P : Params K) : Prop :=
  ∀ i, i < P.numGroup → P.rangeGroupInd i + P.groupLen i ≤ P.ncol

/-- The one-column instance (`X = [1]`, `y = [2]`, `w = [1]`, one group of
length 1, `gamma = 1/2`, `reset = 10`, thresholds 0) with a path `lam` of `nlam`
penalties and the given starting step and iteration caps. -/
def oneColumn (K : Type) [LinearOrderedField K] (sqrt : K → K) (lam : ℕ → K) (mom : K)
    (inner outer : ℤ) (nlam : ℕ) : Params K :=
  { oneByOne K sqrt 0 mom with
    lambda := lam, innerIter := inner, outerIter := outer, nlam := nlam }

/-- What a run of the inner loop leaves: the state, the final values of the
loop variables `count` and `check`, and the step sizes `t` at which its line
searches started, in order. -/
structure InnerRun (K : Type) where
  st : State K
  count : ℤ
  check : K
  starts : List K

/-- The inner loop of lines 145-237 (as `innerLoop`), returning also the final
`count` and `check` and recording the value of `t` on entry to every
back-tracking search. -/
def innerLoopTrace (P : Params K) (step i fuel : ℕ) :
    ℕ → ℤ → K → State K → Option (InnerRun K)
  | 0, count, check, s => some { st := s, count := count, check := check, starts := [] }
  | rem + 1, count, check, s =>
    if count ≤ P.innerIter ∧ check > P.thresh then
      match innerIteration P step i fuel (count + 1) s with
      | none => none
      | some (s1, check1) =>
        (innerLoopTrace P step i fuel rem (count + 1) check1 s1).map
          (fun r => { r with starts := s.t :: r.starts })
    else some { st := s, count := count, check := check, starts := [] }

/-- The body of the loop over groups (as `solveGroup`) with the record of the
step sizes at which line searches started appended to the log. -/
def solveGroupTrace (P : Params K) (step : ℕ) (useGroup : ℕ → ℤ) (fuel i : ℕ)
    (a : State K × List K) : Option (State K × List K) :=
  if useGroup i = 1 then
    if zeroTest P step i a.1 then some (zeroBranch P step i a.1, a.2)
    else
      (innerLoopTrace P step i fuel (P.innerIter + 1).toNat 0 100000
          (activeInit P step i a.1)).map
        (fun r => (r.st, a.2 ++ r.starts))
  else some a

/-- Source `rcppLinSolver` (as the model of that name) with the log of the step
sizes at which its line searches started. -/
def rcppLinSolverTrace (P : Params K) (step : ℕ) (useGroup : ℕ → ℤ) (fuel : ℕ)
    (s : State K) : Option (State K × List K) :=
  forLoopM P.numGroup (solveGroupTrace P step useGroup fuel)
    ({ s with theta := fun _ => 0, t := P.momentum }, [])

/-- A log of line-search starting steps: with current step size `a`, each
search starts at the current step size and leaves it multiplied by a power of
`gamma`; `c` is the step size after the last search. -/
inductive StepChain (gamma : K) : K → List K → K → Prop
  | done (a : K) : StepChain gamma a [] a
  | search (a : K) (n : ℕ) (log : List K) (c : K) :
      StepChain gamma (a * gamma ^ n) log c → StepChain gamma a (a :: log) c

/-- The group-change loop of lines 287-314 (as `scanLoop`), recording for every
full scan the number of refinement passes that followed it, the increase of
`outermostCounter` over the refinement loop. -/
def scanLoopTrace (P : Params K) (step fuel : ℕ) :
    ℕ → NestState K → Option (NestState K × List ℤ)
  | 0, ns => if ns.st.groupChange = 1 then none else some (ns, [])
  | scans + 1, ns =>
    if ns.st.groupChange = 1 then
      match rcppLinSolver P step (fun _ => 1) fuel { ns.st with groupChange := 0 } with
      | none => none
      | some s1 =>
        match refineLoop P step fuel (P.outerIter - ns.outermostCounter).toNat
            { ns with st := s1 } with
        | none => none
        | some ns1 =>
          (scanLoopTrace P step fuel scans ns1).map
            (fun r => (r.1, (ns1.outermostCounter - ns.outermostCounter) :: r.2))
    else some (ns, [])

/-- The link plug-in acts on vectors of length `nrow`: its first `nrow` outputs
depend only on the first `nrow` inputs. -/
def LinkLocal (P : Params K) : Prop :=
  ∀ e e2 : ℕ → K, (∀ k, k < P.nrow → e k = e2 k) → ∀ k, k < P.nrow → P.link e k = P.link e2 k

end Predicates

section Lemmas

variable {K : Type} [LinearOrderedField K]

open Finset

theorem forLoop_add_eq (n : ℕ) (f : ℕ → K) (a : K) :
    forLoop n (fun j acc => acc + f j) a = a + ∑ j ∈ range n, f j := by
  induction n with
  | zero => simp [forLoop]
  | succ m ih => simp only [forLoop, ih, sum_range_succ]; ring

theorem forLoop_sub_eq (n : ℕ) (f : ℕ → K) (a : K) :
    forLoop n (fun j acc => acc - f j) a = a - ∑ j ∈ range n, f j := by
  induction n with
  | zero => simp [forLoop]
  | succ m ih => simp only [forLoop, ih, sum_range_succ]; ring

theorem vsum_eq_sum (n : ℕ) (v : ℕ → K) : vsum n v = ∑ k ∈ range n, v k := by
  unfold vsum
  rw [forLoop_add_eq, zero_add]

/-- A sum over the columns of a function that vanishes outside one block. -/
theorem sum_range_block (f : ℕ → K) (start len ncol : ℕ) (h : start + len ≤ ncol)
    (hz : ∀ j, j < ncol → (j < start ∨ start + len ≤ j) → f j = 0) :
    ∑ j ∈ range ncol, f j = ∑ j ∈ range len, f (start + j) := by
  obtain ⟨r, rfl⟩ : ∃ r, ncol = start + len + r := ⟨ncol - (start + len), by omega⟩
  rw [sum_range_add, sum_range_add]
  have h1 : ∑ x ∈ range start, f x = 0 :=
    sum_eq_zero (fun x hx => hz x (by have := mem_range.mp hx; omega)
      (Or.inl (mem_range.mp hx)))
  have h3 : ∑ x ∈ range r, f (start + len + x) = 0 :=
    sum_eq_zero (fun x hx => hz _ (by have := mem_range.mp hx; omega) (Or.inr (by omega)))
  rw [h1, h3]; ring

/-- Changing the coefficients of one block changes `X * beta` by the block's
contribution. -/
theorem sum_block_change (x b b2 : ℕ → K) (start len ncol : ℕ) (h : start + len ≤ ncol)
    (hout : ∀ j, j < ncol → (j < start ∨ start + len ≤ j) → b2 j = b j) :
    ∑ j ∈ range ncol, x j * b2 j =
      ∑ j ∈ range ncol, x j * b j
        + ∑ j ∈ range len, x (start + j) * (b2 (start + j) - b (start + j)) := by
  have key := sum_range_block (fun j => x j * (b2 j - b j)) start len ncol h
    (fun j hj hj2 => by simp [hout j hj hj2])
  have : ∑ j ∈ range ncol, x j * b2 j
      = ∑ j ∈ range ncol, x j * b j + ∑ j ∈ range ncol, x j * (b2 j - b j) := by
    rw [← sum_add_distrib]
    exact sum_congr rfl (fun j _ => by ring)
  rw [this, key]

/-! ### The linear-predictor invariant -/

theorem zeroBranch_beta (P : Params K) (step i : ℕ) (s : State K) (c : ℕ) :
    (zeroBranch P step i s).beta c =
      if ∃ j, j < P.groupLen i ∧ c = step * P.ncol + j + P.rangeGroupInd i then 0
      else s.beta c := by
  have key : ∀ n, forLoop n
      (fun j b => Function.update b (step * P.ncol + j + P.rangeGroupInd i) (0 : K)) s.beta c
      = if ∃ j, j < n ∧ c = step * P.ncol + j + P.rangeGroupInd i then 0 else s.beta c := by
    intro n
    induction n with
    | zero => simp [forLoop]
    | succ m ih =>
      simp only [forLoop, Function.update_apply, ih]
      by_cases hc : c = step * P.ncol + m + P.rangeGroupInd i
      · rw [if_pos hc, if_pos ⟨m, Nat.lt_succ_self m, hc⟩]
      · rw [if_neg hc]
        by_cases he : ∃ j, j < m ∧ c = step * P.ncol + j + P.rangeGroupInd i
        · obtain ⟨j, hj, hjc⟩ := he
          rw [if_pos ⟨j, hj, hjc⟩, if_pos ⟨j, Nat.lt_succ_of_lt hj, hjc⟩]
        · rw [if_neg he, if_neg]
          rintro ⟨j, hj, hjc⟩
          rcases Nat.lt_succ_iff_lt_or_eq.mp hj with h1 | h1
          · exact he ⟨j, h1, hjc⟩
          · exact hc (h1 ▸ hjc)
  exact key (P.groupLen i)

theorem zeroBranch_linPred (P : Params K) (step i : ℕ) (s : State K)
    (hin : P.rangeGroupInd i + P.groupLen i ≤ P.ncol)
    (hz : s.betaIsZero i ≠ 0 →
      ∀ j, j < P.groupLen i → s.beta (step * P.ncol + j + P.rangeGroupInd i) = 0)
    (h : LinPred P step s) : LinPred P step (zeroBranch P step i s) := by
  intro k hk
  have hsum := sum_block_change (fun j => P.X (k + P.nrow * j))
    (fun j => s.beta (step * P.ncol + j))
    (fun j => (zeroBranch P step i s).beta (step * P.ncol + j))
    (P.rangeGroupInd i) (P.groupLen i) P.ncol hin
    (fun j _ hj => by
      simp only [zeroBranch_beta]
      rw [if_neg]
      rintro ⟨j2, hj2, he⟩
      omega)
  have hblock : ∀ j, j < P.groupLen i →
      (zeroBranch P step i s).beta (step * P.ncol + (P.rangeGroupInd i + j)) = 0 := by
    intro j hj
    rw [zeroBranch_beta, if_pos ⟨j, hj, by omega⟩]
  rw [hsum]
  have hsum2 : ∑ j ∈ range (P.groupLen i), P.X (k + P.nrow * (P.rangeGroupInd i + j)) *
        ((zeroBranch P step i s).beta (step * P.ncol + (P.rangeGroupInd i + j))
          - s.beta (step * P.ncol + (P.rangeGroupInd i + j)))
      = - ∑ j ∈ range (P.groupLen i), P.X (k + P.nrow * (P.rangeGroupInd i + j)) *
          s.beta (step * P.ncol + (P.rangeGroupInd i + j)) := by
    rw [← sum_neg_distrib]
    exact sum_congr rfl (fun j hj => by rw [hblock j (mem_range.mp hj)]; ring)
  rw [hsum2, ← h k hk]
  by_cases hb : s.betaIsZero i = 0
  · simp only [zeroBranch, if_pos hb, if_pos hk, forLoop_sub_eq]
    ring
  · simp only [zeroBranch, if_neg hb]
    have : ∑ j ∈ range (P.groupLen i), P.X (k + P.nrow * (P.rangeGroupInd i + j)) *
          s.beta (step * P.ncol + (P.rangeGroupInd i + j)) = 0 :=
      sum_eq_zero (fun j hj => by
        have := hz hb j (mem_range.mp hj)
        rw [show step * P.ncol + (P.rangeGroupInd i + j)
          = step * P.ncol + j + P.rangeGroupInd i by omega, this, mul_zero])
    rw [this]; ring

theorem zeroBranch_zeroFlags (P : Params K) (step i : ℕ) (s : State K)
    (h : ZeroFlags P step s) : ZeroFlags P step (zeroBranch P step i s) := by
  intro i2 hi2 hflag j hj
  rw [zeroBranch_beta]
  by_cases he : ∃ j2, j2 < P.groupLen i ∧
      step * P.ncol + j + P.rangeGroupInd i2 = step * P.ncol + j2 + P.rangeGroupInd i
  · rw [if_pos he]
  · rw [if_neg he]
    by_cases hii : i2 = i
    · subst hii
      exact absurd ⟨j, hj, rfl⟩ he
    · have hflag2 : s.betaIsZero i2 = 1 := by
        simpa [zeroBranch, Function.update_apply, hii] using hflag
      exact h i2 hi2 hflag2 j hj

/-- The fields the commit loop does not write. -/
theorem commit_frame (P : Params K) (step i : ℕ) (count : ℤ) (U : ℕ → K) (s : State K) :
    (commit P step i count U s).1.betaIsZero = s.betaIsZero ∧
    (commit P step i count U s).1.isActive = s.isActive ∧
    (commit P step i count U s).1.groupChange = s.groupChange ∧
    (commit P step i count U s).1.t = s.t := by
  unfold commit
  induction P.groupLen i with
  | zero => simp [forLoop]
  | succ m ih => simpa [forLoop, commitCoef] using ih

/-- The commit loop writes only coefficients of its group. -/
theorem commit_beta_outside (P : Params K) (step i : ℕ) (count : ℤ) (U : ℕ → K)
    (s : State K) (c : ℕ)
    (hc : ∀ j, j < P.groupLen i → c ≠ step * P.ncol + j + P.rangeGroupInd i) :
    (commit P step i count U s).1.beta c = s.beta c := by
  unfold commit
  revert hc
  induction P.groupLen i with
  | zero => intro _; simp [forLoop]
  | succ m ih =>
    intro hc
    simp only [forLoop, commitCoef, Function.update_apply]
    rw [if_neg (hc m (Nat.lt_succ_self m))]
    exact ih (fun j hj => hc j (Nat.lt_succ_of_lt hj))

theorem commitCoef_linPred (P : Params K) (step i : ℕ) (count : ℤ) (U : ℕ → K) (j : ℕ)
    (a : State K × K) (hj : j + P.rangeGroupInd i < P.ncol) (h : LinPred P step a.1) :
    LinPred P step (commitCoef P step i count U j a).1 := by
  intro k hk
  have hsum := sum_block_change (fun j2 => P.X (k + P.nrow * j2))
    (fun j2 => a.1.beta (step * P.ncol + j2))
    (fun j2 => (commitCoef P step i count U j a).1.beta (step * P.ncol + j2))
    (j + P.rangeGroupInd i) 1 P.ncol (by omega)
    (fun j2 _ hj2 => by
      simp only [commitCoef, Function.update_apply]
      rw [if_neg]
      omega)
  rw [hsum, ← h k hk]
  simp only [commitCoef, if_pos hk, Function.update_apply, sum_range_one, add_zero,
    show step * P.ncol + (j + P.rangeGroupInd i) = step * P.ncol + j + P.rangeGroupInd i
      by omega, if_true]
  ring

theorem commit_linPred (P : Params K) (step i : ℕ) (count : ℤ) (U : ℕ → K) (s : State K)
    (hin : P.rangeGroupInd i + P.groupLen i ≤ P.ncol) (h : LinPred P step s) :
    LinPred P step (commit P step i count U s).1 := by
  unfold commit
  revert hin
  induction P.groupLen i with
  | zero => intro _; simpa [forLoop] using h
  | succ m ih =>
    intro hin
    simp only [forLoop]
    exact commitCoef_linPred P step i count U m _ (by omega) (ih (by omega))

theorem commit_activeInv (P : Params K) (step i : ℕ) (count : ℤ) (U : ℕ → K) (s : State K)
    (hG : GroupsOK P) (hi : i < P.numGroup) (h : ActiveInv P step i s) :
    ActiveInv P step i (commit P step i count U s).1 := by
  obtain ⟨h1, h2, h3⟩ := h
  have hfr := commit_frame P step i count U s
  refine ⟨commit_linPred P step i count U s (hG.1 i hi) h1, ?_, by rw [hfr.1]; exact h3⟩
  intro i2 hi2 hflag j hj
  rw [hfr.1] at hflag
  have hne : i2 ≠ i := by
    rintro rfl
    rw [h3] at hflag
    exact absurd hflag (by decide)
  rw [commit_beta_outside]
  · exact h2 i2 hi2 hflag j hj
  · intro j2 hj2
    rcases hG.2 i2 i hi2 hi hne with hd | hd <;> omega

theorem innerIteration_activeInv (P : Params K) (step i fuel : ℕ) (count : ℤ)
    (s s2 : State K) (check : K) (hG : GroupsOK P) (hi : i < P.numGroup)
    (h : ActiveInv P step i s)
    (hrun : innerIteration P step i fuel count s = some (s2, check)) :
    ActiveInv P step i s2 := by
  unfold innerIteration at hrun
  split at hrun
  · exact absurd hrun (by simp)
  · rename_i t1 r _
    have hs : commit P step i count r.U { s with t := t1 / P.gamma } = (s2, check) := by
      simpa using hrun
    have := commit_activeInv P step i count r.U { s with t := t1 / P.gamma } hG hi h
    rw [hs] at this
    exact this

theorem innerReach_activeInv (P : Params K) (step i : ℕ) (s s2 : State K)
    (hG : GroupsOK P) (hi : i < P.numGroup) (h : ActiveInv P step i s)
    (hr : InnerReach P step i s s2) : ActiveInv P step i s2 := by
  induction hr with
  | start => exact h
  | next s1 s3 fuel count check _ hrun ih =>
    exact innerIteration_activeInv P step i fuel count s1 s3 check hG hi ih hrun

theorem innerLoop_activeInv (P : Params K) (step i fuel : ℕ) (hG : GroupsOK P)
    (hi : i < P.numGroup) (rem : ℕ) :
    ∀ (count : ℤ) (check : K) (s s2 : State K), ActiveInv P step i s →
      innerLoop P step i fuel rem count check s = some s2 → ActiveInv P step i s2 := by
  induction rem with
  | zero =>
    intro count check s s2 h hrun
    simp only [innerLoop, Option.some.injEq] at hrun
    exact hrun ▸ h
  | succ m ih =>
    intro count check s s2 h hrun
    simp only [innerLoop] at hrun
    split at hrun
    · split at hrun
      · exact absurd hrun (by simp)
      · rename_i s1 check1 hit
        exact ih _ _ _ _ (innerIteration_activeInv P step i fuel _ s s1 check1 hG hi h hit) hrun
    · simp only [Option.some.injEq] at hrun
      exact hrun ▸ h

theorem activeInit_activeInv (P : Params K) (step i : ℕ) (s : State K)
    (h1 : LinPred P step s) (h2 : ZeroFlags P step s) :
    ActiveInv P step i (activeInit P step i s) := by
  refine ⟨fun k hk => by simpa [activeInit] using h1 k hk, ?_, by simp [activeInit]⟩
  intro i2 hi2 hflag j hj
  have hne : i2 ≠ i := by
    rintro rfl
    simp [activeInit] at hflag
  have : s.betaIsZero i2 = 1 := by
    simpa [activeInit, Function.update_apply, hne] using hflag
  simpa [activeInit] using h2 i2 hi2 this j hj

/-! ### The group soft-threshold -/

theorem isSqrt_unique {f : K → K} (hs : IsSqrt f) {x y : K} (hy : 0 ≤ y) (h : y * y = x) :
    f x = y := by
  have hx : 0 ≤ x := h ▸ mul_nonneg hy hy
  obtain ⟨h1, h2⟩ := hs x hx
  have : f x ^ 2 = y ^ 2 := by rw [sq, sq, h2, h]
  exact (pow_left_inj₀ h1 hy two_ne_zero).mp this

theorem isSqrt_zero {f : K → K} (hs : IsSqrt f) : f 0 = 0 :=
  isSqrt_unique hs le_rfl (mul_zero 0)

theorem norm2_nonneg {f : K → K} (hs : IsSqrt f) (n : ℕ) (x : ℕ → K) : 0 ≤ norm2 f n x :=
  (hs _ (sum_nonneg (fun j _ => sq_nonneg (x j)))).1

theorem norm2_sq {f : K → K} (hs : IsSqrt f) (n : ℕ) (x : ℕ → K) :
    norm2 f n x * norm2 f n x = ∑ j ∈ range n, x j ^ 2 :=
  (hs _ (sum_nonneg (fun j _ => sq_nonneg (x j)))).2

/-- Cauchy-Schwarz for the first `n` entries. -/
theorem inner_le_norm2 {f : K → K} (hs : IsSqrt f) (n : ℕ) (a b : ℕ → K) :
    ∑ j ∈ range n, a j * b j ≤ norm2 f n a * norm2 f n b := by
  have hcs := sum_mul_sq_le_sq_mul_sq (range n) a b
  have hnn : 0 ≤ norm2 f n a * norm2 f n b :=
    mul_nonneg (norm2_nonneg hs n a) (norm2_nonneg hs n b)
  have hsq : (∑ j ∈ range n, a j * b j) ^ 2 ≤ (norm2 f n a * norm2 f n b) ^ 2 := by
    calc (∑ j ∈ range n, a j * b j) ^ 2
        ≤ (∑ j ∈ range n, a j ^ 2) * ∑ j ∈ range n, b j ^ 2 := hcs
      _ = (norm2 f n a * norm2 f n b) ^ 2 := by
          rw [← norm2_sq hs n a, ← norm2_sq hs n b]; ring
  exact le_trans (le_abs_self _) (abs_le_of_sq_le_sq hsq hnn)

theorem norm2_eq_zero {f : K → K} (hs : IsSqrt f) (n : ℕ) (x : ℕ → K)
    (h : norm2 f n x = 0) : ∀ j, j < n → x j = 0 := by
  intro j hj
  have h0 : ∑ j ∈ range n, x j ^ 2 = 0 := by rw [← norm2_sq hs n x, h, mul_zero]
  have := (sum_eq_zero_iff_of_nonneg (fun j _ => sq_nonneg (x j))).mp h0 j (mem_range.mpr hj)
  exact pow_eq_zero_iff two_ne_zero |>.mp this

theorem norm2_smul {f : K → K} (hs : IsSqrt f) (n : ℕ) (u : K) (hu : 0 ≤ u) (x : ℕ → K) :
    norm2 f n (fun j => u * x j) = u * norm2 f n x := by
  unfold norm2
  apply isSqrt_unique hs (mul_nonneg hu (norm2_nonneg hs n x))
  have := norm2_sq hs n x
  unfold norm2 at this
  calc u * f (∑ j ∈ range n, x j ^ 2) * (u * f (∑ j ∈ range n, x j ^ 2))
      = u ^ 2 * (f (∑ j ∈ range n, x j ^ 2) * f (∑ j ∈ range n, x j ^ 2)) := by ring
    _ = u ^ 2 * ∑ j ∈ range n, x j ^ 2 := by rw [this]
    _ = ∑ j ∈ range n, (u * x j) ^ 2 := by
        rw [mul_sum]; exact sum_congr rfl (fun j _ => by ring)

theorem shrink_nonneg (P : Params K) (step i : ℕ) (z : ℕ → K) (t : K) :
    0 ≤ shrink P step i z t := by
  unfold shrink
  dsimp only
  split_ifs with h1 h2 h3
  · exact le_rfl
  · exact not_lt.mp h2
  · exact le_rfl
  · exact le_rfl

/-- The subgradient inequality of the soft-threshold `U` of `z`:
`<z - U, x - U> + c * ||U|| <= c * ||x||` with `c = t * adaweight * lambda * sqrt(len)`. -/
theorem softThreshold_subgradient (P : Params K) (step i : ℕ) (z : ℕ → K) (t : K)
    (hs : IsSqrt P.sqrt) (ht : 0 < t) (ha : 0 ≤ P.adaweights i) (hl : 0 ≤ P.lambda step)
    (x : ℕ → K) :
    ∑ j ∈ range (P.groupLen i),
        (z j - softThreshold P step i z t j) * (x j - softThreshold P step i z t j)
      + t * P.adaweights i * P.lambda step * P.sqrt (P.groupLen i : K)
          * norm2 P.sqrt (P.groupLen i) (softThreshold P step i z t)
      ≤ t * P.adaweights i * P.lambda step * P.sqrt (P.groupLen i : K)
          * norm2 P.sqrt (P.groupLen i) x := by
  set n := P.groupLen i with hn
  set C := t * P.adaweights i * P.lambda step * P.sqrt (n : K) with hC
  have hC0 : 0 ≤ C := by
    have := (hs (n : K) (Nat.cast_nonneg n)).1
    positivity
  have hNx := norm2_nonneg hs n x
  have hNz := norm2_nonneg hs n z
  have hcs := inner_le_norm2 hs n z x
  have hshr : shrink P step i z t =
      (if (if norm2 P.sqrt n z ≠ 0 then 1 - C / norm2 P.sqrt n z else 0) < 0 then 0
        else (if norm2 P.sqrt n z ≠ 0 then 1 - C / norm2 P.sqrt n z else 0)) := by
    simp only [shrink, norm2, vsum_eq_sum, hC, ← hn]
    congr 2 <;> ring_nf
  by_cases hz : norm2 P.sqrt n z = 0
  · have hz0 := norm2_eq_zero hs n z hz
    have hU : ∀ j, j < n → softThreshold P step i z t j = 0 := fun j hj => by
      simp [softThreshold, hz0 j hj]
    have hNU : norm2 P.sqrt n (softThreshold P step i z t) = 0 := by
      unfold norm2
      rw [sum_eq_zero (fun j hj => by rw [hU j (mem_range.mp hj)]; ring)]
      exact isSqrt_zero hs
    rw [hNU, mul_zero, add_zero,
      sum_eq_zero (fun j hj => by rw [hz0 j (mem_range.mp hj), hU j (mem_range.mp hj)]; ring)]
    exact mul_nonneg hC0 hNx
  · have hzpos : 0 < norm2 P.sqrt n z := lt_of_le_of_ne hNz (Ne.symm hz)
    rw [if_pos hz] at hshr
    by_cases hneg : 1 - C / norm2 P.sqrt n z < 0
    · rw [if_pos hneg] at hshr
      have hU : ∀ j, softThreshold P step i z t j = 0 := fun j => by
        simp [softThreshold, hshr]
      have hNU : norm2 P.sqrt n (softThreshold P step i z t) = 0 := by
        unfold norm2
        rw [sum_eq_zero (fun j _ => by rw [hU j]; ring)]
        exact isSqrt_zero hs
      have hlt : norm2 P.sqrt n z < C := by
        have : 1 < C / norm2 P.sqrt n z := by linarith
        exact (one_lt_div hzpos).mp this
      rw [hNU, mul_zero, add_zero]
      calc ∑ j ∈ range n, (z j - softThreshold P step i z t j)
              * (x j - softThreshold P step i z t j)
          = ∑ j ∈ range n, z j * x j :=
            sum_congr rfl (fun j _ => by rw [hU j]; ring)
        _ ≤ norm2 P.sqrt n z * norm2 P.sqrt n x := hcs
        _ ≤ C * norm2 P.sqrt n x := mul_le_mul_of_nonneg_right hlt.le hNx
    · rw [if_neg hneg] at hshr
      have hu0 : 0 ≤ 1 - C / norm2 P.sqrt n z := not_lt.mp hneg
      have hU : softThreshold P step i z t = fun j => (1 - C / norm2 P.sqrt n z) * z j := by
        funext j; simp [softThreshold, hshr]
      rw [hU, norm2_smul hs n _ hu0 z]
      have hsum : ∑ j ∈ range n, (z j - (1 - C / norm2 P.sqrt n z) * z j)
            * (x j - (1 - C / norm2 P.sqrt n z) * z j)
          = C / norm2 P.sqrt n z * ∑ j ∈ range n, z j * x j
            - C / norm2 P.sqrt n z * (1 - C / norm2 P.sqrt n z)
              * (norm2 P.sqrt n z * norm2 P.sqrt n z) := by
        rw [norm2_sq hs n z, mul_sum, mul_sum, ← sum_sub_distrib]
        exact sum_congr rfl (fun j _ => by ring)
      rw [hsum]
      have h1 : C / norm2 P.sqrt n z * ∑ j ∈ range n, z j * x j
          ≤ C / norm2 P.sqrt n z * (norm2 P.sqrt n z * norm2 P.sqrt n x) :=
        mul_le_mul_of_nonneg_left hcs (div_nonneg hC0 hNz)
      have h2 : C / norm2 P.sqrt n z * (norm2 P.sqrt n z * norm2 P.sqrt n x)
          = C * norm2 P.sqrt n x := by field_simp; ring
      have h3 : C / norm2 P.sqrt n z * (1 - C / norm2 P.sqrt n z)
            * (norm2 P.sqrt n z * norm2 P.sqrt n z)
          = C * ((1 - C / norm2 P.sqrt n z) * norm2 P.sqrt n z) := by field_simp
      linarith

theorem isSqrt_real : IsSqrt Real.sqrt :=
  fun x hx => ⟨Real.sqrt_nonneg x, Real.mul_self_sqrt hx⟩

/-- The proximal objective at `x` exceeds its value at the soft-threshold `U`
by at least `(1/2) * ||x - U||^2`. -/
theorem proxObjective_gap (P : Params K) (step i : ℕ) (z : ℕ → K) (t : K)
    (hs : IsSqrt P.sqrt) (ht : 0 < t) (ha : 0 ≤ P.adaweights i) (hl : 0 ≤ P.lambda step)
    (x : ℕ → K) :
    proxObjective P.sqrt (P.groupLen i)
        (t * P.adaweights i * P.lambda step * P.sqrt (P.groupLen i : K)) z
        (softThreshold P step i z t)
      + 1 / 2 * ∑ j ∈ range (P.groupLen i), (x j - softThreshold P step i z t j) ^ 2
      ≤ proxObjective P.sqrt (P.groupLen i)
        (t * P.adaweights i * P.lambda step * P.sqrt (P.groupLen i : K)) z x := by
  have hsub := softThreshold_subgradient P step i z t hs ht ha hl x
  have hexp : ∑ j ∈ range (P.groupLen i), (x j - z j) ^ 2
      = ∑ j ∈ range (P.groupLen i), (x j - softThreshold P step i z t j) ^ 2
        - 2 * ∑ j ∈ range (P.groupLen i),
            (z j - softThreshold P step i z t j) * (x j - softThreshold P step i z t j)
        + ∑ j ∈ range (P.groupLen i), (softThreshold P step i z t j - z j) ^ 2 := by
    rw [mul_sum, ← sum_sub_distrib, ← sum_add_distrib]
    exact sum_congr rfl (fun j _ => by ring)
  unfold proxObjective
  rw [hexp]
  linarith

/-! ### The zero test -/

/-- The squared test of line 108 is the norm inequality. -/
theorem zeroTest_iff_norm (P : Params K) (step i : ℕ) (s : State K)
    (hs : IsSqrt P.sqrt) (ha : 0 ≤ P.adaweights i) (hl : 0 ≤ P.lambda step) :
    zeroTest P step i s ↔
      norm2 P.sqrt (P.groupLen i) (nullGrad P step i s)
        ≤ P.adaweights i * P.lambda step * P.sqrt (P.groupLen i : K) := by
  have hlen := hs (P.groupLen i : K) (Nat.cast_nonneg _)
  have hN := norm2_nonneg hs (P.groupLen i) (nullGrad P step i s)
  have hNsq := norm2_sq hs (P.groupLen i) (nullGrad P step i s)
  have hR : 0 ≤ P.adaweights i * P.lambda step * P.sqrt (P.groupLen i : K) :=
    mul_nonneg (mul_nonneg ha hl) hlen.1
  have hRsq : P.adaweights i * P.lambda step * P.sqrt (P.groupLen i : K)
        * (P.adaweights i * P.lambda step * P.sqrt (P.groupLen i : K))
      = P.adaweights i ^ 2 * P.lambda step ^ 2 * (P.groupLen i : K) := by
    calc P.adaweights i * P.lambda step * P.sqrt (P.groupLen i : K)
          * (P.adaweights i * P.lambda step * P.sqrt (P.groupLen i : K))
        = P.adaweights i ^ 2 * P.lambda step ^ 2
          * (P.sqrt (P.groupLen i : K) * P.sqrt (P.groupLen i : K)) := by ring
      _ = P.adaweights i ^ 2 * P.lambda step ^ 2 * (P.groupLen i : K) := by rw [hlen.2]
  unfold zeroTest zeroCheck
  rw [vsum_eq_sum, ← hNsq, ← hRsq]
  exact (mul_self_le_mul_self_iff hN hR).symm

theorem zeroBranch_group_zero (P : Params K) (step i : ℕ) (s : State K) (j : ℕ)
    (hj : j < P.groupLen i) :
    (zeroBranch P step i s).beta (step * P.ncol + j + P.rangeGroupInd i) = 0 := by
  rw [zeroBranch_beta, if_pos ⟨j, hj, rfl⟩]

/-! ### The back-tracking loop -/

/-- If the trials at `t0, t0*gamma, ..., t0*gamma^(n-1)` are rejected and the
trial at `t0*gamma^n` is accepted, the loop returns that trial, given fuel for
`n + 1` trials. -/
theorem backtrack_first_accept (P : Params K) (step i : ℕ) (s : State K) (grad : ℕ → K)
    (Lold : K) (n : ℕ) :
    ∀ (t0 : K) (fuel : ℕ),
      (∀ m, m < n → (trial P step i s grad Lold (t0 * P.gamma ^ m)).diff < 0) →
      0 ≤ (trial P step i s grad Lold (t0 * P.gamma ^ n)).diff →
      n < fuel →
      backtrack P step i s grad Lold fuel t0
        = some (t0 * P.gamma ^ n * P.gamma, trial P step i s grad Lold (t0 * P.gamma ^ n)) := by
  induction n with
  | zero =>
    intro t0 fuel _ hacc hfuel
    obtain ⟨f, rfl⟩ : ∃ f, fuel = f + 1 := ⟨fuel - 1, by omega⟩
    simp only [pow_zero, mul_one] at hacc ⊢
    simp only [backtrack]
    rw [if_neg (not_lt.mpr hacc)]
  | succ m ih =>
    intro t0 fuel hrej hacc hfuel
    obtain ⟨f, rfl⟩ : ∃ f, fuel = f + 1 := ⟨fuel - 1, by omega⟩
    have h0 := hrej 0 (Nat.succ_pos m)
    simp only [pow_zero, mul_one] at h0
    simp only [backtrack]
    rw [if_pos h0]
    have hpow : ∀ q, t0 * P.gamma * P.gamma ^ q = t0 * P.gamma ^ (q + 1) := fun q => by
      rw [pow_succ]; ring
    have := ih (t0 * P.gamma) f
      (fun q hq => by rw [hpow]; exact hrej (q + 1) (by omega))
      (by rw [hpow]; exact hacc) (by omega)
    rw [this, hpow]

/-- With `lambda = 0` the soft-threshold returns the candidate. -/
theorem softThreshold_lambda_zero (P : Params K) (step i : ℕ) (z : ℕ → K) (t : K)
    (hs : IsSqrt P.sqrt) (hl : P.lambda step = 0) (j : ℕ) (hj : j < P.groupLen i) :
    softThreshold P step i z t j = z j := by
  by_cases hz : P.sqrt (vsum (P.groupLen i) fun j => z j ^ 2) = 0
  · have := norm2_eq_zero hs (P.groupLen i) z (by unfold norm2; rw [← vsum_eq_sum]; exact hz) j hj
    simp [softThreshold, this]
  · simp [softThreshold, shrink, hz, hl]

/-- Closed form of `diff` on the unpenalised one-column instance, in any state. -/
theorem oneByOne_trial_diff (s : State ℝ) (step : ℕ) (t mom : ℝ) (ht : t ≠ 0) :
    (trial (oneByOne ℝ Real.sqrt 0 mom) step 0 s
        (currentGrad (oneByOne ℝ Real.sqrt 0 mom) 0 s)
        (currentLoss (oneByOne ℝ Real.sqrt 0 mom) s) t).diff
      = (s.eta 0 - 2) ^ 2 * (t / 2) * (1 - t) := by
  have hU := fun z => softThreshold_lambda_zero (oneByOne ℝ Real.sqrt 0 mom) step 0 z t
    isSqrt_real rfl 0 Nat.one_pos
  simp only [trial, vsum, forLoop, hU, candidate]
  simp only [oneByOne, linLogLik, identityLinkCpp, currentGrad, currentLoss,
    groupGrad, rcppLinGradCalc, vsum, forLoop]
  norm_num
  field_simp
  ring

/-- A result of the back-tracking loop is the first accepted trial. -/
theorem backtrack_some (P : Params K) (step i : ℕ) (s : State K) (grad : ℕ → K)
    (Lold : K) (fuel : ℕ) :
    ∀ (t0 t1 : K) (r : Trial K), backtrack P step i s grad Lold fuel t0 = some (t1, r) →
      ∃ n, n < fuel ∧
        (∀ m, m < n → (trial P step i s grad Lold (t0 * P.gamma ^ m)).diff < 0) ∧
        0 ≤ (trial P step i s grad Lold (t0 * P.gamma ^ n)).diff ∧
        t1 = t0 * P.gamma ^ n * P.gamma ∧
        r = trial P step i s grad Lold (t0 * P.gamma ^ n) := by
  induction fuel with
  | zero => intro t0 t1 r h; simp [backtrack] at h
  | succ f ih =>
    intro t0 t1 r h
    simp only [backtrack] at h
    split at h
    · rename_i hneg
      obtain ⟨n, hn, hrej, hacc, ht1, hr⟩ := ih _ _ _ h
      have hpow : ∀ q, t0 * P.gamma * P.gamma ^ q = t0 * P.gamma ^ (q + 1) := fun q => by
        rw [pow_succ]; ring
      refine ⟨n + 1, by omega, ?_, ?_, ?_, ?_⟩
      · intro m hm
        rcases Nat.eq_zero_or_pos m with h0 | h0
        · subst h0; simpa using hneg
        · obtain ⟨q, rfl⟩ : ∃ q, m = q + 1 := ⟨m - 1, by omega⟩
          rw [← hpow]; exact hrej q (by omega)
      · rw [← hpow]; exact hacc
      · rw [← hpow]; exact ht1
      · rw [← hpow]; exact hr
    · rename_i hneg
      simp only [Option.some.injEq, Prod.mk.injEq] at h
      exact ⟨0, by omega, fun m hm => absurd hm (by omega), by simpa using not_lt.mp hneg,
        by simpa using h.1.symm, by simpa using h.2.symm⟩

/-- An accepted trial does not increase the penalised objective. -/
theorem trial_penalised_descent (P : Params K) (step i : ℕ) (s : State K) (grad : ℕ → K)
    (Lold t : K) (hs : IsSqrt P.sqrt) (ht : 0 < t) (ha : 0 ≤ P.adaweights i)
    (hl : 0 ≤ P.lambda step) (hacc : 0 ≤ (trial P step i s grad Lold t).diff) :
    (trial P step i s grad Lold t).Lnew
        + P.adaweights i * P.lambda step * P.sqrt (P.groupLen i : K)
          * norm2 P.sqrt (P.groupLen i) (trial P step i s grad Lold t).U
      ≤ Lold + P.adaweights i * P.lambda step * P.sqrt (P.groupLen i : K)
          * norm2 P.sqrt (P.groupLen i)
              (fun j => s.beta (step * P.ncol + j + P.rangeGroupInd i)) := by
  set β : ℕ → K := fun j => s.beta (step * P.ncol + j + P.rangeGroupInd i) with hβ
  set U := softThreshold P step i (candidate P step i s grad t) t with hU
  have hsub := softThreshold_subgradient P step i (candidate P step i s grad t) t hs ht ha hl β
  rw [← hU] at hsub
  set D := ∑ j ∈ range (P.groupLen i), (β j - U j) ^ 2 with hD
  set E := ∑ j ∈ range (P.groupLen i), grad j * (β j - U j) with hE
  have hD0 : 0 ≤ D := sum_nonneg (fun j _ => sq_nonneg _)
  have h1 : ∑ j ∈ range (P.groupLen i), (candidate P step i s grad t j - U j) * (β j - U j)
      = D - t * E := by
    rw [hD, hE, mul_sum, ← sum_sub_distrib]
    exact sum_congr rfl (fun j _ => by simp only [candidate, hβ]; ring)
  have hG2 : ∑ j ∈ range (P.groupLen i), (1 / t * (β j - U j)) ^ 2 = (1 / t) ^ 2 * D := by
    rw [hD, mul_sum]; exact sum_congr rfl (fun j _ => by ring)
  have hgG : ∑ j ∈ range (P.groupLen i), grad j * (1 / t * (β j - U j)) = 1 / t * E := by
    rw [hE, mul_sum]; exact sum_congr rfl (fun j _ => by ring)
  have hdiff : (trial P step i s grad Lold t).diff
      = Lold - (trial P step i s grad Lold t).Lnew - t * (1 / t * E)
        + t / 2 * ((1 / t) ^ 2 * D) := by
    rw [← hG2, ← hgG]
    simp only [trial, vsum_eq_sum]
  have hUeq : (trial P step i s grad Lold t).U = U := rfl
  rw [hdiff] at hacc
  rw [h1] at hsub
  rw [hUeq]
  have htne : t ≠ 0 := ne_of_gt ht
  have e1 : t * (1 / t * E) = E := by field_simp
  have e2 : t * (t / 2 * ((1 / t) ^ 2 * D)) = D / 2 := by field_simp; ring
  refine le_of_mul_le_mul_left ?_ ht
  have hacc2 := mul_nonneg ht.le hacc
  nlinarith [hacc2, hsub, hD0, e1, e2]

/-- The first trial on the one-column instance with `lambda = 3/2`, warm-started
at the coefficient 1: `Lold = 1/2`, `Lnew = 9/8`, `diff = 0`. -/
theorem oneByOne_warm_trial :
    currentLoss (oneByOne ℝ Real.sqrt (3 / 2) 1) (oneByOneState ℝ 1 0 1) = 1 / 2 ∧
    (trial (oneByOne ℝ Real.sqrt (3 / 2) 1) 0 0 (oneByOneState ℝ 1 0 1)
      (currentGrad (oneByOne ℝ Real.sqrt (3 / 2) 1) 0 (oneByOneState ℝ 1 0 1))
      (currentLoss (oneByOne ℝ Real.sqrt (3 / 2) 1) (oneByOneState ℝ 1 0 1)) 1).Lnew = 9 / 8 ∧
    (trial (oneByOne ℝ Real.sqrt (3 / 2) 1) 0 0 (oneByOneState ℝ 1 0 1)
      (currentGrad (oneByOne ℝ Real.sqrt (3 / 2) 1) 0 (oneByOneState ℝ 1 0 1))
      (currentLoss (oneByOne ℝ Real.sqrt (3 / 2) 1) (oneByOneState ℝ 1 0 1)) 1).diff = 0 := by
  have h4 : Real.sqrt (2 ^ 2) = 2 := Real.sqrt_sq (by norm_num)
  have hz : ∀ j, candidate (oneByOne ℝ Real.sqrt (3 / 2) 1) 0 0 (oneByOneState ℝ 1 0 1)
      (currentGrad (oneByOne ℝ Real.sqrt (3 / 2) 1) 0 (oneByOneState ℝ 1 0 1)) 1 j = 2 := by
    intro j
    simp only [candidate, currentGrad, groupGrad, rcppLinGradCalc, vsum, forLoop, oneByOne,
      oneByOneState, identityLinkCpp]
    norm_num
  have hshr : shrink (oneByOne ℝ Real.sqrt (3 / 2) 1) 0 0
      (candidate (oneByOne ℝ Real.sqrt (3 / 2) 1) 0 0 (oneByOneState ℝ 1 0 1)
        (currentGrad (oneByOne ℝ Real.sqrt (3 / 2) 1) 0 (oneByOneState ℝ 1 0 1)) 1) 1
      = 1 / 4 := by
    simp only [shrink, vsum, forLoop, hz]
    simp only [oneByOne, zero_add, h4, Nat.cast_one, Real.sqrt_one]
    norm_num
  refine ⟨?_, ?_, ?_⟩
  · simp only [currentLoss, oneByOne, oneByOneState, linLogLik, identityLinkCpp, vsum, forLoop]
    norm_num
  · simp only [trial, softThreshold, hshr, hz]
    simp only [oneByOne, oneByOneState, linLogLik, identityLinkCpp, vsum, forLoop]
    norm_num
  · simp only [trial, softThreshold, hshr, hz]
    simp only [oneByOne, oneByOneState, linLogLik, identityLinkCpp, vsum, forLoop,
      currentLoss, currentGrad, groupGrad, rcppLinGradCalc]
    norm_num

/-- The line search accepts that first trial. -/
theorem oneByOne_warm_backtrack :
    backtrack (oneByOne ℝ Real.sqrt (3 / 2) 1) 0 0 (oneByOneState ℝ 1 0 1)
      (currentGrad (oneByOne ℝ Real.sqrt (3 / 2) 1) 0 (oneByOneState ℝ 1 0 1))
      (currentLoss (oneByOne ℝ Real.sqrt (3 / 2) 1) (oneByOneState ℝ 1 0 1)) 1
      (oneByOneState ℝ 1 0 1).t
      = some (1 * (oneByOne ℝ Real.sqrt (3 / 2) 1).gamma,
          trial (oneByOne ℝ Real.sqrt (3 / 2) 1) 0 0 (oneByOneState ℝ 1 0 1)
            (currentGrad (oneByOne ℝ Real.sqrt (3 / 2) 1) 0 (oneByOneState ℝ 1 0 1))
            (currentLoss (oneByOne ℝ Real.sqrt (3 / 2) 1) (oneByOneState ℝ 1 0 1)) 1) := by
  have ht : (oneByOneState ℝ 1 0 1).t = 1 := rfl
  rw [ht]
  simp only [backtrack]
  rw [if_neg (by rw [oneByOne_warm_trial.2.2]; exact lt_irrefl 0)]

/-! ### The reference gradient -/

/-- Derivative of the reference loss along a predictor that is affine in `x`. -/
theorem linLogLik_hasDerivAt (n : ℕ) (y w c a : ℕ → ℝ) (x0 : ℝ) :
    HasDerivAt (fun x => linLogLik n (fun k => c k + a k * (x - x0)) y w)
      (∑ k ∈ range n, a k * rcppLinGradCalc n (fun k => c k) y w k) x0 := by
  have hk : ∀ k, HasDerivAt (fun x : ℝ => w k * (c k + a k * (x - x0) - y k) ^ 2)
      (w k * (2 * (c k - y k) * a k)) x0 := by
    intro k
    have h1 : HasDerivAt (fun x : ℝ => c k + a k * (x - x0) - y k) (a k) x0 := by
      have := ((((hasDerivAt_id x0).sub_const x0).const_mul (a k)).const_add (c k)).sub_const (y k)
      simpa using this
    have h2 := (h1.pow 2).const_mul (w k)
    refine h2.congr_deriv ?_
    simp
  have hsum := HasDerivAt.sum (u := range n) (fun k _ => hk k)
  have hall := ((hsum.const_mul (1 / 2 : ℝ)).div_const (∑ k ∈ range n, w k))
  have hfun : (fun x => linLogLik n (fun k => c k + a k * (x - x0)) y w)
      = fun x => (1 / 2 * ∑ k ∈ range n, w k * (c k + a k * (x - x0) - y k) ^ 2)
          / ∑ k ∈ range n, w k := by
    funext x
    simp only [linLogLik, vsum_eq_sum]
  rw [hfun]
  refine hall.congr_deriv ?_
  simp only [rcppLinGradCalc, vsum_eq_sum]
  rw [mul_sum, sum_div]
  exact sum_congr rfl (fun k _ => by ring)

/-- Changing one coefficient moves `X * beta` along the column. -/
theorem predictor_update (P : Params ℝ) (b : ℕ → ℝ) (col : ℕ) (hcol : col < P.ncol)
    (x : ℝ) (k : ℕ) :
    ∑ c ∈ range P.ncol, P.X (k + P.nrow * c) * Function.update b col x c
      = ∑ c ∈ range P.ncol, P.X (k + P.nrow * c) * b c
        + P.X (k + P.nrow * col) * (x - b col) := by
  have := sum_block_change (fun c => P.X (k + P.nrow * c)) b (Function.update b col x)
    col 1 P.ncol (by omega)
    (fun j _ hj => by rw [Function.update_apply, if_neg]; omega)
  rw [this]
  simp

/-! ### A full scan in which every group is screened out -/

theorem zeroScan_frame (P : Params K) (step : ℕ) (n : ℕ) (s : State K) :
    (zeroScan P step n s).isActive = s.isActive ∧
    (zeroScan P step n s).groupChange = s.groupChange ∧
    (zeroScan P step n s).theta = s.theta ∧
    (zeroScan P step n s).t = s.t := by
  induction n with
  | zero => exact ⟨rfl, rfl, rfl, rfl⟩
  | succ m ih => exact ih

theorem zeroScan_group_zero (P : Params K) (step : ℕ) (n : ℕ) (s : State K) (i j : ℕ)
    (hi : i < n) (hj : j < P.groupLen i) :
    (zeroScan P step n s).beta (step * P.ncol + j + P.rangeGroupInd i) = 0 := by
  induction n with
  | zero => exact absurd hi (Nat.not_lt_zero i)
  | succ m ih =>
    show (zeroBranch P step m (zeroScan P step m s)).beta _ = 0
    rw [zeroBranch_beta]
    split_ifs with h
    · rfl
    · rcases Nat.lt_succ_iff_lt_or_eq.mp hi with h1 | h1
      · exact ih h1
      · subst h1
        exact absurd ⟨j, hj, rfl⟩ h

/-- When every group passes the zero test on its visit, the loop over the
groups takes the zero branch throughout. -/
theorem forLoopM_zeroScan (P : Params K) (step fuel : ℕ) (s : State K) (n : ℕ)
    (hz : ∀ i, i < n → zeroTest P step i (zeroScan P step i s)) :
    forLoopM n (solveGroup P step (fun _ => 1) fuel) s = some (zeroScan P step n s) := by
  induction n with
  | zero => rfl
  | succ m ih =>
    simp only [forLoopM, ih (fun i hi => hz i (Nat.lt_succ_of_lt hi)), Option.some_bind]
    unfold solveGroup
    rw [if_pos rfl, if_pos (hz m (Nat.lt_succ_self m))]
    rfl

/-- A call of `rcppLinSolver` restricted to groups none of which is flagged
does nothing. -/
theorem forLoopM_unused (P : Params K) (step fuel : ℕ) (useGroup : ℕ → ℤ) (s : State K)
    (n : ℕ) (hu : ∀ i, i < n → useGroup i ≠ 1) :
    forLoopM n (solveGroup P step useGroup fuel) s = some s := by
  induction n with
  | zero => rfl
  | succ m ih =>
    simp only [forLoopM, ih (fun i hi => hu i (Nat.lt_succ_of_lt hi)), Option.some_bind]
    unfold solveGroup
    rw [if_neg (hu m (Nat.lt_succ_self m))]

theorem rowChange_self (P : Params K) (step : ℕ) (b : ℕ → K) : rowChange P step b b = 0 := by
  unfold rowChange
  rw [forLoop_add_eq]
  simp

/-- Refinement passes over an empty active set leave the state as it is. -/
theorem refineLoop_inactive (P : Params K) (step fuel : ℕ) (s : State K)
    (hact : ∀ i, i < P.numGroup → s.isActive i ≠ 1)
    (hth : s.theta = fun _ => 0) (ht : s.t = P.momentum) (rem : ℕ) :
    ∀ (c : ℤ) (chk : K), ∃ c2 chk2,
      refineLoop P step fuel rem { st := s, outermostCounter := c, outermostCheck := chk }
        = some { st := s, outermostCounter := c2, outermostCheck := chk2 } := by
  have hsolve : rcppLinSolver P step s.isActive fuel s = some s := by
    unfold rcppLinSolver
    have : ({ s with theta := fun _ => 0, t := P.momentum } : State K) = s := by
      cases s; simp_all
    rw [this]
    exact forLoopM_unused P step fuel s.isActive s P.numGroup hact
  induction rem with
  | zero => intro c chk; exact ⟨c, chk, rfl⟩
  | succ m ih =>
    intro c chk
    simp only [refineLoop]
    split_ifs with h
    · rw [hsolve]
      exact ih _ _
    · exact ⟨c, chk, rfl⟩

/-- Both groups of the two-column instance pass the zero test at `lambda = 2`. -/
theorem fourByTwo_zeroTests :
    ∀ i, i < (fourByTwo ℚ id 2 1 10 10).numGroup →
      zeroTest (fourByTwo ℚ id 2 1 10 10) 0 i
        (zeroScan (fourByTwo ℚ id 2 1 10 10) 0 i
          (scanStart (fourByTwo ℚ id 2 1 10 10) 0 (zeroState ℚ))) := by
  intro i hi
  have hi2 : i < 2 := hi
  interval_cases i
  · simp only [zeroTest, zeroCheck, nullGrad, groupGrad, rcppLinGradCalc, etaNull, vsum,
      forLoop, fourByTwo, zeroState, identityLinkCpp, zeroScan, scanStart, stepInit]
    norm_num
  · simp only [zeroTest, zeroCheck, nullGrad, groupGrad, rcppLinGradCalc, etaNull, vsum,
      forLoop, fourByTwo, zeroState, identityLinkCpp, zeroScan, scanStart, stepInit,
      zeroBranch]
    norm_num [Function.update_apply]

/-! ### More fuel never changes a result -/

theorem backtrack_mono (P : Params K) (step i : ℕ) (s : State K) (grad : ℕ → K) (Lold : K)
    (f : ℕ) : ∀ (f2 : ℕ) (t0 : K) (r : K × Trial K), f ≤ f2 →
      backtrack P step i s grad Lold f t0 = some r →
      backtrack P step i s grad Lold f2 t0 = some r := by
  induction f with
  | zero => intro f2 t0 r _ h; simp [backtrack] at h
  | succ m ih =>
    intro f2 t0 r hle h
    obtain ⟨g, rfl⟩ : ∃ g, f2 = g + 1 := ⟨f2 - 1, by omega⟩
    simp only [backtrack] at h ⊢
    split_ifs at h ⊢ with hneg
    · exact ih g _ r (by omega) h
    · exact h

theorem innerIteration_mono (P : Params K) (step i : ℕ) (f f2 : ℕ) (count : ℤ) (s : State K)
    (r : State K × K) (hle : f ≤ f2) (h : innerIteration P step i f count s = some r) :
    innerIteration P step i f2 count s = some r := by
  unfold innerIteration at h ⊢
  split at h
  · exact absurd h (by simp)
  · rename_i t1 tr hbt
    rw [backtrack_mono P step i s _ _ f f2 s.t (t1, tr) hle hbt]
    exact h

theorem innerLoop_mono (P : Params K) (step i : ℕ) (f f2 : ℕ) (hle : f ≤ f2) (rem : ℕ) :
    ∀ (count : ℤ) (check : K) (s r : State K),
      innerLoop P step i f rem count check s = some r →
      innerLoop P step i f2 rem count check s = some r := by
  induction rem with
  | zero => intro count check s r h; exact h
  | succ m ih =>
    intro count check s r h
    simp only [innerLoop] at h ⊢
    split_ifs at h ⊢ with hc
    · split at h
      · exact absurd h (by simp)
      · rename_i s1 check1 hit
        rw [innerIteration_mono P step i f f2 _ s (s1, check1) hle hit]
        exact ih _ _ _ _ h
    · exact h

theorem solveGroup_mono (P : Params K) (step : ℕ) (useGroup : ℕ → ℤ) (f f2 : ℕ)
    (hle : f ≤ f2) (i : ℕ) (s r : State K)
    (h : solveGroup P step useGroup f i s = some r) :
    solveGroup P step useGroup f2 i s = some r := by
  unfold solveGroup at h ⊢
  split_ifs at h ⊢ with h1 h2
  · exact h
  · exact innerLoop_mono P step i f f2 hle _ _ _ _ _ h
  · exact h

theorem forLoopM_mono {α : Type} (body body2 : ℕ → α → Option α)
    (hb : ∀ i a r, body i a = some r → body2 i a = some r) (n : ℕ) (a r : α)
    (h : forLoopM n body a = some r) : forLoopM n body2 a = some r := by
  induction n generalizing r with
  | zero => exact h
  | succ m ih =>
    simp only [forLoopM] at h ⊢
    cases hm : forLoopM m body a with
    | none => rw [hm] at h; exact absurd h (by simp)
    | some a1 =>
      rw [hm] at h
      rw [ih a1 hm]
      exact hb m a1 r h

theorem rcppLinSolver_mono (P : Params K) (step : ℕ) (useGroup : ℕ → ℤ) (f f2 : ℕ)
    (hle : f ≤ f2) (s r : State K) (h : rcppLinSolver P step useGroup f s = some r) :
    rcppLinSolver P step useGroup f2 s = some r :=
  forLoopM_mono _ _ (fun i a r => solveGroup_mono P step useGroup f f2 hle i a r) _ _ _ h

theorem refineLoop_mono (P : Params K) (step : ℕ) (f f2 : ℕ) (hle : f ≤ f2) (rem : ℕ) :
    ∀ (ns r : NestState K), refineLoop P step f rem ns = some r →
      refineLoop P step f2 rem ns = some r := by
  induction rem with
  | zero => intro ns r h; exact h
  | succ m ih =>
    intro ns r h
    simp only [refineLoop] at h ⊢
    split_ifs at h ⊢ with hc
    · split at h
      · exact absurd h (by simp)
      · rename_i s1 hs1
        rw [rcppLinSolver_mono P step _ f f2 hle _ s1 hs1]
        exact ih _ _ h
    · exact h

theorem scanLoop_mono (P : Params K) (step : ℕ) (f f2 : ℕ) (hle : f ≤ f2) (scans : ℕ) :
    ∀ (ns r : NestState K), scanLoop P step f scans ns = some r →
      scanLoop P step f2 scans ns = some r := by
  induction scans with
  | zero => intro ns r h; exact h
  | succ m ih =>
    intro ns r h
    simp only [scanLoop] at h ⊢
    split_ifs at h ⊢ with hc
    · split at h
      · exact absurd h (by simp)
      · rename_i s1 hs1
        rw [rcppLinSolver_mono P step _ f f2 hle _ s1 hs1]
        split at h
        · exact absurd h (by simp)
        · rename_i ns1 hns1
          simp only
          rw [refineLoop_mono P step f f2 hle _ _ ns1 hns1]
          exact ih _ _ h
    · exact h

theorem pathStep_mono (P : Params K) (f f2 : ℕ) (hle : f ≤ f2) (scans step : ℕ)
    (s r : State K) (h : pathStep P f scans step s = some r) :
    pathStep P f2 scans step s = some r := by
  unfold pathStep at h ⊢
  cases hs : scanLoop P step f scans (stepInit P step s) with
  | none => rw [hs] at h; exact absurd h (by simp)
  | some ns =>
    rw [hs] at h
    rw [scanLoop_mono P step f f2 hle scans _ ns hs]
    exact h

/-! ### Termination, given that the line searches exit -/

theorem innerIteration_terminates (P : Params K) (step i : ℕ) (count : ℤ) (s : State K)
    (hLS : LineSearchExits P step) (hg : 0 < P.gamma) (hi : i < P.numGroup) (ht : 0 < s.t) :
    ∃ fuel s2 check, innerIteration P step i fuel count s = some (s2, check) ∧ 0 < s2.t := by
  obtain ⟨n, hn⟩ := hLS s i hi ht
  obtain ⟨⟨t1, r⟩, hr⟩ := Option.isSome_iff_exists.mp hn
  obtain ⟨m, _, _, _, ht1, _⟩ := backtrack_some P step i s _ _ n _ _ _ hr
  refine ⟨n, (commit P step i count r.U { s with t := t1 / P.gamma }).1,
    (commit P step i count r.U { s with t := t1 / P.gamma }).2, ?_, ?_⟩
  · unfold innerIteration
    rw [hr]
  · rw [(commit_frame P step i count r.U _).2.2.2]
    show 0 < t1 / P.gamma
    rw [ht1]
    exact div_pos (mul_pos (mul_pos ht (pow_pos hg m)) hg) hg

theorem innerLoop_terminates (P : Params K) (step i : ℕ)
    (hLS : LineSearchExits P step) (hg : 0 < P.gamma) (hi : i < P.numGroup) (rem : ℕ) :
    ∀ (count : ℤ) (check : K) (s : State K), 0 < s.t →
      ∃ fuel s2, innerLoop P step i fuel rem count check s = some s2 ∧ 0 < s2.t := by
  induction rem with
  | zero => intro count check s ht; exact ⟨0, s, rfl, ht⟩
  | succ m ih =>
    intro count check s ht
    by_cases hc : count ≤ P.innerIter ∧ check > P.thresh
    · obtain ⟨f1, s1, check1, h1, ht1⟩ :=
        innerIteration_terminates P step i (count + 1) s hLS hg hi ht
      obtain ⟨f2, s2, h2, ht2⟩ := ih (count + 1) check1 s1 ht1
      refine ⟨max f1 f2, s2, ?_, ht2⟩
      simp only [innerLoop, if_pos hc]
      rw [innerIteration_mono P step i f1 _ _ s _ (le_max_left f1 f2) h1]
      exact innerLoop_mono P step i f2 _ (le_max_right f1 f2) m _ _ _ _ h2
    · exact ⟨0, s, by simp only [innerLoop, if_neg hc], ht⟩

theorem solveGroup_terminates (P : Params K) (step : ℕ) (useGroup : ℕ → ℤ) (i : ℕ)
    (s : State K) (hLS : LineSearchExits P step) (hg : 0 < P.gamma) (hi : i < P.numGroup)
    (ht : 0 < s.t) :
    ∃ fuel s2, solveGroup P step useGroup fuel i s = some s2 ∧ 0 < s2.t := by
  unfold solveGroup
  split_ifs with h1 h2
  · exact ⟨0, _, rfl, ht⟩
  · exact innerLoop_terminates P step i hLS hg hi _ _ _ _ ht
  · exact ⟨0, s, rfl, ht⟩

theorem groups_terminate (P : Params K) (step : ℕ) (useGroup : ℕ → ℤ) (s : State K)
    (hLS : LineSearchExits P step) (hg : 0 < P.gamma) (ht : 0 < s.t) (n : ℕ)
    (hn : n ≤ P.numGroup) :
    ∃ fuel s2, forLoopM n (solveGroup P step useGroup fuel) s = some s2 ∧ 0 < s2.t := by
  induction n with
  | zero => exact ⟨0, s, rfl, ht⟩
  | succ m ih =>
    obtain ⟨f1, s1, h1, ht1⟩ := ih (by omega)
    obtain ⟨f2, s2, h2, ht2⟩ :=
      solveGroup_terminates P step useGroup m s1 hLS hg (by omega) ht1
    refine ⟨max f1 f2, s2, ?_, ht2⟩
    simp only [forLoopM]
    rw [forLoopM_mono _ _
      (fun i a r => solveGroup_mono P step useGroup f1 _ (le_max_left f1 f2) i a r) m s s1 h1]
    exact solveGroup_mono P step useGroup f2 _ (le_max_right f1 f2) m s1 s2 h2

theorem rcppLinSolver_terminates (P : Params K) (step : ℕ) (useGroup : ℕ → ℤ) (s : State K)
    (hLS : LineSearchExits P step) (hg : 0 < P.gamma) (hm : 0 < P.momentum) :
    ∃ fuel s2, rcppLinSolver P step useGroup fuel s = some s2 := by
  obtain ⟨f, s2, h, _⟩ := groups_terminate P step useGroup
    { s with theta := fun _ => 0, t := P.momentum } hLS hg hm P.numGroup le_rfl
  exact ⟨f, s2, h⟩

/-! ### The active-set flags -/

theorem innerIteration_flags (P : Params K) (step i fuel : ℕ) (count : ℤ) (s s2 : State K)
    (check : K) (h : innerIteration P step i fuel count s = some (s2, check)) :
    s2.isActive = s.isActive ∧ s2.groupChange = s.groupChange ∧
      s2.betaIsZero = s.betaIsZero := by
  unfold innerIteration at h
  split at h
  · exact absurd h (by simp)
  · rename_i t1 r _
    have hs : commit P step i count r.U { s with t := t1 / P.gamma } = (s2, check) := by
      simpa using h
    have hfr := commit_frame P step i count r.U { s with t := t1 / P.gamma }
    rw [hs] at hfr
    exact ⟨hfr.2.1, hfr.2.2.1, hfr.1⟩

theorem innerLoop_flags (P : Params K) (step i fuel : ℕ) (rem : ℕ) :
    ∀ (count : ℤ) (check : K) (s s2 : State K),
      innerLoop P step i fuel rem count check s = some s2 →
      s2.isActive = s.isActive ∧ s2.groupChange = s.groupChange ∧
        s2.betaIsZero = s.betaIsZero := by
  induction rem with
  | zero =>
    intro count check s s2 h
    simp only [innerLoop, Option.some.injEq] at h
    subst h
    exact ⟨rfl, rfl, rfl⟩
  | succ m ih =>
    intro count check s s2 h
    simp only [innerLoop] at h
    split_ifs at h with hc
    · split at h
      · exact absurd h (by simp)
      · rename_i s1 check1 hit
        have h1 := innerIteration_flags P step i fuel _ s s1 check1 hit
        have h2 := ih _ _ _ _ h
        exact ⟨h2.1.trans h1.1, h2.2.1.trans h1.2.1, h2.2.2.trans h1.2.2⟩
    · simp only [Option.some.injEq] at h
      subst h
      exact ⟨rfl, rfl, rfl⟩

/-- What processing group `i` does to `isActive` and `groupChange`: nothing, or
(the group being scanned and failing the zero test) `isActive[i] = 1` and
`groupChange = 1` when `isActive[i]` was 0. -/
theorem solveGroup_flags (P : Params K) (step : ℕ) (useGroup : ℕ → ℤ) (fuel i : ℕ)
    (s s2 : State K) (h : solveGroup P step useGroup fuel i s = some s2) :
    (s2.isActive = s.isActive ∧ s2.groupChange = s.groupChange) ∨
    (useGroup i = 1 ∧ s2.isActive = Function.update s.isActive i 1 ∧
      s2.groupChange = if s.isActive i = 0 then 1 else s.groupChange) := by
  unfold solveGroup at h
  split_ifs at h with h1 h2
  · simp only [Option.some.injEq] at h
    subst h
    exact Or.inl ⟨rfl, rfl⟩
  · have := innerLoop_flags P step i fuel _ _ _ _ _ h
    exact Or.inr ⟨h1, this.1, this.2.1⟩
  · simp only [Option.some.injEq] at h
    subst h
    exact Or.inl ⟨rfl, rfl⟩

/-- A pass restricted to a snapshot of `isActive` changes neither `isActive`
nor `groupChange`. -/
theorem refine_groups_flags (P : Params K) (step fuel : ℕ) (s0 : State K) (n : ℕ) :
    ∀ s2, forLoopM n (solveGroup P step s0.isActive fuel) s0 = some s2 →
      s2.isActive = s0.isActive ∧ s2.groupChange = s0.groupChange := by
  induction n with
  | zero =>
    intro s2 h
    simp only [forLoopM, Option.some.injEq] at h
    subst h
    exact ⟨rfl, rfl⟩
  | succ m ih =>
    intro s2 h
    simp only [forLoopM] at h
    cases hm : forLoopM m (solveGroup P step s0.isActive fuel) s0 with
    | none => rw [hm] at h; exact absurd h (by simp)
    | some s1 =>
      rw [hm] at h
      obtain ⟨ha, hgc⟩ := ih s1 hm
      rcases solveGroup_flags P step _ fuel m s1 s2 h with hh | ⟨hu, hact, hch⟩
      · exact ⟨hh.1.trans ha, hh.2.trans hgc⟩
      · have h1 : s1.isActive m = 1 := by rw [ha]; exact hu
        refine ⟨?_, ?_⟩
        · rw [hact, ← ha, ← h1, Function.update_eq_self]
        · rw [hch, if_neg (by rw [h1]; decide), hgc]

theorem rcppLinSolver_refine_flags (P : Params K) (step fuel : ℕ) (s s2 : State K)
    (h : rcppLinSolver P step s.isActive fuel s = some s2) :
    s2.isActive = s.isActive ∧ s2.groupChange = s.groupChange :=
  refine_groups_flags P step fuel { s with theta := fun _ => 0, t := P.momentum }
    P.numGroup s2 h

/-- In any pass a flag that ends 0 started 0, and `groupChange` keeps its value
unless a group visited so far went from `isActive = 0` to 1. -/
theorem scan_groups_flags (P : Params K) (step fuel : ℕ) (useGroup : ℕ → ℤ) (s0 : State K)
    (n : ℕ) :
    ∀ s2, forLoopM n (solveGroup P step useGroup fuel) s0 = some s2 →
      (∀ i, s2.isActive i = s0.isActive i ∨ s2.isActive i = 1) ∧
      (s2.groupChange = s0.groupChange ∨
        ∃ i, i < n ∧ s0.isActive i = 0 ∧ s2.isActive i = 1) := by
  induction n with
  | zero =>
    intro s2 h
    simp only [forLoopM, Option.some.injEq] at h
    subst h
    exact ⟨fun i => Or.inl rfl, Or.inl rfl⟩
  | succ m ih =>
    intro s2 h
    simp only [forLoopM] at h
    cases hm : forLoopM m (solveGroup P step useGroup fuel) s0 with
    | none => rw [hm] at h; exact absurd h (by simp)
    | some s1 =>
      rw [hm] at h
      obtain ⟨ha, hgc⟩ := ih s1 hm
      rcases solveGroup_flags P step _ fuel m s1 s2 h with hh | ⟨_, hact, hch⟩
      · refine ⟨fun i => by rw [hh.1]; exact ha i, ?_⟩
        rcases hgc with hgc | ⟨i, hi, h0, h1⟩
        · exact Or.inl (hh.2.trans hgc)
        · exact Or.inr ⟨i, Nat.lt_succ_of_lt hi, h0, by rw [hh.1]; exact h1⟩
      · have hmono : ∀ i, s2.isActive i = s1.isActive i ∨ s2.isActive i = 1 := by
          intro i
          rw [hact, Function.update_apply]
          split_ifs
          · exact Or.inr rfl
          · exact Or.inl rfl
        refine ⟨fun i => ?_, ?_⟩
        · rcases hmono i with h1 | h1
          · rw [h1]; exact ha i
          · exact Or.inr h1
        · rcases hgc with hgc | ⟨i, hi, h0, h1⟩
          · by_cases hz : s1.isActive m = 0
            · right
              refine ⟨m, Nat.lt_succ_self m, ?_, by rw [hact]; simp⟩
              rcases ha m with h2 | h2
              · rw [← h2]; exact hz
              · rw [h2] at hz; exact absurd hz (by decide)
            · left
              rw [hch, if_neg hz, hgc]
          · right
            refine ⟨i, Nat.lt_succ_of_lt hi, h0, ?_⟩
            rcases hmono i with h2 | h2
            · rw [h2]; exact h1
            · exact h2

/-- A full scan that ends with `groupChange = 1` has marked a new group. -/
theorem fullScan_inactiveCount (P : Params K) (step fuel : ℕ) (useGroup : ℕ → ℤ)
    (s s2 : State K)
    (h : rcppLinSolver P step useGroup fuel { s with groupChange := 0 } = some s2) :
    inactiveCount P s2 ≤ inactiveCount P s ∧
      (s2.groupChange = 1 → inactiveCount P s2 < inactiveCount P s) := by
  obtain ⟨ha, hgc⟩ := scan_groups_flags P step fuel useGroup
    { s with groupChange := 0, theta := fun _ => 0, t := P.momentum } P.numGroup s2 h
  have hsub : (range P.numGroup).filter (fun i => s2.isActive i = 0)
      ⊆ (range P.numGroup).filter (fun i => s.isActive i = 0) := by
    intro i hi
    rw [mem_filter] at hi ⊢
    refine ⟨hi.1, ?_⟩
    rcases ha i with h1 | h1
    · rw [← hi.2, h1]
    · rw [h1] at hi; exact absurd hi.2 (by decide)
  refine ⟨card_le_card hsub, fun h1 => ?_⟩
  rcases hgc with hgc | ⟨i, hi, h0, hi1⟩
  · rw [h1] at hgc
    have hgc2 : (1 : ℤ) = 0 := hgc
    exact absurd hgc2 (by decide)
  · apply card_lt_card
    refine ⟨hsub, fun hcon => ?_⟩
    have : i ∈ (range P.numGroup).filter (fun i => s2.isActive i = 0) :=
      hcon (mem_filter.mpr ⟨mem_range.mpr hi, h0⟩)
    rw [mem_filter, hi1] at this
    exact absurd this.2 (by decide)

theorem refineLoop_terminates (P : Params K) (step : ℕ)
    (hLS : LineSearchExits P step) (hg : 0 < P.gamma) (hm : 0 < P.momentum) (rem : ℕ) :
    ∀ ns : NestState K, ∃ fuel ns2, refineLoop P step fuel rem ns = some ns2 ∧
      ns2.st.isActive = ns.st.isActive ∧ ns2.st.groupChange = ns.st.groupChange := by
  induction rem with
  | zero => intro ns; exact ⟨0, ns, rfl, rfl, rfl⟩
  | succ m ih =>
    intro ns
    by_cases hc : ns.outermostCounter < P.outerIter ∧ ns.outermostCheck > P.outerThresh
    · obtain ⟨f1, s1, h1⟩ := rcppLinSolver_terminates P step ns.st.isActive ns.st hLS hg hm
      have hfl := rcppLinSolver_refine_flags P step f1 ns.st s1 h1
      obtain ⟨f2, ns2, h2, ha, hgc⟩ := ih
        { st := s1, outermostCounter := ns.outermostCounter + 1
          outermostCheck := rowChange P step ns.st.beta s1.beta }
      refine ⟨max f1 f2, ns2, ?_, ha.trans hfl.1, hgc.trans hfl.2⟩
      simp only [refineLoop, if_pos hc]
      rw [rcppLinSolver_mono P step _ f1 _ (le_max_left f1 f2) _ s1 h1]
      exact refineLoop_mono P step f2 _ (le_max_right f1 f2) m _ _ h2
    · exact ⟨0, ns, by simp only [refineLoop, if_neg hc], rfl, rfl⟩

theorem scanLoop_done (P : Params K) (step fuel scans : ℕ) (ns : NestState K)
    (h : ns.st.groupChange ≠ 1) : scanLoop P step fuel scans ns = some ns := by
  cases scans with
  | zero => simp only [scanLoop, if_neg h]
  | succ m => simp only [scanLoop, if_neg h]

/-- The group-change loop needs at most one scan more than there are groups not
yet marked active. -/
theorem scanLoop_terminates (P : Params K) (step : ℕ)
    (hLS : LineSearchExits P step) (hg : 0 < P.gamma) (hm : 0 < P.momentum) (m : ℕ) :
    ∀ ns : NestState K, inactiveCount P ns.st ≤ m →
      ∃ fuel ns2, scanLoop P step fuel (m + 1) ns = some ns2 := by
  induction m with
  | zero =>
    intro ns hcount
    by_cases hgc : ns.st.groupChange = 1
    · obtain ⟨f1, s1, h1⟩ := rcppLinSolver_terminates P step (fun _ => 1)
        { ns.st with groupChange := 0 } hLS hg hm
      have hdec := fullScan_inactiveCount P step f1 _ ns.st s1 h1
      obtain ⟨f2, ns1, h2, _, hgc1⟩ := refineLoop_terminates P step hLS hg hm
        (P.outerIter - ns.outermostCounter).toNat { ns with st := s1 }
      have hne : ns1.st.groupChange ≠ 1 := by
        intro h
        have := hdec.2 (by rw [← hgc1]; exact h)
        omega
      refine ⟨max f1 f2, ns1, ?_⟩
      simp only [scanLoop, if_pos hgc]
      rw [rcppLinSolver_mono P step _ f1 _ (le_max_left f1 f2) _ s1 h1]
      simp only
      rw [refineLoop_mono P step f2 _ (le_max_right f1 f2) _ _ _ h2]
      simp only [if_neg hne]
    · exact ⟨0, ns, scanLoop_done P step 0 _ ns hgc⟩
  | succ k ih =>
    intro ns hcount
    by_cases hgc : ns.st.groupChange = 1
    · obtain ⟨f1, s1, h1⟩ := rcppLinSolver_terminates P step (fun _ => 1)
        { ns.st with groupChange := 0 } hLS hg hm
      have hdec := fullScan_inactiveCount P step f1 _ ns.st s1 h1
      obtain ⟨f2, ns1, h2, hact1, hgc1⟩ := refineLoop_terminates P step hLS hg hm
        (P.outerIter - ns.outermostCounter).toNat { ns with st := s1 }
      have hcount1 : inactiveCount P ns1.st = inactiveCount P s1 := by
        unfold inactiveCount; rw [hact1]
      obtain ⟨f3, ns2, h3⟩ : ∃ f3 ns2, scanLoop P step f3 (k + 1) ns1 = some ns2 := by
        by_cases hgc2 : ns1.st.groupChange = 1
        · have := hdec.2 (by rw [← hgc1]; exact hgc2)
          exact ih ns1 (by rw [hcount1]; omega)
        · exact ⟨0, ns1, scanLoop_done P step 0 _ ns1 hgc2⟩
      refine ⟨max (max f1 f2) f3, ns2, ?_⟩
      rw [scanLoop]
      simp only [if_pos hgc]
      rw [rcppLinSolver_mono P step _ f1 _
        (le_trans (le_max_left f1 f2) (le_max_left _ f3)) _ s1 h1]
      simp only
      rw [refineLoop_mono P step f2 _
        (le_trans (le_max_right f1 f2) (le_max_left _ f3)) _ _ _ h2]
      exact scanLoop_mono P step f3 _ (le_max_right _ f3) _ _ _ h3
    · exact ⟨0, ns, scanLoop_done P step 0 _ ns hgc⟩

theorem pathStep_terminates (P : Params K) (step : ℕ) (s : State K)
    (hLS : LineSearchExits P step) (hg : 0 < P.gamma) (hm : 0 < P.momentum) :
    ∃ fuel s2, pathStep P fuel (P.numGroup + 1) step s = some s2 := by
  have hcount : inactiveCount P (stepInit P step s).st ≤ P.numGroup := by
    unfold inactiveCount
    exact le_trans (card_filter_le _ _) (by rw [card_range])
  obtain ⟨f, ns2, h⟩ := scanLoop_terminates P step hLS hg hm P.numGroup _ hcount
  exact ⟨f, ns2.st, by unfold pathStep; rw [h]; rfl⟩

theorem rcppLinNest_terminates (P : Params K) (s : State K)
    (hLS : ∀ step, step < P.nlam → LineSearchExits P step) (hg : 0 < P.gamma)
    (hm : 0 < P.momentum) (n : ℕ) (hn : n ≤ P.nlam) :
    ∃ fuel s2, forLoopM n (pathStep P fuel (P.numGroup + 1)) s = some s2 := by
  induction n with
  | zero => exact ⟨0, s, rfl⟩
  | succ k ih =>
    obtain ⟨f1, s1, h1⟩ := ih (by omega)
    obtain ⟨f2, s2, h2⟩ := pathStep_terminates P k s1 (hLS k (by omega)) hg hm
    refine ⟨max f1 f2, s2, ?_⟩
    simp only [forLoopM]
    rw [forLoopM_mono _ _
      (fun i a r => pathStep_mono P f1 _ (le_max_left f1 f2) _ i a r) k s s1 h1]
    exact pathStep_mono P f2 _ (le_max_right f1 f2) _ k s1 s2 h2

/-- An accepted trial within the fuel makes the loop return. -/
theorem backtrack_isSome_of_accept (P : Params K) (step i : ℕ) (s : State K)
    (grad : ℕ → K) (Lold : K) (n : ℕ) :
    ∀ t0 : K, 0 ≤ (trial P step i s grad Lold (t0 * P.gamma ^ n)).diff →
      (backtrack P step i s grad Lold (n + 1) t0).isSome = true := by
  induction n with
  | zero =>
    intro t0 h
    simp only [pow_zero, mul_one] at h
    simp only [backtrack, if_neg (not_lt.mpr h), Option.isSome_some]
  | succ m ih =>
    intro t0 h
    rw [backtrack]
    split_ifs with hneg
    · apply ih
      rw [mul_assoc, ← pow_succ']
      exact h
    · rfl

/-- Expansion of the reference loss at `e + d`. -/
theorem linLogLik_add (n : ℕ) (e d y w : ℕ → K) :
    linLogLik n (fun k => e k + d k) y w
      = linLogLik n e y w + ∑ k ∈ range n, rcppLinGradCalc n e y w k * d k
        + 1 / 2 * (∑ k ∈ range n, w k * d k ^ 2) / vsum n w := by
  have hsq : ∑ k ∈ range n, w k * (e k + d k - y k) ^ 2
      = ∑ k ∈ range n, w k * (e k - y k) ^ 2
        + 2 * ∑ k ∈ range n, w k * (e k - y k) * d k
        + ∑ k ∈ range n, w k * d k ^ 2 := by
    rw [mul_sum, ← sum_add_distrib, ← sum_add_distrib]
    exact sum_congr rfl (fun k _ => by ring)
  have hld : ∑ k ∈ range n, rcppLinGradCalc n e y w k * d k
      = (∑ k ∈ range n, w k * (e k - y k) * d k) / vsum n w := by
    rw [sum_div]
    exact sum_congr rfl (fun k _ => by simp only [rcppLinGradCalc]; ring)
  simp only [linLogLik]
  rw [vsum_eq_sum (v := fun k => w k * (e k + d k - y k) ^ 2),
    vsum_eq_sum (v := fun k => w k * (e k - y k) ^ 2), hsq, hld]
  ring

theorem linLogLik_congr (n : ℕ) (e e2 y w : ℕ → K) (h : ∀ k, k < n → e k = e2 k) :
    linLogLik n e y w = linLogLik n e2 y w := by
  simp only [linLogLik, vsum_eq_sum]
  rw [sum_congr rfl (fun k hk => by rw [h k (mem_range.mp hk)])]

theorem groupGrad_congr (P : Params K) (i : ℕ) (l l2 : ℕ → K)
    (h : ∀ k, k < P.nrow → l k = l2 k) (j : ℕ) : groupGrad P i l j = groupGrad P i l2 j := by
  simp only [groupGrad, forLoop_add_eq]
  rw [sum_congr rfl (fun k hk => by rw [h k (mem_range.mp hk)])]

/-- Under `Curvature`, `sum_k w[k] * (X_g v)[k]^2 = (sum(w)/t) * ||v||^2`. -/
theorem curvature_quadratic (P : Params K) (i : ℕ) (t : K) (hc : Curvature P i t)
    (v : ℕ → K) :
    ∑ k ∈ range P.nrow, P.w k * groupPredictor P i v k ^ 2
      = vsum P.nrow P.w / t * ∑ j ∈ range (P.groupLen i), v j ^ 2 := by
  have h1 : ∀ k, P.w k * groupPredictor P i v k ^ 2
      = ∑ j ∈ range (P.groupLen i), ∑ j2 ∈ range (P.groupLen i),
          v j * v j2 * (P.w k * P.X (k + P.nrow * (P.rangeGroupInd i + j))
            * P.X (k + P.nrow * (P.rangeGroupInd i + j2))) := by
    intro k
    simp only [groupPredictor, sq, sum_mul, mul_sum]
    exact sum_congr rfl (fun j _ => sum_congr rfl (fun j2 _ => by ring))
  simp only [h1]
  rw [sum_comm]
  have h2 : ∀ j, j ∈ range (P.groupLen i) →
      ∑ k ∈ range P.nrow, ∑ j2 ∈ range (P.groupLen i),
          v j * v j2 * (P.w k * P.X (k + P.nrow * (P.rangeGroupInd i + j))
            * P.X (k + P.nrow * (P.rangeGroupInd i + j2)))
        = vsum P.nrow P.w / t * v j ^ 2 := by
    intro j hj
    rw [sum_comm]
    have h3 : ∀ j2, j2 ∈ range (P.groupLen i) →
        ∑ k ∈ range P.nrow, v j * v j2 * (P.w k * P.X (k + P.nrow * (P.rangeGroupInd i + j))
            * P.X (k + P.nrow * (P.rangeGroupInd i + j2)))
          = if j = j2 then v j * v j2 * (vsum P.nrow P.w / t) else 0 := by
      intro j2 hj2
      rw [← mul_sum, hc j j2 (mem_range.mp hj) (mem_range.mp hj2)]
      split_ifs <;> simp
    rw [sum_congr rfl h3, sum_ite_eq (range (P.groupLen i)) j, if_pos hj]
    ring
  rw [sum_congr rfl h2, mul_sum]

/-- The inner product of `ldot` with `X_g v` is that of the group gradient with `v`. -/
theorem ldot_groupPredictor (P : Params K) (i : ℕ) (l v : ℕ → K) :
    ∑ k ∈ range P.nrow, l k * groupPredictor P i v k
      = ∑ j ∈ range (P.groupLen i), groupGrad P i l j * v j := by
  simp only [groupPredictor, groupGrad, forLoop_add_eq, zero_add, mul_sum, sum_mul]
  rw [sum_comm]
  exact sum_congr rfl (fun j _ => sum_congr rfl (fun k _ => by
    rw [Nat.add_comm j (P.rangeGroupInd i)]; ring))

/-- Under `Curvature` the group gradient at `e + X_g v` is that at `e` plus `v / t`. -/
theorem groupGrad_shift (P : Params K) (i : ℕ) (t : K) (hc : Curvature P i t)
    (hw : vsum P.nrow P.w ≠ 0) (e v : ℕ → K) (j : ℕ) (hj : j < P.groupLen i) :
    groupGrad P i (rcppLinGradCalc P.nrow (fun k => e k + groupPredictor P i v k) P.y P.w) j
      = groupGrad P i (rcppLinGradCalc P.nrow e P.y P.w) j + v j / t := by
  have h1 : ∑ k ∈ range P.nrow, P.X (k + P.nrow * (P.rangeGroupInd i + j))
        * (P.w k * groupPredictor P i v k)
      = vsum P.nrow P.w / t * v j := by
    simp only [groupPredictor, mul_sum]
    rw [sum_comm]
    have h3 : ∀ j2, j2 ∈ range (P.groupLen i) →
        ∑ k ∈ range P.nrow, P.X (k + P.nrow * (P.rangeGroupInd i + j))
            * (P.w k * (P.X (k + P.nrow * (P.rangeGroupInd i + j2)) * v j2))
          = if j = j2 then vsum P.nrow P.w / t * v j2 else 0 := by
      intro j2 hj2
      have := hc j j2 hj (mem_range.mp hj2)
      calc ∑ k ∈ range P.nrow, P.X (k + P.nrow * (P.rangeGroupInd i + j))
              * (P.w k * (P.X (k + P.nrow * (P.rangeGroupInd i + j2)) * v j2))
          = (∑ k ∈ range P.nrow, P.w k * P.X (k + P.nrow * (P.rangeGroupInd i + j))
              * P.X (k + P.nrow * (P.rangeGroupInd i + j2))) * v j2 := by
            rw [sum_mul]; exact sum_congr rfl (fun k _ => by ring)
        _ = if j = j2 then vsum P.nrow P.w / t * v j2 else 0 := by
            rw [this]; split_ifs <;> simp
    rw [sum_congr rfl h3, sum_ite_eq (range (P.groupLen i)) j, if_pos (mem_range.mpr hj)]
  simp only [groupGrad, forLoop_add_eq, zero_add, rcppLinGradCalc]
  rw [Nat.add_comm j (P.rangeGroupInd i)]
  have h2 : ∀ k, P.X (k + P.nrow * (P.rangeGroupInd i + j))
        * (P.w k * (e k + groupPredictor P i v k - P.y k) / vsum P.nrow P.w)
      = P.X (k + P.nrow * (P.rangeGroupInd i + j)) * (P.w k * (e k - P.y k) / vsum P.nrow P.w)
        + P.X (k + P.nrow * (P.rangeGroupInd i + j)) * (P.w k * groupPredictor P i v k)
          / vsum P.nrow P.w := by
    intro k; ring
  simp only [h2]
  rw [sum_add_distrib, ← sum_div, h1]
  congr 1
  field_simp
  rw [mul_comm (vsum P.nrow P.w) (v j)]
  exact mul_div_mul_right _ _ hw

/-- Under `Curvature` the reference loss along the group is a quadratic with
Hessian `I / t`. -/
theorem linLogLik_group (P : Params K) (i : ℕ) (t : K) (hc : Curvature P i t)
    (hw : vsum P.nrow P.w ≠ 0) (e v : ℕ → K) :
    linLogLik P.nrow (fun k => e k + groupPredictor P i v k) P.y P.w
      = linLogLik P.nrow e P.y P.w
        + ∑ j ∈ range (P.groupLen i), groupGrad P i (rcppLinGradCalc P.nrow e P.y P.w) j * v j
        + 1 / (2 * t) * ∑ j ∈ range (P.groupLen i), v j ^ 2 := by
  rw [linLogLik_add, ldot_groupPredictor, curvature_quadratic P i t hc]
  congr 1
  field_simp
  rw [mul_comm (vsum P.nrow P.w)]
  exact mul_div_mul_right _ _ hw

/-! ### What the commit loop writes -/

theorem momentumWeight_eq_zero (count reset : ℤ) (hc : 0 ≤ count) :
    momentumWeight count reset = 0 := by
  unfold momentumWeight
  have h := Int.tmod_nonneg reset hc
  exact Int.tdiv_eq_zero_of_lt h (by omega)

theorem commitLoop_spec (P : Params K) (step i : ℕ) (count : ℤ) (U : ℕ → K) (s : State K)
    (m : ℕ) :
    (∀ j, j < m → (forLoop m (commitCoef P step i count U) (s, 0)).1.beta
        (step * P.ncol + j + P.rangeGroupInd i)
      = U j + (momentumWeight count P.reset : K) * (U j - s.theta (j + P.rangeGroupInd i))) ∧
    (∀ c, (∀ j, j < m → c ≠ step * P.ncol + j + P.rangeGroupInd i) →
      (forLoop m (commitCoef P step i count U) (s, 0)).1.beta c = s.beta c) ∧
    (∀ x, (∀ j, j < m → x ≠ j + P.rangeGroupInd i) →
      (forLoop m (commitCoef P step i count U) (s, 0)).1.theta x = s.theta x) ∧
    (∀ k, k < P.nrow → (forLoop m (commitCoef P step i count U) (s, 0)).1.eta k
      = s.eta k + ∑ j ∈ range m, P.X (k + P.nrow * (j + P.rangeGroupInd i))
          * ((forLoop m (commitCoef P step i count U) (s, 0)).1.beta
              (step * P.ncol + j + P.rangeGroupInd i)
            - s.beta (step * P.ncol + j + P.rangeGroupInd i))) := by
  induction m with
  | zero =>
    refine ⟨fun j hj => absurd hj (Nat.not_lt_zero j), fun c _ => rfl, fun x _ => rfl,
      fun k _ => by simp [forLoop]⟩
  | succ q ih =>
    obtain ⟨hb, hout, hth, heta⟩ := ih
    set r := forLoop q (commitCoef P step i count U) (s, 0) with hr
    have hstep : forLoop (q + 1) (commitCoef P step i count U) (s, 0)
        = commitCoef P step i count U q r := rfl
    rw [hstep]
    have hthq : r.1.theta (q + P.rangeGroupInd i) = s.theta (q + P.rangeGroupInd i) :=
      hth _ (fun j hj => by omega)
    have hbq : r.1.beta (step * P.ncol + q + P.rangeGroupInd i)
        = s.beta (step * P.ncol + q + P.rangeGroupInd i) :=
      hout _ (fun j hj => by omega)
    refine ⟨?_, ?_, ?_, ?_⟩
    · intro j hj
      simp only [commitCoef, Function.update_apply]
      rcases Nat.lt_succ_iff_lt_or_eq.mp hj with h1 | h1
      · rw [if_neg (by omega)]
        exact hb j h1
      · subst h1
        rw [if_pos rfl, hthq]
    · intro c hc
      simp only [commitCoef, Function.update_apply]
      rw [if_neg (hc q (Nat.lt_succ_self q))]
      exact hout c (fun j hj => hc j (Nat.lt_succ_of_lt hj))
    · intro x hx
      simp only [commitCoef, Function.update_apply]
      rw [if_neg (hx q (Nat.lt_succ_self q))]
      exact hth x (fun j hj => hx j (Nat.lt_succ_of_lt hj))
    · intro k hk
      rw [sum_range_succ]
      have hsum : ∑ j ∈ range q, P.X (k + P.nrow * (j + P.rangeGroupInd i))
            * ((commitCoef P step i count U q r).1.beta (step * P.ncol + j + P.rangeGroupInd i)
              - s.beta (step * P.ncol + j + P.rangeGroupInd i))
          = ∑ j ∈ range q, P.X (k + P.nrow * (j + P.rangeGroupInd i))
            * (r.1.beta (step * P.ncol + j + P.rangeGroupInd i)
              - s.beta (step * P.ncol + j + P.rangeGroupInd i)) := by
        refine sum_congr rfl (fun j hj => ?_)
        have hjq := mem_range.mp hj
        simp only [commitCoef, Function.update_apply]
        rw [if_neg (by omega)]
      rw [hsum, ← hbq]
      simp only [commitCoef, if_pos hk, Function.update_apply, if_true, heta k hk]
      ring

/-- With a non-negative iteration count the commit writes `U` into the group. -/
theorem commit_groupCoef (P : Params K) (step i : ℕ) (count : ℤ) (U : ℕ → K) (s : State K)
    (hcount : 0 ≤ count) (j : ℕ) (hj : j < P.groupLen i) :
    groupCoef P step i (commit P step i count U s).1 j = U j := by
  have := (commitLoop_spec P step i count U s (P.groupLen i)).1 j hj
  unfold groupCoef commit
  rw [this, momentumWeight_eq_zero count P.reset hcount]
  simp

theorem etaNull_eq (P : Params K) (step i : ℕ) (s : State K) (k : ℕ) (hk : k < P.nrow) :
    etaNull P step i s k = s.eta k - groupPredictor P i (groupCoef P step i s) k := by
  simp only [etaNull, if_pos hk, forLoop_sub_eq, groupPredictor, groupCoef]
  congr 1
  exact sum_congr rfl (fun j _ => by
    rw [show step * P.ncol + (P.rangeGroupInd i + j) = step * P.ncol + j + P.rangeGroupInd i
      by omega])

/-- The commit loop leaves the predictor without the group as it was. -/
theorem commit_etaNull (P : Params K) (step i : ℕ) (count : ℤ) (U : ℕ → K) (s : State K) :
    etaNull P step i (commit P step i count U s).1 = etaNull P step i s := by
  funext k
  by_cases hk : k < P.nrow
  · rw [etaNull_eq _ _ _ _ _ hk, etaNull_eq _ _ _ _ _ hk]
    have := (commitLoop_spec P step i count U s (P.groupLen i)).2.2.2 k hk
    unfold commit
    rw [this]
    simp only [groupPredictor, groupCoef]
    rw [add_sub_assoc, ← sum_sub_distrib, sub_eq_add_neg, ← sum_neg_distrib]
    congr 1
    exact sum_congr rfl (fun j _ => by
      rw [Nat.add_comm j (P.rangeGroupInd i)]; ring)
  · simp only [etaNull, if_neg hk]

/-! ### An inner iteration at the reciprocal curvature -/

theorem softThreshold_congr (P : Params K) (step i : ℕ) (z z2 : ℕ → K) (t : K)
    (h : ∀ j, j < P.groupLen i → z j = z2 j) (j : ℕ) (hj : j < P.groupLen i) :
    softThreshold P step i z t j = softThreshold P step i z2 t j := by
  have hv : vsum (P.groupLen i) (fun j => z j ^ 2) = vsum (P.groupLen i) (fun j => z2 j ^ 2) := by
    rw [vsum_eq_sum, vsum_eq_sum]
    exact sum_congr rfl (fun j hj => by rw [h j (mem_range.mp hj)])
  simp only [softThreshold, shrink, hv, h j hj]

theorem eta_eq_base_add (P : Params K) (step i : ℕ) (s : State K) (k : ℕ) (hk : k < P.nrow) :
    s.eta k = etaNull P step i s k + groupPredictor P i (groupCoef P step i s) k := by
  rw [etaNull_eq P step i s k hk]; ring

/-- Under `Curvature` the gradient at `eta` is the screening gradient plus `beta / t`. -/
theorem currentGrad_eq (P : Params K) (step i : ℕ) (s : State K) (t : K)
    (hlink : P.link = identityLinkCpp) (hw : vsum P.nrow P.w ≠ 0) (hc : Curvature P i t)
    (j : ℕ) (hj : j < P.groupLen i) :
    currentGrad P i s j = nullGrad P step i s j + groupCoef P step i s j / t := by
  unfold currentGrad nullGrad
  rw [hlink, groupGrad_congr P i
    (rcppLinGradCalc P.nrow (identityLinkCpp s.eta) P.y P.w)
    (rcppLinGradCalc P.nrow
      (fun k => etaNull P step i s k + groupPredictor P i (groupCoef P step i s) k) P.y P.w)
    (fun k hk => by
      simp only [rcppLinGradCalc, identityLinkCpp]
      rw [eta_eq_base_add P step i s k hk])]
  exact groupGrad_shift P i t hc hw (etaNull P step i s) (groupCoef P step i s) j hj

theorem candidate_eq (P : Params K) (step i : ℕ) (s : State K) (t : K)
    (hlink : P.link = identityLinkCpp) (hw : vsum P.nrow P.w ≠ 0) (hc : Curvature P i t)
    (ht : t ≠ 0) (j : ℕ) (hj : j < P.groupLen i) :
    candidate P step i s (currentGrad P i s) t j = -(t * nullGrad P step i s j) := by
  simp only [candidate, currentGrad_eq P step i s t hlink hw hc j hj, groupCoef]
  field_simp
  ring

/-- The loss at the tentative predictor of a trial at step size `t`, under
`Curvature` at `tau`. -/
theorem trial_Lnew_eq (P : Params K) (step i : ℕ) (s : State K) (grad : ℕ → K)
    (Lold t tau : K)
    (hlink : P.link = identityLinkCpp) (hloss : P.loglik = linLogLik P.nrow)
    (hw : vsum P.nrow P.w ≠ 0) (hc : Curvature P i tau) (ht : t ≠ 0) :
    (trial P step i s grad Lold t).Lnew
      = linLogLik P.nrow (etaNull P step i s) P.y P.w
        + ∑ j ∈ range (P.groupLen i), nullGrad P step i s j * (trial P step i s grad Lold t).U j
        + 1 / (2 * tau)
          * ∑ j ∈ range (P.groupLen i), (trial P step i s grad Lold t).U j ^ 2 := by
  have h := linLogLik_group P i tau hc hw (etaNull P step i s) (trial P step i s grad Lold t).U
  have hn : ∀ j, groupGrad P i (rcppLinGradCalc P.nrow (etaNull P step i s) P.y P.w) j
      = nullGrad P step i s j := by
    intro j; unfold nullGrad; rw [hlink]; rfl
  simp only [hn] at h
  rw [← h]
  show P.loglik (P.link (trial P step i s grad Lold t).etaNew) P.y P.w = _
  rw [hloss, hlink]
  apply linLogLik_congr
  intro k hk
  simp only [identityLinkCpp, trial, if_pos hk, forLoop_sub_eq]
  rw [eta_eq_base_add P step i s k hk, add_sub_assoc]
  congr 1
  simp only [groupPredictor, groupCoef, ← sum_sub_distrib]
  exact sum_congr rfl (fun j _ => by field_simp; ring)

theorem currentLoss_eq (P : Params K) (step i : ℕ) (s : State K) (t : K)
    (hlink : P.link = identityLinkCpp) (hloss : P.loglik = linLogLik P.nrow)
    (hw : vsum P.nrow P.w ≠ 0) (hc : Curvature P i t) :
    currentLoss P s
      = linLogLik P.nrow (etaNull P step i s) P.y P.w
        + ∑ j ∈ range (P.groupLen i), nullGrad P step i s j * groupCoef P step i s j
        + 1 / (2 * t) * ∑ j ∈ range (P.groupLen i), groupCoef P step i s j ^ 2 := by
  have h := linLogLik_group P i t hc hw (etaNull P step i s) (groupCoef P step i s)
  have hn : ∀ j, groupGrad P i (rcppLinGradCalc P.nrow (etaNull P step i s) P.y P.w) j
      = nullGrad P step i s j := by
    intro j; unfold nullGrad; rw [hlink]; rfl
  simp only [hn] at h
  rw [← h]
  unfold currentLoss
  rw [hloss, hlink]
  apply linLogLik_congr
  intro k hk
  simp only [identityLinkCpp]
  exact eta_eq_base_add P step i s k hk

/-- With the identity link and the reference loss, under `Curvature` at `tau`
the trial at step size `t` has
`diff = (1/2) * (1/t - 1/tau) * ||beta_group - U||^2`. -/
theorem trial_diff_eq (P : Params K) (step i : ℕ) (s : State K) (t tau : K)
    (hlink : P.link = identityLinkCpp) (hloss : P.loglik = linLogLik P.nrow)
    (hw : vsum P.nrow P.w ≠ 0) (hc : Curvature P i tau) (ht : t ≠ 0) :
    (trial P step i s (currentGrad P i s) (currentLoss P s) t).diff
      = 1 / 2 * (1 / t - 1 / tau) * ∑ j ∈ range (P.groupLen i),
          (groupCoef P step i s j
            - (trial P step i s (currentGrad P i s) (currentLoss P s) t).U j) ^ 2 := by
  have hL := trial_Lnew_eq P step i s (currentGrad P i s) (currentLoss P s) t tau hlink hloss
    hw hc ht
  have hO := currentLoss_eq P step i s tau hlink hloss hw hc
  set U := (trial P step i s (currentGrad P i s) (currentLoss P s) t).U with hU
  have hd : (trial P step i s (currentGrad P i s) (currentLoss P s) t).diff
      = currentLoss P s - (trial P step i s (currentGrad P i s) (currentLoss P s) t).Lnew
        - t * ∑ j ∈ range (P.groupLen i),
            currentGrad P i s j * (1 / t * (groupCoef P step i s j - U j))
        + t / 2 * ∑ j ∈ range (P.groupLen i), (1 / t * (groupCoef P step i s j - U j)) ^ 2 := by
    simp only [trial, vsum_eq_sum, groupCoef, hU]
  have h1 : t * ∑ j ∈ range (P.groupLen i),
        currentGrad P i s j * (1 / t * (groupCoef P step i s j - U j))
      = ∑ j ∈ range (P.groupLen i), nullGrad P step i s j * groupCoef P step i s j
        - ∑ j ∈ range (P.groupLen i), nullGrad P step i s j * U j
        + 1 / tau * (∑ j ∈ range (P.groupLen i), groupCoef P step i s j ^ 2
          - ∑ j ∈ range (P.groupLen i), groupCoef P step i s j * U j) := by
    rw [mul_sum, ← sum_sub_distrib, ← sum_sub_distrib, mul_sum, ← sum_add_distrib]
    refine sum_congr rfl (fun j hj => ?_)
    rw [currentGrad_eq P step i s tau hlink hw hc j (mem_range.mp hj)]
    field_simp
    ring
  have h2 : t / 2 * ∑ j ∈ range (P.groupLen i), (1 / t * (groupCoef P step i s j - U j)) ^ 2
      = 1 / (2 * t) * (∑ j ∈ range (P.groupLen i), groupCoef P step i s j ^ 2
          - 2 * ∑ j ∈ range (P.groupLen i), groupCoef P step i s j * U j
          + ∑ j ∈ range (P.groupLen i), U j ^ 2) := by
    rw [mul_sum, mul_sum (a := 2), ← sum_sub_distrib, ← sum_add_distrib, mul_sum]
    refine sum_congr rfl (fun j _ => ?_)
    field_simp
    ring
  have h3 : ∑ j ∈ range (P.groupLen i), (groupCoef P step i s j - U j) ^ 2
      = ∑ j ∈ range (P.groupLen i), groupCoef P step i s j ^ 2
          - 2 * ∑ j ∈ range (P.groupLen i), groupCoef P step i s j * U j
          + ∑ j ∈ range (P.groupLen i), U j ^ 2 := by
    rw [mul_sum, ← sum_sub_distrib, ← sum_add_distrib]
    exact sum_congr rfl (fun j _ => by ring)
  rw [hd, hL, hO, h1, h2, h3]
  have e1 : (1 : K) / (2 * tau) = 1 / 2 * (1 / tau) := by rw [one_div_mul_one_div]
  have e2 : (1 : K) / (2 * t) = 1 / 2 * (1 / t) := by rw [one_div_mul_one_div]
  rw [e1, e2]
  ring

/-- Under `Curvature` at `t` itself the trial at `t` has `diff = 0`. -/
theorem trial_diff_curvature (P : Params K) (step i : ℕ) (s : State K) (t : K)
    (hlink : P.link = identityLinkCpp) (hloss : P.loglik = linLogLik P.nrow)
    (hw : vsum P.nrow P.w ≠ 0) (hc : Curvature P i t) (ht : t ≠ 0) :
    (trial P step i s (currentGrad P i s) (currentLoss P s) t).diff = 0 := by
  rw [trial_diff_eq P step i s t t hlink hloss hw hc ht, sub_self, mul_zero, zero_mul]

/-- An inner iteration whose first trial is accepted keeps `t`, the flags and
the predictor without the group, and writes the `U` of that trial into the
group. -/
theorem innerIteration_of_accept (P : Params K) (step i fuel : ℕ) (count : ℤ) (s : State K)
    (hg : P.gamma ≠ 0) (hcount : 0 ≤ count) (hfuel : 0 < fuel)
    (hacc : 0 ≤ (trial P step i s (currentGrad P i s) (currentLoss P s) s.t).diff) :
    ∃ s1 check, innerIteration P step i fuel count s = some (s1, check) ∧
      s1.t = s.t ∧ etaNull P step i s1 = etaNull P step i s ∧
      s1.isActive = s.isActive ∧ s1.groupChange = s.groupChange ∧
      s1.betaIsZero = s.betaIsZero ∧
      ∀ j, j < P.groupLen i → groupCoef P step i s1 j
        = (trial P step i s (currentGrad P i s) (currentLoss P s) s.t).U j := by
  have hbt := backtrack_first_accept P step i s (currentGrad P i s) (currentLoss P s) 0 s.t
    fuel (fun m hm => absurd hm (Nat.not_lt_zero m))
    (by rw [pow_zero, mul_one]; exact hacc) hfuel
  rw [pow_zero, mul_one] at hbt
  have hit : innerIteration P step i fuel count s
      = some (commit P step i count
          (trial P step i s (currentGrad P i s) (currentLoss P s) s.t).U
          { s with t := s.t * P.gamma / P.gamma }) := by
    unfold innerIteration
    rw [hbt]
  have hfr := commit_frame P step i count
    (trial P step i s (currentGrad P i s) (currentLoss P s) s.t).U
    { s with t := s.t * P.gamma / P.gamma }
  have ht1 : (commit P step i count
      (trial P step i s (currentGrad P i s) (currentLoss P s) s.t).U
      { s with t := s.t * P.gamma / P.gamma }).1.t = s.t :=
    hfr.2.2.2.trans (by
      show s.t * P.gamma / P.gamma = s.t
      rw [mul_div_assoc, div_self hg, mul_one])
  have hnull : etaNull P step i (commit P step i count
      (trial P step i s (currentGrad P i s) (currentLoss P s) s.t).U
      { s with t := s.t * P.gamma / P.gamma }).1 = etaNull P step i s :=
    (commit_etaNull P step i count _ _).trans rfl
  exact ⟨_, _, hit, ht1, hnull, hfr.2.1, hfr.2.2.1, hfr.1,
    fun j hj => commit_groupCoef P step i count _ _ hcount j hj⟩

/-- Under `Curvature` at the current step size, the inner iteration accepts its
first trial, keeps `t` and the predictor without the group, and writes the
analytic solution into the group. -/
theorem innerIteration_curvature (P : Params K) (step i fuel : ℕ) (count : ℤ) (s : State K)
    (hlink : P.link = identityLinkCpp) (hloss : P.loglik = linLogLik P.nrow)
    (hw : vsum P.nrow P.w ≠ 0) (hc : Curvature P i s.t) (ht : s.t ≠ 0) (hg : P.gamma ≠ 0)
    (hcount : 0 ≤ count) (hfuel : 0 < fuel) :
    ∃ s1 check, innerIteration P step i fuel count s = some (s1, check) ∧
      s1.t = s.t ∧ etaNull P step i s1 = etaNull P step i s ∧
      s1.isActive = s.isActive ∧ s1.groupChange = s.groupChange ∧
      s1.betaIsZero = s.betaIsZero ∧
      ∀ j, j < P.groupLen i → groupCoef P step i s1 j = analyticSolution P step i s j := by
  obtain ⟨s1, check, h1, h2, h3, h4, h5, h6, h7⟩ :=
    innerIteration_of_accept P step i fuel count s hg hcount hfuel
      (by rw [trial_diff_curvature P step i s s.t hlink hloss hw hc ht])
  refine ⟨s1, check, h1, h2, h3, h4, h5, h6, fun j hj => ?_⟩
  rw [h7 j hj]
  exact softThreshold_congr P step i _ _ s.t
    (fun j hj => candidate_eq P step i s s.t hlink hw hc ht j hj) j hj

/-- An inner iteration on the unpenalised one-column instance started at a step
size in `(0, 1]`: a gradient step of that size. -/
theorem oneByOne_innerIteration (s : State ℝ) (mom : ℝ) (fuel : ℕ) (count : ℤ)
    (ht : 0 < s.t) (ht1 : s.t ≤ 1) (hcount : 0 ≤ count) (hfuel : 0 < fuel) :
    ∃ s1 check, innerIteration (oneByOne ℝ Real.sqrt 0 mom) 0 0 fuel count s
        = some (s1, check) ∧
      s1.beta 0 = s.beta 0 - s.t * (s.eta 0 - 2) ∧
      s1.eta 0 = s.eta 0 - s.t * (s.eta 0 - 2) ∧ s1.t = s.t := by
  have hacc : 0 ≤ (trial (oneByOne ℝ Real.sqrt 0 mom) 0 0 s
      (currentGrad (oneByOne ℝ Real.sqrt 0 mom) 0 s)
      (currentLoss (oneByOne ℝ Real.sqrt 0 mom) s) s.t).diff := by
    rw [oneByOne_trial_diff s 0 s.t mom (ne_of_gt ht)]
    exact mul_nonneg (mul_nonneg (sq_nonneg _) (by linarith)) (by linarith)
  obtain ⟨s1, check, h1, h2, h3, _, _, _, h7⟩ :=
    innerIteration_of_accept (oneByOne ℝ Real.sqrt 0 mom) 0 0 fuel count s
      (by norm_num [oneByOne]) hcount hfuel hacc
  have hU : (trial (oneByOne ℝ Real.sqrt 0 mom) 0 0 s
      (currentGrad (oneByOne ℝ Real.sqrt 0 mom) 0 s)
      (currentLoss (oneByOne ℝ Real.sqrt 0 mom) s) s.t).U 0
      = s.beta 0 - s.t * (s.eta 0 - 2) := by
    show softThreshold _ _ _ _ _ _ = _
    rw [softThreshold_lambda_zero (oneByOne ℝ Real.sqrt 0 mom) 0 0 _ s.t isSqrt_real rfl 0
      Nat.one_pos]
    simp only [candidate, currentGrad, groupGrad, rcppLinGradCalc, vsum, forLoop, oneByOne,
      identityLinkCpp]
    norm_num
  have hb : s1.beta 0 = s.beta 0 - s.t * (s.eta 0 - 2) := (h7 0 Nat.one_pos).trans hU
  refine ⟨s1, check, h1, hb, ?_, h2⟩
  have he := congrFun h3 0
  simp only [etaNull, oneByOne, forLoop, Nat.lt_one_iff, if_true, Nat.zero_mul, Nat.zero_add,
    Nat.mul_zero, Nat.add_zero, one_mul] at he
  linarith

/-- On the two-column instance (unit weights, orthonormal columns, four
observations) the step size 4 is the reciprocal curvature of either group. -/
theorem fourByTwo_curvature (lam mom : ℝ) (inner outer : ℤ) (i : ℕ) (hi : i < 2) :
    Curvature (fourByTwo ℝ Real.sqrt lam mom inner outer) i 4 := by
  intro j j2 hj hj2
  have hj0 : j = 0 := Nat.lt_one_iff.mp hj
  have hj20 : j2 = 0 := Nat.lt_one_iff.mp hj2
  subst hj0 hj20
  interval_cases i
  · simp only [fourByTwo, vsum, forLoop, sum_range_succ, sum_range_zero]
    norm_num
  · simp only [fourByTwo, vsum, forLoop, sum_range_succ, sum_range_zero]
    norm_num

/-! ### A design with orthogonal columns -/

/-- With `eta = X * beta` the predictor without group `i` is `X` times the row
with the group's coefficients set to 0. -/
theorem etaNull_of_linPred (P : Params K) (step i : ℕ) (s : State K)
    (hin : P.rangeGroupInd i + P.groupLen i ≤ P.ncol) (hLin : LinPred P step s)
    (k : ℕ) (hk : k < P.nrow) :
    etaNull P step i s k = ∑ c ∈ range P.ncol, P.X (k + P.nrow * c)
      * (if P.rangeGroupInd i ≤ c ∧ c < P.rangeGroupInd i + P.groupLen i then 0
          else s.beta (step * P.ncol + c)) := by
  have hsum := sum_block_change (fun c => P.X (k + P.nrow * c))
    (fun c => s.beta (step * P.ncol + c))
    (fun c => if P.rangeGroupInd i ≤ c ∧ c < P.rangeGroupInd i + P.groupLen i then 0
      else s.beta (step * P.ncol + c))
    (P.rangeGroupInd i) (P.groupLen i) P.ncol hin
    (fun c _ hc => by
      simp only
      rw [if_neg]
      omega)
  rw [hsum, ← hLin k hk, etaNull_eq P step i s k hk, sub_eq_add_neg]
  congr 1
  simp only [groupPredictor, groupCoef]
  rw [← sum_neg_distrib]
  refine sum_congr rfl (fun j hj => ?_)
  have hj2 := mem_range.mp hj
  rw [if_pos ⟨by omega, by omega⟩,
    show step * P.ncol + (P.rangeGroupInd i + j) = step * P.ncol + j + P.rangeGroupInd i by omega]
  ring

/-- With orthogonal columns and `eta = X * beta` the screening gradient of a
group does not depend on the coefficients. -/
theorem nullGrad_orth (P : Params K) (step i : ℕ) (s : State K)
    (hlink : P.link = identityLinkCpp) (horth : ColumnsOrthogonal P)
    (hin : P.rangeGroupInd i + P.groupLen i ≤ P.ncol) (hLin : LinPred P step s)
    (j : ℕ) (hj : j < P.groupLen i) :
    nullGrad P step i s j
      = -((∑ k ∈ range P.nrow, P.X (k + P.nrow * (P.rangeGroupInd i + j)) * (P.w k * P.y k))
          / vsum P.nrow P.w) := by
  have hzero : ∑ k ∈ range P.nrow, P.X (k + P.nrow * (P.rangeGroupInd i + j))
      * (P.w k * etaNull P step i s k) = 0 := by
    have h1 : ∀ k, k ∈ range P.nrow → P.X (k + P.nrow * (P.rangeGroupInd i + j))
          * (P.w k * etaNull P step i s k)
        = ∑ c ∈ range P.ncol,
            (if P.rangeGroupInd i ≤ c ∧ c < P.rangeGroupInd i + P.groupLen i then 0
              else s.beta (step * P.ncol + c))
            * (P.w k * P.X (k + P.nrow * (P.rangeGroupInd i + j)) * P.X (k + P.nrow * c)) := by
      intro k hk
      rw [etaNull_of_linPred P step i s hin hLin k (mem_range.mp hk), mul_sum, mul_sum]
      exact sum_congr rfl (fun c _ => by ring)
    rw [sum_congr rfl h1, sum_comm]
    refine sum_eq_zero (fun c hc => ?_)
    rw [← mul_sum]
    by_cases hb : P.rangeGroupInd i ≤ c ∧ c < P.rangeGroupInd i + P.groupLen i
    · rw [if_pos hb, zero_mul]
    · rw [horth (P.rangeGroupInd i + j) c (by omega) (mem_range.mp hc)
        (fun h => hb ⟨by omega, by omega⟩), mul_zero]
  unfold nullGrad
  rw [hlink]
  simp only [groupGrad, forLoop_add_eq, zero_add, rcppLinGradCalc, identityLinkCpp]
  rw [Nat.add_comm j (P.rangeGroupInd i)]
  have h2 : ∀ k, P.X (k + P.nrow * (P.rangeGroupInd i + j))
        * (P.w k * (etaNull P step i s k - P.y k) / vsum P.nrow P.w)
      = P.X (k + P.nrow * (P.rangeGroupInd i + j)) * (P.w k * etaNull P step i s k)
          / vsum P.nrow P.w
        - P.X (k + P.nrow * (P.rangeGroupInd i + j)) * (P.w k * P.y k) / vsum P.nrow P.w := by
    intro k; ring
  simp only [h2]
  rw [sum_sub_distrib, ← sum_div, ← sum_div, hzero, zero_div, zero_sub]

/-! ### What an inner iteration leaves alone -/

/-- What any returned inner iteration leaves alone. -/
theorem innerIteration_frame (P : Params K) (step i fuel : ℕ) (count : ℤ) (s s1 : State K)
    (check : K) (h : innerIteration P step i fuel count s = some (s1, check)) :
    (∀ c, (∀ j, j < P.groupLen i → c ≠ step * P.ncol + j + P.rangeGroupInd i) →
      s1.beta c = s.beta c) ∧
    (P.rangeGroupInd i + P.groupLen i ≤ P.ncol → LinPred P step s → LinPred P step s1) := by
  unfold innerIteration at h
  split at h
  · exact absurd h (by simp)
  · rename_i t1 r _
    have hs : commit P step i count r.U { s with t := t1 / P.gamma } = (s1, check) := by
      simpa using h
    have h1 := commit_beta_outside P step i count r.U { s with t := t1 / P.gamma }
    have h2 := commit_linPred P step i count r.U { s with t := t1 / P.gamma }
    rw [hs] at h1 h2
    exact ⟨h1, fun hin hLin => h2 hin hLin⟩

/-- The columns of the two-column instance are orthonormal. -/
theorem fourByTwo_orthonormal (lam mom : ℝ) (inner outer : ℤ) :
    ∀ c c2, c < 2 → c2 < 2 →
      ∑ k ∈ range 4, (fourByTwo ℝ Real.sqrt lam mom inner outer).X (k + 4 * c)
          * (fourByTwo ℝ Real.sqrt lam mom inner outer).X (k + 4 * c2)
        = if c = c2 then 1 else 0 := by
  intro c c2 hc hc2
  interval_cases c <;> interval_cases c2 <;>
    simp only [fourByTwo, sum_range_succ, sum_range_zero] <;> norm_num

/-! ### The two-column instance below the reciprocal curvature -/

theorem fourByTwo_sumw (lam mom : ℝ) (inner outer : ℤ) :
    vsum (fourByTwo ℝ Real.sqrt lam mom inner outer).nrow
      (fourByTwo ℝ Real.sqrt lam mom inner outer).w = 4 := by
  simp only [fourByTwo, vsum, forLoop]
  norm_num

theorem fourByTwo_groupsOK (lam mom : ℝ) (inner outer : ℤ) :
    GroupsOK (fourByTwo ℝ Real.sqrt lam mom inner outer) := by
  refine ⟨fun i hi => ?_, fun i i2 hi hi2 hne => ?_⟩
  · have : i < 2 := hi
    show i + 1 ≤ 2
    omega
  · show i + 1 ≤ i2 ∨ i2 + 1 ≤ i
    omega

theorem fourByTwo_columnsOrthogonal (lam mom : ℝ) (inner outer : ℤ) :
    ColumnsOrthogonal (fourByTwo ℝ Real.sqrt lam mom inner outer) := by
  intro c c2 hc hc2 hne
  have h := fourByTwo_orthonormal lam mom inner outer c c2 hc hc2
  rw [if_neg hne] at h
  rw [← h]
  exact sum_congr rfl (fun k _ => by
    show (1 : ℝ) * _ * _ = _
    rw [one_mul]
    rfl)

/-- With `eta = X * beta` the screening gradients of the two groups are `-5/4`
and `1/4`. -/
theorem fourByTwo_nullGrad (lam mom : ℝ) (inner outer : ℤ) (s : State ℝ)
    (hLin : LinPred (fourByTwo ℝ Real.sqrt lam mom inner outer) 0 s) :
    nullGrad (fourByTwo ℝ Real.sqrt lam mom inner outer) 0 0 s 0 = -(5 / 4) ∧
    nullGrad (fourByTwo ℝ Real.sqrt lam mom inner outer) 0 1 s 0 = 1 / 4 := by
  constructor
  · rw [nullGrad_orth _ 0 0 s rfl (fourByTwo_columnsOrthogonal lam mom inner outer)
      ((fourByTwo_groupsOK lam mom inner outer).1 0 (show 0 < 2 by decide)) hLin 0 Nat.one_pos,
      fourByTwo_sumw]
    simp only [fourByTwo, sum_range_succ, sum_range_zero]
    norm_num
  · rw [nullGrad_orth _ 0 1 s rfl (fourByTwo_columnsOrthogonal lam mom inner outer)
      ((fourByTwo_groupsOK lam mom inner outer).1 1 (show 1 < 2 by decide)) hLin 0 Nat.one_pos,
      fourByTwo_sumw]
    simp only [fourByTwo, sum_range_succ, sum_range_zero]
    norm_num

theorem fourByTwo_not_zeroTest (mom : ℝ) (inner outer : ℤ) (s : State ℝ) (i : ℕ)
    (hi : i < 2) (hLin : LinPred (fourByTwo ℝ Real.sqrt 0 mom inner outer) 0 s) :
    ¬ zeroTest (fourByTwo ℝ Real.sqrt 0 mom inner outer) 0 i s := by
  obtain ⟨h0, h1⟩ := fourByTwo_nullGrad 0 mom inner outer s hLin
  unfold zeroTest zeroCheck
  have hlen : (fourByTwo ℝ Real.sqrt 0 mom inner outer).groupLen i = 1 := rfl
  rw [hlen]
  simp only [vsum, forLoop]
  interval_cases i
  · rw [h0]; norm_num [fourByTwo]
  · rw [h1]; norm_num [fourByTwo]

theorem trial_etaNew_eq (P : Params K) (step i : ℕ) (s : State K) (grad : ℕ → K)
    (Lold t : K) (k : ℕ) (hk : k < P.nrow) :
    (trial P step i s grad Lold t).etaNew k
      = s.eta k + -(t * groupPredictor P i (trial P step i s grad Lold t).G k) := by
  simp only [trial, if_pos hk, forLoop_sub_eq, groupPredictor, Finset.mul_sum]
  rw [sub_eq_add_neg]
  congr 2
  exact Finset.sum_congr rfl (fun j _ => by ring)

theorem reference_trial_diff (P : Params K) (step i : ℕ) (s : State K) (t : K)
    (hlink : P.link = identityLinkCpp) (hloss : P.loglik = linLogLik P.nrow) :
    (trial P step i s (currentGrad P i s) (currentLoss P s) t).diff
      = t / 2 * ∑ j ∈ range (P.groupLen i),
            (trial P step i s (currentGrad P i s) (currentLoss P s) t).G j ^ 2
        - t ^ 2 / 2
          * weightedFit P i (trial P step i s (currentGrad P i s) (currentLoss P s) t).G
          / vsum P.nrow P.w := by
  have hLnew : (trial P step i s (currentGrad P i s) (currentLoss P s) t).Lnew
      = linLogLik P.nrow (fun k => s.eta k
          + -(t * groupPredictor P i
              (trial P step i s (currentGrad P i s) (currentLoss P s) t).G k)) P.y P.w := by
    have : (trial P step i s (currentGrad P i s) (currentLoss P s) t).Lnew
        = P.loglik (P.link (trial P step i s (currentGrad P i s) (currentLoss P s) t).etaNew)
            P.y P.w := rfl
    rw [this, hloss, hlink]
    exact linLogLik_congr _ _ _ _ _ (fun k hk => trial_etaNew_eq P step i s _ _ t k hk)
  have hd : (trial P step i s (currentGrad P i s) (currentLoss P s) t).diff
      = currentLoss P s - (trial P step i s (currentGrad P i s) (currentLoss P s) t).Lnew
        - t * ∑ j ∈ range (P.groupLen i), currentGrad P i s j
            * (trial P step i s (currentGrad P i s) (currentLoss P s) t).G j
        + t / 2 * ∑ j ∈ range (P.groupLen i),
            (trial P step i s (currentGrad P i s) (currentLoss P s) t).G j ^ 2 := by
    simp only [trial, vsum_eq_sum]
  rw [hd, hLnew, linLogLik_add]
  generalize (trial P step i s (currentGrad P i s) (currentLoss P s) t).G = G
  have hL : currentLoss P s = linLogLik P.nrow s.eta P.y P.w := by
    unfold currentLoss; rw [hloss, hlink]; rfl
  have hg : currentGrad P i s = groupGrad P i (rcppLinGradCalc P.nrow s.eta P.y P.w) := by
    unfold currentGrad; rw [hlink]; rfl
  have hcross : ∑ k ∈ range P.nrow, rcppLinGradCalc P.nrow (fun k => s.eta k) P.y P.w k
        * -(t * groupPredictor P i G k)
      = -(t * ∑ j ∈ range (P.groupLen i), currentGrad P i s j * G j) := by
    rw [hg, ← ldot_groupPredictor, Finset.mul_sum, ← Finset.sum_neg_distrib]
    exact Finset.sum_congr rfl (fun k _ => by ring)
  have hquad : ∑ k ∈ range P.nrow, P.w k * (-(t * groupPredictor P i G k)) ^ 2
      = t ^ 2 * weightedFit P i G := by
    unfold weightedFit
    rw [Finset.mul_sum]
    exact Finset.sum_congr rfl (fun k _ => by ring)
  rw [hcross, hquad, hL]
  ring

/-- A trial of the reference model at a positive step
`t * weightedFit <= sum(w) * ||G||^2` is accepted. -/
theorem reference_trial_accept (P : Params K) (step i : ℕ) (s : State K) (t : K)
    (hlink : P.link = identityLinkCpp) (hloss : P.loglik = linLogLik P.nrow)
    (hw : 0 < vsum P.nrow P.w) (ht : 0 < t)
    (h : t * weightedFit P i (trial P step i s (currentGrad P i s) (currentLoss P s) t).G
      ≤ vsum P.nrow P.w * ∑ j ∈ range (P.groupLen i),
          (trial P step i s (currentGrad P i s) (currentLoss P s) t).G j ^ 2) :
    0 ≤ (trial P step i s (currentGrad P i s) (currentLoss P s) t).diff := by
  rw [reference_trial_diff P step i s t hlink hloss]
  have h2 : t * weightedFit P i (trial P step i s (currentGrad P i s) (currentLoss P s) t).G
      / vsum P.nrow P.w
      ≤ ∑ j ∈ range (P.groupLen i),
          (trial P step i s (currentGrad P i s) (currentLoss P s) t).G j ^ 2 := by
    rw [div_le_iff₀ hw, mul_comm _ (vsum P.nrow P.w)]
    exact h
  have h3 : t ^ 2 / 2
        * weightedFit P i (trial P step i s (currentGrad P i s) (currentLoss P s) t).G
        / vsum P.nrow P.w
      = t / 2 * (t * weightedFit P i
          (trial P step i s (currentGrad P i s) (currentLoss P s) t).G / vsum P.nrow P.w) := by
    ring
  rw [h3, ← mul_sub]
  exact mul_nonneg (by positivity) (sub_nonneg.mpr h2)

theorem weightedFit_le (P : Params K) (i : ℕ) (v : ℕ → K)
    (hw : ∀ k, k < P.nrow → 0 ≤ P.w k) :
    weightedFit P i v ≤ columnMass P i * ∑ j ∈ range (P.groupLen i), v j ^ 2 := by
  unfold weightedFit columnMass
  rw [Finset.sum_mul]
  refine Finset.sum_le_sum (fun k hk => ?_)
  rw [mul_assoc]
  refine mul_le_mul_of_nonneg_left ?_ (hw k (Finset.mem_range.mp hk))
  unfold groupPredictor
  exact Finset.sum_mul_sq_le_sq_mul_sq _ _ _

theorem columnMass_nonneg (P : Params K) (i : ℕ) (hw : ∀ k, k < P.nrow → 0 ≤ P.w k) :
    0 ≤ columnMass P i :=
  Finset.sum_nonneg (fun k hk => mul_nonneg (hw k (Finset.mem_range.mp hk))
    (Finset.sum_nonneg (fun _ _ => sq_nonneg _)))

/-- With the identity link, the reference loss, `w >= 0`, `sum(w) > 0` and
`gamma` in `(0, 1)` every line search from a positive step exits. -/
theorem reference_backtrack_exits [Archimedean K] (P : Params K) (step i : ℕ) (s : State K)
    (hlink : P.link = identityLinkCpp) (hloss : P.loglik = linLogLik P.nrow)
    (hw : ∀ k, k < P.nrow → 0 ≤ P.w k) (hsw : 0 < vsum P.nrow P.w)
    (hg : 0 < P.gamma) (hg1 : P.gamma < 1) (ht : 0 < s.t) :
    ∃ n, (backtrack P step i s (currentGrad P i s) (currentLoss P s) (n + 1) s.t).isSome
      = true := by
  have hC := columnMass_nonneg P i hw
  have hpos : 0 < vsum P.nrow P.w / (s.t * (columnMass P i + 1)) :=
    div_pos hsw (mul_pos ht (by linarith))
  obtain ⟨n, hn⟩ := exists_pow_lt_of_lt_one hpos hg1
  refine ⟨n, backtrack_isSome_of_accept P step i s _ _ n s.t ?_⟩
  have htn : 0 < s.t * P.gamma ^ n := mul_pos ht (pow_pos hg n)
  refine reference_trial_accept P step i s _ hlink hloss hsw htn ?_
  have hfit := weightedFit_le P i
    (trial P step i s (currentGrad P i s) (currentLoss P s) (s.t * P.gamma ^ n)).G hw
  have hsq : 0 ≤ ∑ j ∈ range (P.groupLen i),
      (trial P step i s (currentGrad P i s) (currentLoss P s) (s.t * P.gamma ^ n)).G j ^ 2 :=
    Finset.sum_nonneg (fun j _ => sq_nonneg _)
  have hbound : s.t * P.gamma ^ n * columnMass P i ≤ vsum P.nrow P.w := by
    have h1 : P.gamma ^ n * (s.t * (columnMass P i + 1)) < vsum P.nrow P.w := by
      rwa [lt_div_iff₀ (mul_pos ht (by linarith))] at hn
    have h2 : s.t * P.gamma ^ n * columnMass P i
        ≤ P.gamma ^ n * (s.t * (columnMass P i + 1)) := by
      have : 0 ≤ s.t * P.gamma ^ n := htn.le
      nlinarith
    linarith
  calc s.t * P.gamma ^ n * weightedFit P i _
      ≤ s.t * P.gamma ^ n * (columnMass P i * ∑ j ∈ range (P.groupLen i),
          (trial P step i s (currentGrad P i s) (currentLoss P s) (s.t * P.gamma ^ n)).G j ^ 2) :=
        mul_le_mul_of_nonneg_left hfit htn.le
    _ = (s.t * P.gamma ^ n * columnMass P i) * ∑ j ∈ range (P.groupLen i),
          (trial P step i s (currentGrad P i s) (currentLoss P s) (s.t * P.gamma ^ n)).G j ^ 2 := by
        ring
    _ ≤ _ := mul_le_mul_of_nonneg_right hbound hsq

theorem reference_lineSearchExits [Archimedean K] (P : Params K) (step : ℕ)
    (hlink : P.link = identityLinkCpp) (hloss : P.loglik = linLogLik P.nrow)
    (hw : ∀ k, k < P.nrow → 0 ≤ P.w k) (hsw : 0 < vsum P.nrow P.w)
    (hg : 0 < P.gamma) (hg1 : P.gamma < 1) : LineSearchExits P step := by
  intro s i _ ht
  obtain ⟨n, hn⟩ := reference_backtrack_exits P step i s hlink hloss hw hsw hg hg1 ht
  exact ⟨n + 1, hn⟩

theorem innerLoop_beta_outside (P : Params K) (step i fuel : ℕ) (rem : ℕ) :
    ∀ (count : ℤ) (check : K) (s s2 : State K),
      innerLoop P step i fuel rem count check s = some s2 →
      ∀ c, (∀ j, j < P.groupLen i → c ≠ step * P.ncol + j + P.rangeGroupInd i) →
        s2.beta c = s.beta c := by
  induction rem with
  | zero =>
    intro count check s s2 h c _
    simp only [innerLoop, Option.some.injEq] at h
    rw [← h]
  | succ m ih =>
    intro count check s s2 h c hc
    unfold innerLoop at h
    split_ifs at h with hcond
    · cases hit : innerIteration P step i fuel (count + 1) s with
      | none => rw [hit] at h; exact absurd h (by simp)
      | some r =>
        obtain ⟨s1, check1⟩ := r
        rw [hit] at h
        rw [ih _ _ _ _ h c hc]
        exact (innerIteration_frame P step i fuel _ s s1 check1 hit).1 c hc
    · simp only [Option.some.injEq] at h
      rw [← h]

theorem solveGroup_beta_outside (P : Params K) (step : ℕ) (useGroup : ℕ → ℤ) (fuel i : ℕ)
    (s s2 : State K) (h : solveGroup P step useGroup fuel i s = some s2) (c : ℕ)
    (hc : useGroup i = 1 →
      ∀ j, j < P.groupLen i → c ≠ step * P.ncol + j + P.rangeGroupInd i) :
    s2.beta c = s.beta c := by
  unfold solveGroup at h
  split_ifs at h with huse hz
  · simp only [Option.some.injEq] at h
    rw [← h, zeroBranch_beta, if_neg]
    rintro ⟨j, hj, hcj⟩
    exact hc huse j hj hcj
  · rw [innerLoop_beta_outside P step i fuel _ _ _ _ _ h c (hc huse)]
    rfl
  · simp only [Option.some.injEq] at h
    rw [← h]

theorem groups_beta_outside (P : Params K) (step : ℕ) (useGroup : ℕ → ℤ) (fuel : ℕ)
    (s : State K) (n : ℕ) :
    ∀ s2, forLoopM n (solveGroup P step useGroup fuel) s = some s2 →
      ∀ c, ¬ ScannedEntry P step useGroup n c → s2.beta c = s.beta c := by
  induction n with
  | zero =>
    intro s2 h c _
    simp only [forLoopM, Option.some.injEq] at h
    rw [← h]
  | succ m ih =>
    intro s2 h c hc
    simp only [forLoopM] at h
    cases hm : forLoopM m (solveGroup P step useGroup fuel) s with
    | none => rw [hm] at h; exact absurd h (by simp)
    | some s1 =>
      rw [hm] at h
      simp only [Option.some_bind] at h
      rw [solveGroup_beta_outside P step useGroup fuel m s1 s2 h c
        (fun huse j hj hcj => hc ⟨m, j, Nat.lt_succ_self m, huse, hj, hcj⟩)]
      exact ih s1 hm c (fun ⟨i, j, hi, huse, hj, hcj⟩ =>
        hc ⟨i, j, Nat.lt_succ_of_lt hi, huse, hj, hcj⟩)

theorem rcppLinSolver_beta_outside (P : Params K) (step : ℕ) (useGroup : ℕ → ℤ) (fuel : ℕ)
    (s s2 : State K) (h : rcppLinSolver P step useGroup fuel s = some s2) (c : ℕ)
    (hc : ¬ ScannedEntry P step useGroup P.numGroup c) : s2.beta c = s.beta c :=
  groups_beta_outside P step useGroup fuel _ P.numGroup s2 h c hc

theorem refineLoop_beta_outside (P : Params K) (step fuel : ℕ) (rem : ℕ) :
    ∀ (ns ns2 : NestState K), refineLoop P step fuel rem ns = some ns2 →
      ∀ c, ¬ ScannedEntry P step (fun _ => 1) P.numGroup c →
        ns2.st.beta c = ns.st.beta c := by
  induction rem with
  | zero =>
    intro ns ns2 h c _
    simp only [refineLoop, Option.some.injEq] at h
    rw [← h]
  | succ m ih =>
    intro ns ns2 h c hc
    unfold refineLoop at h
    split_ifs at h with hcond
    · cases hs : rcppLinSolver P step ns.st.isActive fuel ns.st with
      | none => rw [hs] at h; exact absurd h (by simp)
      | some s1 =>
        rw [hs] at h
        rw [ih _ _ h c hc]
        exact rcppLinSolver_beta_outside P step _ fuel _ _ hs c
          (fun ⟨i, j, hi, _, hj, hcj⟩ => hc ⟨i, j, hi, rfl, hj, hcj⟩)
    · simp only [Option.some.injEq] at h
      rw [← h]

theorem scanLoop_beta_outside (P : Params K) (step fuel : ℕ) (scans : ℕ) :
    ∀ (ns ns2 : NestState K), scanLoop P step fuel scans ns = some ns2 →
      ∀ c, ¬ ScannedEntry P step (fun _ => 1) P.numGroup c →
        ns2.st.beta c = ns.st.beta c := by
  induction scans with
  | zero =>
    intro ns ns2 h c _
    unfold scanLoop at h
    split_ifs at h
    simp only [Option.some.injEq] at h
    rw [← h]
  | succ m ih =>
    intro ns ns2 h c hc
    unfold scanLoop at h
    split_ifs at h with hgc
    · cases hs : rcppLinSolver P step (fun _ => 1) fuel { ns.st with groupChange := 0 } with
      | none => rw [hs] at h; exact absurd h (by simp)
      | some s1 =>
        rw [hs] at h
        simp only at h
        cases hr : refineLoop P step fuel (P.outerIter - ns.outermostCounter).toNat
            { ns with st := s1 } with
        | none => rw [hr] at h; exact absurd h (by simp)
        | some ns1 =>
          rw [hr] at h
          simp only at h
          rw [ih _ _ h c hc, refineLoop_beta_outside P step fuel _ _ _ hr c hc]
          exact rcppLinSolver_beta_outside P step _ fuel _ _ hs c hc
    · simp only [Option.some.injEq] at h
      rw [← h]

/-- The warm-start copy loop of lines 271-274 over the first `n` columns. -/
theorem warmStart_copy (ncol step : ℕ) (b : ℕ → K) (hstep : 0 < step) (n : ℕ) (hn : n ≤ ncol) :
    ∀ c, forLoop n
        (fun i b2 => Function.update b2 (step * ncol + i) (b2 ((step - 1) * ncol + i))) b c
      = if step * ncol ≤ c ∧ c < step * ncol + n then b (c - ncol) else b c := by
  induction n with
  | zero =>
    intro c
    simp only [forLoop]
    rw [if_neg]
    omega
  | succ m ih =>
    intro c
    have hm : m ≤ ncol := Nat.le_of_succ_le hn
    have hrow : step * ncol = (step - 1) * ncol + ncol := by
      obtain ⟨p, hp⟩ := Nat.exists_eq_succ_of_ne_zero (Nat.pos_iff_ne_zero.mp hstep)
      rw [hp, Nat.succ_sub_one, Nat.succ_mul]
    simp only [forLoop, Function.update_apply]
    split_ifs with h1 h2 h2
    · rw [ih hm, if_neg (by omega), h1]
      congr 1
      omega
    · omega
    · rw [ih hm, if_pos (by omega)]
    · rw [ih hm, if_neg (by omega)]

theorem stepInit_beta (P : Params K) (step : ℕ) (s : State K) (hstep : 0 < step) (c : ℕ) :
    (stepInit P step s).st.beta c
      = if step * P.ncol ≤ c ∧ c < step * P.ncol + P.ncol then s.beta (c - P.ncol)
        else s.beta c := by
  simp only [stepInit, if_pos hstep]
  exact warmStart_copy P.ncol step s.beta hstep P.ncol le_rfl c

theorem stepInit_beta_zero (P : Params K) (s : State K) : (stepInit P 0 s).st.beta = s.beta := by
  simp [stepInit]

theorem pathStep_beta_outside (P : Params K) (fuel scans step : ℕ) (s s2 : State K)
    (h : pathStep P fuel scans step s = some s2) (c : ℕ)
    (hc : ¬ ScannedEntry P step (fun _ => 1) P.numGroup c) :
    s2.beta c = (stepInit P step s).st.beta c := by
  unfold pathStep at h
  cases hs : scanLoop P step fuel scans (stepInit P step s) with
  | none => rw [hs] at h; exact absurd h (by simp)
  | some ns =>
    rw [hs] at h
    simp only [Option.map_some', Option.some.injEq] at h
    rw [← h]
    exact scanLoop_beta_outside P step fuel scans _ _ hs c hc

theorem pathStep_other_rows (P : Params K) (fuel scans step : ℕ) (s s2 : State K)
    (hin : GroupsInRange P) (h : pathStep P fuel scans step s = some s2) (c : ℕ)
    (hc : c < step * P.ncol ∨ (step + 1) * P.ncol ≤ c) : s2.beta c = s.beta c := by
  rw [pathStep_beta_outside P fuel scans step s s2 h c
    (fun ⟨i, j, hi, _, hj, hcj⟩ => by
      have := hin i hi
      rw [Nat.add_mul, Nat.one_mul] at hc
      omega)]
  rcases Nat.eq_zero_or_pos step with h0 | hpos
  · subst h0
    rw [stepInit_beta_zero]
  · rw [stepInit_beta P step s hpos, if_neg]
    rw [Nat.add_mul, Nat.one_mul] at hc
    omega

theorem forLoopM_split {α : Type} (body : ℕ → α → Option α) (n : ℕ) (a r : α)
    (h : forLoopM n body a = some r) (m : ℕ) (hm : m < n) :
    ∃ a1 a2, forLoopM m body a = some a1 ∧ body m a1 = some a2 ∧
      forLoopM (m + 1) body a = some a2 := by
  induction n generalizing r with
  | zero => exact absurd hm (Nat.not_lt_zero m)
  | succ k ih =>
    simp only [forLoopM] at h
    cases hk : forLoopM k body a with
    | none => rw [hk] at h; exact absurd h (by simp)
    | some a1 =>
      rw [hk] at h
      simp only [Option.some_bind] at h
      rcases Nat.lt_succ_iff_lt_or_eq.mp hm with hlt | heq
      · exact ih a1 hk hlt
      · subst heq
        refine ⟨a1, r, hk, h, ?_⟩
        simp only [forLoopM, hk, Option.some_bind, h]

/-- Path steps after `m` leave row `m` of `beta` as step `m` produced it. -/
theorem later_steps_keep_row (P : Params K) (fuel scans : ℕ) (s : State K)
    (hin : GroupsInRange P) (m : ℕ) (n : ℕ) :
    ∀ a2 r, forLoopM (m + 1) (pathStep P fuel scans) s = some a2 →
      forLoopM (m + 1 + n) (pathStep P fuel scans) s = some r →
      ∀ c, c < (m + 1) * P.ncol → r.beta c = a2.beta c := by
  induction n with
  | zero =>
    intro a2 r h1 h2 c _
    rw [Nat.add_zero, h1] at h2
    simp only [Option.some.injEq] at h2
    rw [h2]
  | succ k ih =>
    intro a2 r h1 h2 c hc
    have h2b : forLoopM (m + 1 + k + 1) (pathStep P fuel scans) s = some r := h2
    simp only [forLoopM] at h2b
    cases hk : forLoopM (m + 1 + k) (pathStep P fuel scans) s with
    | none => rw [hk] at h2b; exact absurd h2b (by simp)
    | some r1 =>
      rw [hk] at h2b
      simp only [Option.some_bind] at h2b
      rw [pathStep_other_rows P fuel scans _ r1 r hin h2b c (Or.inl (by
        have : (m + 1) * P.ncol ≤ (m + 1 + k) * P.ncol :=
          Nat.mul_le_mul_right _ (Nat.le_add_right _ _)
        omega))]
      exact ih a2 r1 h1 hk c hc

theorem innerLoopTrace_erase (P : Params K) (step i fuel : ℕ) (rem : ℕ) :
    ∀ (count : ℤ) (check : K) (s : State K),
      (innerLoopTrace P step i fuel rem count check s).map (fun r => r.st)
        = innerLoop P step i fuel rem count check s := by
  induction rem with
  | zero => intro count check s; rfl
  | succ m ih =>
    intro count check s
    simp only [innerLoopTrace, innerLoop]
    split_ifs with hc
    · cases hit : innerIteration P step i fuel (count + 1) s with
      | none => rfl
      | some r1 =>
        obtain ⟨s1, check1⟩ := r1
        simp only
        rw [← ih (count + 1) check1 s1, Option.map_map]
        rfl
    · rfl

theorem innerLoopTrace_count (P : Params K) (step i fuel : ℕ) (rem : ℕ) :
    ∀ (count : ℤ) (check : K) (s : State K) (r : InnerRun K),
      innerLoopTrace P step i fuel rem count check s = some r →
      r.count = count + r.starts.length ∧ r.count ≤ count + rem ∧
        (P.innerIter + 1 ≤ count + rem → r.count ≤ P.innerIter → r.check ≤ P.thresh) := by
  induction rem with
  | zero =>
    intro count check s r h
    simp only [innerLoopTrace, Option.some.injEq] at h
    subst h
    simp only [List.length_nil, Nat.cast_zero, add_zero, le_refl, true_and]
    intro hrem hc
    omega
  | succ m ih =>
    intro count check s r h
    simp only [innerLoopTrace] at h
    split_ifs at h with hc
    · cases hit : innerIteration P step i fuel (count + 1) s with
      | none => rw [hit] at h; exact absurd h (by simp)
      | some r1 =>
        obtain ⟨s1, check1⟩ := r1
        rw [hit] at h
        simp only at h
        cases htr : innerLoopTrace P step i fuel m (count + 1) check1 s1 with
        | none => rw [htr] at h; exact absurd h (by simp)
        | some r2 =>
          rw [htr] at h
          simp only [Option.map_some', Option.some.injEq] at h
          subst h
          obtain ⟨h1, h2, h3⟩ := ih (count + 1) check1 s1 r2 htr
          refine ⟨?_, ?_, fun hrem => h3 (by push_cast at hrem ⊢; omega)⟩
          · simp only [List.length_cons, Nat.cast_add, Nat.cast_one]
            omega
          · push_cast
            omega
    · simp only [Option.some.injEq] at h
      subst h
      simp only [List.length_nil, Nat.cast_zero, add_zero, true_and]
      refine ⟨by omega, fun _ hle => ?_⟩
      by_contra hcon
      exact hc ⟨hle, not_le.mp hcon⟩

theorem innerLoopTrace_first (P : Params K) (step i fuel : ℕ) (rem : ℕ) (count : ℤ)
    (check : K) (s : State K) (r : InnerRun K) (hcount : count ≤ P.innerIter)
    (hcheck : P.thresh < check)
    (h : innerLoopTrace P step i fuel (rem + 1) count check s = some r) :
    count + 1 ≤ r.count := by
  simp only [innerLoopTrace, if_pos (And.intro hcount hcheck)] at h
  cases hit : innerIteration P step i fuel (count + 1) s with
  | none => rw [hit] at h; exact absurd h (by simp)
  | some r1 =>
    obtain ⟨s1, check1⟩ := r1
    rw [hit] at h
    simp only at h
    cases htr : innerLoopTrace P step i fuel rem (count + 1) check1 s1 with
    | none => rw [htr] at h; exact absurd h (by simp)
    | some r2 =>
      rw [htr] at h
      simp only [Option.map_some', Option.some.injEq] at h
      subst h
      have := (innerLoopTrace_count P step i fuel rem (count + 1) check1 s1 r2 htr).1
      show count + 1 ≤ r2.count
      omega

theorem stepChain_append (gamma : K) (a b c : K) (l1 l2 : List K)
    (h1 : StepChain gamma a l1 b) (h2 : StepChain gamma b l2 c) :
    StepChain gamma a (l1 ++ l2) c := by
  induction h1 with
  | done a => exact h2
  | search a n log c1 _ ih => exact StepChain.search a n _ c (ih h2)

theorem stepChain_head (gamma : K) (a c t0 : K) (rest : List K)
    (h : StepChain gamma a (t0 :: rest) c) : t0 = a := by
  cases h with
  | search a n log c _ => rfl

theorem stepChain_mem (gamma : K) (a c : K) (l : List K) (h : StepChain gamma a l c) :
    (∃ n, c = a * gamma ^ n) ∧ ∀ t, t ∈ l → ∃ n, t = a * gamma ^ n := by
  induction h with
  | done a => exact ⟨⟨0, by simp⟩, fun t ht => absurd ht (List.not_mem_nil t)⟩
  | search a n log c _ ih =>
    obtain ⟨⟨m, hm⟩, hall⟩ := ih
    refine ⟨⟨n + m, by rw [hm, pow_add, mul_assoc]⟩, fun t ht => ?_⟩
    rcases List.mem_cons.mp ht with h0 | h1
    · exact ⟨0, by rw [h0]; simp⟩
    · obtain ⟨k, hk⟩ := hall t h1
      exact ⟨n + k, by rw [hk, pow_add, mul_assoc]⟩

/-- An inner iteration leaves `t` at the accepted trial step, the step it
started from times a power of `gamma`. -/
theorem innerIteration_step (P : Params K) (step i fuel : ℕ) (count : ℤ) (s s1 : State K)
    (check : K) (hg : P.gamma ≠ 0)
    (h : innerIteration P step i fuel count s = some (s1, check)) :
    ∃ n, s1.t = s.t * P.gamma ^ n ∧
      (∀ m, m < n →
        (trial P step i s (currentGrad P i s) (currentLoss P s) (s.t * P.gamma ^ m)).diff < 0) ∧
      0 ≤ (trial P step i s (currentGrad P i s) (currentLoss P s) (s.t * P.gamma ^ n)).diff := by
  unfold innerIteration at h
  cases hb : backtrack P step i s (currentGrad P i s) (currentLoss P s) fuel s.t with
  | none => rw [hb] at h; exact absurd h (by simp)
  | some r =>
    obtain ⟨t1, tr⟩ := r
    rw [hb] at h
    simp only [Option.some.injEq] at h
    obtain ⟨n, _, hrej, hacc, ht1, _⟩ := backtrack_some P step i s _ _ fuel _ _ _ hb
    refine ⟨n, ?_, hrej, hacc⟩
    have h1 : s1 = (commit P step i count tr.U { s with t := t1 / P.gamma }).1 := by
      rw [h]
    rw [h1, (commit_frame P step i count tr.U _).2.2.2, ht1]
    show s.t * P.gamma ^ n * P.gamma / P.gamma = s.t * P.gamma ^ n
    rw [mul_div_assoc, div_self hg, mul_one]

theorem innerLoopTrace_chain (P : Params K) (step i fuel : ℕ) (hg : P.gamma ≠ 0) (rem : ℕ) :
    ∀ (count : ℤ) (check : K) (s : State K) (r : InnerRun K),
      innerLoopTrace P step i fuel rem count check s = some r →
      StepChain P.gamma s.t r.starts r.st.t := by
  induction rem with
  | zero =>
    intro count check s r h
    simp only [innerLoopTrace, Option.some.injEq] at h
    subst h
    exact StepChain.done _
  | succ m ih =>
    intro count check s r h
    simp only [innerLoopTrace] at h
    split_ifs at h with hc
    · cases hit : innerIteration P step i fuel (count + 1) s with
      | none => rw [hit] at h; exact absurd h (by simp)
      | some r1 =>
        obtain ⟨s1, check1⟩ := r1
        rw [hit] at h
        simp only at h
        cases htr : innerLoopTrace P step i fuel m (count + 1) check1 s1 with
        | none => rw [htr] at h; exact absurd h (by simp)
        | some r2 =>
          rw [htr] at h
          simp only [Option.map_some', Option.some.injEq] at h
          subst h
          obtain ⟨n, hn, _⟩ := innerIteration_step P step i fuel _ s s1 check1 hg hit
          have := ih _ _ _ _ htr
          rw [hn] at this
          exact StepChain.search s.t n _ _ this
    · simp only [Option.some.injEq] at h
      subst h
      exact StepChain.done _

theorem solveGroupTrace_erase (P : Params K) (step : ℕ) (useGroup : ℕ → ℤ) (fuel i : ℕ)
    (a : State K × List K) :
    (solveGroupTrace P step useGroup fuel i a).map Prod.fst
      = solveGroup P step useGroup fuel i a.1 := by
  unfold solveGroupTrace solveGroup
  split_ifs with h1 h2
  · rfl
  · rw [Option.map_map, ← innerLoopTrace_erase]
    rfl
  · rfl

theorem solveGroupTrace_chain (P : Params K) (step : ℕ) (useGroup : ℕ → ℤ) (fuel i : ℕ)
    (hg : P.gamma ≠ 0) (a a2 : State K × List K)
    (h : solveGroupTrace P step useGroup fuel i a = some a2) :
    ∃ l, a2.2 = a.2 ++ l ∧ StepChain P.gamma a.1.t l a2.1.t := by
  unfold solveGroupTrace at h
  split_ifs at h with h1 h2
  · simp only [Option.some.injEq] at h
    subst h
    exact ⟨[], by simp, StepChain.done _⟩
  · cases htr : innerLoopTrace P step i fuel (P.innerIter + 1).toNat 0 100000
        (activeInit P step i a.1) with
    | none => rw [htr] at h; exact absurd h (by simp)
    | some r =>
      rw [htr] at h
      simp only [Option.map_some', Option.some.injEq] at h
      subst h
      exact ⟨r.starts, rfl,
        innerLoopTrace_chain P step i fuel hg _ _ _ (activeInit P step i a.1) _ htr⟩
  · simp only [Option.some.injEq] at h
    subst h
    exact ⟨[], by simp, StepChain.done _⟩

theorem groupsTrace_erase (P : Params K) (step : ℕ) (useGroup : ℕ → ℤ) (fuel : ℕ)
    (a : State K × List K) (n : ℕ) :
    (forLoopM n (solveGroupTrace P step useGroup fuel) a).map Prod.fst
      = forLoopM n (solveGroup P step useGroup fuel) a.1 := by
  induction n with
  | zero => rfl
  | succ m ih =>
    simp only [forLoopM]
    rw [← ih]
    cases hm : forLoopM m (solveGroupTrace P step useGroup fuel) a with
    | none => rfl
    | some a1 =>
      simp only [Option.some_bind, Option.map_some']
      exact solveGroupTrace_erase P step useGroup fuel m a1

theorem groupsTrace_chain (P : Params K) (step : ℕ) (useGroup : ℕ → ℤ) (fuel : ℕ)
    (hg : P.gamma ≠ 0) (a : State K × List K) (n : ℕ) :
    ∀ a2, forLoopM n (solveGroupTrace P step useGroup fuel) a = some a2 →
      ∃ l, a2.2 = a.2 ++ l ∧ StepChain P.gamma a.1.t l a2.1.t := by
  induction n with
  | zero =>
    intro a2 h
    simp only [forLoopM, Option.some.injEq] at h
    subst h
    exact ⟨[], by simp, StepChain.done _⟩
  | succ m ih =>
    intro a2 h
    simp only [forLoopM] at h
    cases hm : forLoopM m (solveGroupTrace P step useGroup fuel) a with
    | none => rw [hm] at h; exact absurd h (by simp)
    | some a1 =>
      rw [hm] at h
      simp only [Option.some_bind] at h
      obtain ⟨l1, hl1, hc1⟩ := ih a1 hm
      obtain ⟨l2, hl2, hc2⟩ := solveGroupTrace_chain P step useGroup fuel m hg a1 a2 h
      exact ⟨l1 ++ l2, by rw [hl2, hl1, List.append_assoc],
        stepChain_append _ _ _ _ _ _ hc1 hc2⟩

theorem rcppLinSolverTrace_erase (P : Params K) (step : ℕ) (useGroup : ℕ → ℤ) (fuel : ℕ)
    (s : State K) :
    (rcppLinSolverTrace P step useGroup fuel s).map Prod.fst
      = rcppLinSolver P step useGroup fuel s :=
  groupsTrace_erase P step useGroup fuel _ P.numGroup

/-- A visit of an active group with `innerIter = 0` makes one inner iteration,
whose line search starts at the current step size. -/
theorem solveGroupTrace_single (P : Params K) (step : ℕ) (useGroup : ℕ → ℤ) (fuel i : ℕ)
    (a : State K × List K) (s1 : State K) (check : K) (huse : useGroup i = 1)
    (hz : ¬ zeroTest P step i a.1) (hinner : P.innerIter = 0) (hthr : P.thresh < 100000)
    (hit : innerIteration P step i fuel (0 + 1) (activeInit P step i a.1) = some (s1, check)) :
    solveGroupTrace P step useGroup fuel i a = some (s1, a.2 ++ [a.1.t]) := by
  unfold solveGroupTrace
  rw [if_pos huse, if_neg hz, hinner]
  have hrem : ((0 : ℤ) + 1).toNat = 0 + 1 := rfl
  rw [hrem]
  simp only [innerLoopTrace]
  rw [if_pos ⟨by rw [hinner], hthr⟩, hit]
  rfl

theorem oneByOne_innerLoopTrace :
    ∃ r, innerLoopTrace (oneByOne ℝ Real.sqrt 0 1) 0 0 1
        ((oneByOne ℝ Real.sqrt 0 1).innerIter + 1).toNat 0 100000
        (activeInit (oneByOne ℝ Real.sqrt 0 1) 0 0 (oneByOneState ℝ 0 1 1)) = some r ∧
      r.count = 1 ∧ r.starts = [1] ∧ r.st.beta 0 = 2 := by
  obtain ⟨s1, c1, h1, hb, _, _⟩ := oneByOne_innerIteration
    (activeInit (oneByOne ℝ Real.sqrt 0 1) 0 0 (oneByOneState ℝ 0 1 1)) 1 1 (0 + 1)
    (by norm_num [activeInit, oneByOneState]) (by norm_num [activeInit, oneByOneState])
    (by decide) Nat.one_pos
  refine ⟨{ st := s1, count := 0 + 1, check := c1, starts := [1] }, ?_, rfl, rfl, ?_⟩
  · have hrem : ((oneByOne ℝ Real.sqrt 0 1).innerIter + 1).toNat = 0 + 1 := rfl
    rw [hrem]
    simp only [innerLoopTrace]
    rw [if_pos ⟨le_refl _, by norm_num [oneByOne]⟩, h1]
    rfl
  · show s1.beta 0 = 2
    rw [hb]
    norm_num [activeInit, oneByOneState]

theorem fourByTwo_linPred_zero (lam mom : ℝ) (inner outer : ℤ) (s : State ℝ)
    (hb : ∀ c, c < 2 → s.beta c = 0) (he : ∀ k, k < 4 → s.eta k = 0) :
    LinPred (fourByTwo ℝ Real.sqrt lam mom inner outer) 0 s := by
  intro k hk
  rw [he k hk]
  symm
  refine Finset.sum_eq_zero (fun c hc => ?_)
  have hc2 : c < 2 := Finset.mem_range.mp hc
  show _ * s.beta (0 * 2 + c) = 0
  rw [Nat.zero_mul, Nat.zero_add, hb c hc2, mul_zero]

/-- On the two-column instance with `lambda = 0`: a search of group 0 that starts
at `t = 8` from the coefficient 0 rejects 8 and accepts 4. -/
theorem fourByTwo_search_from_eight (mom : ℝ) (inner outer : ℤ) (fuel : ℕ) (count : ℤ)
    (s : State ℝ) (hLin : LinPred (fourByTwo ℝ Real.sqrt 0 mom inner outer) 0 s)
    (hb : s.beta 0 = 0) (ht : s.t = 8) (hfuel : 1 < fuel) :
    ∃ s1 check, innerIteration (fourByTwo ℝ Real.sqrt 0 mom inner outer) 0 0 fuel count s
        = some (s1, check) ∧ s1.t = 4 ∧
      LinPred (fourByTwo ℝ Real.sqrt 0 mom inner outer) 0 s1 := by
  have hw : vsum (fourByTwo ℝ Real.sqrt 0 mom inner outer).nrow
      (fourByTwo ℝ Real.sqrt 0 mom inner outer).w ≠ 0 := by
    rw [fourByTwo_sumw]; norm_num
  have hc := fourByTwo_curvature 0 mom inner outer 0 (by decide)
  have hgam : (fourByTwo ℝ Real.sqrt 0 mom inner outer).gamma = 1 / 2 := rfl
  have hcoef : groupCoef (fourByTwo ℝ Real.sqrt 0 mom inner outer) 0 0 s 0 = 0 := hb
  have hgrad : currentGrad (fourByTwo ℝ Real.sqrt 0 mom inner outer) 0 s 0 = -(5 / 4) := by
    rw [currentGrad_eq _ 0 0 s 4 rfl hw hc 0 Nat.one_pos, hcoef,
      (fourByTwo_nullGrad 0 mom inner outer s hLin).1]
    norm_num
  have hrej : ∀ m, m < 1 →
      (trial (fourByTwo ℝ Real.sqrt 0 mom inner outer) 0 0 s
        (currentGrad (fourByTwo ℝ Real.sqrt 0 mom inner outer) 0 s)
        (currentLoss (fourByTwo ℝ Real.sqrt 0 mom inner outer) s)
        (s.t * (fourByTwo ℝ Real.sqrt 0 mom inner outer).gamma ^ m)).diff < 0 := by
    intro m hm
    have hm0 : m = 0 := Nat.lt_one_iff.mp hm
    subst hm0
    rw [pow_zero, mul_one, ht, trial_diff_eq _ 0 0 s 8 4 rfl rfl hw hc (by norm_num)]
    have hU : (trial (fourByTwo ℝ Real.sqrt 0 mom inner outer) 0 0 s
        (currentGrad (fourByTwo ℝ Real.sqrt 0 mom inner outer) 0 s)
        (currentLoss (fourByTwo ℝ Real.sqrt 0 mom inner outer) s) 8).U 0 = 10 := by
      show softThreshold _ 0 0 _ 8 0 = 10
      rw [softThreshold_lambda_zero _ 0 0 _ 8 isSqrt_real rfl 0 Nat.one_pos]
      show s.beta 0 - 8 * currentGrad _ 0 s 0 = 10
      rw [hb, hgrad]
      norm_num
    show 1 / 2 * (1 / 8 - 1 / 4) * ∑ j ∈ range 1, _ < 0
    rw [Finset.sum_range_one, hcoef, hU]
    norm_num
  have hacc : 0 ≤ (trial (fourByTwo ℝ Real.sqrt 0 mom inner outer) 0 0 s
        (currentGrad (fourByTwo ℝ Real.sqrt 0 mom inner outer) 0 s)
        (currentLoss (fourByTwo ℝ Real.sqrt 0 mom inner outer) s)
        (s.t * (fourByTwo ℝ Real.sqrt 0 mom inner outer).gamma ^ 1)).diff := by
    have h4 : s.t * (fourByTwo ℝ Real.sqrt 0 mom inner outer).gamma ^ 1 = 4 := by
      rw [ht, hgam]; norm_num
    rw [h4, trial_diff_curvature _ 0 0 s 4 rfl rfl hw hc (by norm_num)]
  have hbt := backtrack_first_accept _ 0 0 s _ _ 1 s.t fuel hrej hacc hfuel
  refine ⟨_, _, by unfold innerIteration; rw [hbt], ?_, ?_⟩
  · rw [(commit_frame _ 0 0 count _ _).2.2.2]
    show s.t * (fourByTwo ℝ Real.sqrt 0 mom inner outer).gamma ^ 1
      * (fourByTwo ℝ Real.sqrt 0 mom inner outer).gamma
      / (fourByTwo ℝ Real.sqrt 0 mom inner outer).gamma = 4
    rw [ht, hgam]
    norm_num
  · exact commit_linPred _ 0 0 count _ _ (show 0 + 1 ≤ 2 by decide) hLin

/-- The solver on the two-column instance with `lambda = 0`, `momentum = 8`,
`innerIter = 0` from `beta = 0`: the search of group 0 starts at 8 and that of
group 1 at 4. -/
theorem fourByTwo_solver_trace :
    ∃ s2, rcppLinSolverTrace (fourByTwo ℝ Real.sqrt 0 8 0 0) 0 (fun _ => 1) 2 (zeroState ℝ)
      = some (s2, [8, 4]) := by
  have hLin0 : LinPred (fourByTwo ℝ Real.sqrt 0 8 0 0) 0
      (activeInit (fourByTwo ℝ Real.sqrt 0 8 0 0) 0 0
        { zeroState ℝ with theta := fun _ => 0, t := 8 }) :=
    fourByTwo_linPred_zero 0 8 0 0 _ (fun _ _ => rfl) (fun _ _ => rfl)
  obtain ⟨s1, c1, h1, ht1, hLin1⟩ := fourByTwo_search_from_eight 8 0 0 2 (0 + 1) _ hLin0
    rfl rfl (by decide)
  have hg0 : solveGroupTrace (fourByTwo ℝ Real.sqrt 0 8 0 0) 0 (fun _ => 1) 2 0
      ({ zeroState ℝ with theta := fun _ => 0, t := 8 }, []) = some (s1, [8]) :=
    solveGroupTrace_single (fourByTwo ℝ Real.sqrt 0 8 0 0) 0 (fun _ => 1) 2 0
      ({ zeroState ℝ with theta := fun _ => 0, t := 8 }, []) s1 c1 rfl
      (fourByTwo_not_zeroTest 8 0 0 _ 0 (by decide)
        (fourByTwo_linPred_zero 0 8 0 0 _ (fun _ _ => rfl) (fun _ _ => rfl)))
      rfl (by norm_num [fourByTwo]) h1
  have hw : vsum (fourByTwo ℝ Real.sqrt 0 8 0 0).nrow (fourByTwo ℝ Real.sqrt 0 8 0 0).w ≠ 0 := by
    rw [fourByTwo_sumw]; norm_num
  have hLin1a : LinPred (fourByTwo ℝ Real.sqrt 0 8 0 0) 0
      (activeInit (fourByTwo ℝ Real.sqrt 0 8 0 0) 0 1 s1) := hLin1
  have ht1a : (activeInit (fourByTwo ℝ Real.sqrt 0 8 0 0) 0 1 s1).t = 4 := ht1
  obtain ⟨s2, c2, h2, _⟩ := innerIteration_curvature (fourByTwo ℝ Real.sqrt 0 8 0 0) 0 1 2
    (0 + 1) (activeInit (fourByTwo ℝ Real.sqrt 0 8 0 0) 0 1 s1) rfl rfl hw
    (by rw [ht1a]; exact fourByTwo_curvature 0 8 0 0 1 (by decide))
    (by rw [ht1a]; norm_num) (by norm_num [fourByTwo]) (by decide) (by decide)
  have hg1 : solveGroupTrace (fourByTwo ℝ Real.sqrt 0 8 0 0) 0 (fun _ => 1) 2 1
      (s1, [8]) = some (s2, [8, 4]) := by
    rw [solveGroupTrace_single (fourByTwo ℝ Real.sqrt 0 8 0 0) 0 (fun _ => 1) 2 1
      (s1, [8]) s2 c2 rfl
      (fourByTwo_not_zeroTest 8 0 0 s1 1 (by decide) hLin1) rfl (by norm_num [fourByTwo]) h2]
    show some (s2, [8] ++ [s1.t]) = _
    rw [ht1]
    rfl
  refine ⟨s2, ?_⟩
  have hrun : forLoopM 2 (solveGroupTrace (fourByTwo ℝ Real.sqrt 0 8 0 0) 0 (fun _ => 1) 2)
      ({ zeroState ℝ with theta := fun _ => 0, t := 8 }, []) = some (s2, [8, 4]) := by
    simp only [forLoopM, Option.some_bind, hg0, hg1]
  exact hrun

theorem scanLoopTrace_erase (P : Params K) (step fuel : ℕ) (scans : ℕ) :
    ∀ ns : NestState K, (scanLoopTrace P step fuel scans ns).map Prod.fst
      = scanLoop P step fuel scans ns := by
  induction scans with
  | zero =>
    intro ns
    simp only [scanLoopTrace, scanLoop]
    split_ifs <;> rfl
  | succ m ih =>
    intro ns
    simp only [scanLoopTrace, scanLoop]
    split_ifs with hgc
    · cases hs : rcppLinSolver P step (fun _ => 1) fuel { ns.st with groupChange := 0 } with
      | none => rfl
      | some s1 =>
        simp only
        cases hr : refineLoop P step fuel (P.outerIter - ns.outermostCounter).toNat
            { ns with st := s1 } with
        | none => rfl
        | some ns1 =>
          simp only
          rw [← ih ns1, Option.map_map]
          rfl
    · rfl

/-- The refinement loop: the counter grows by one per pass and never past
`outerIter`; when the loop had room to finish, its test is false on exit. -/
theorem refineLoop_counter (P : Params K) (step fuel : ℕ) (rem : ℕ) :
    ∀ (ns ns1 : NestState K), refineLoop P step fuel rem ns = some ns1 →
      ns.outermostCounter ≤ ns1.outermostCounter ∧
      ns1.outermostCounter ≤ max ns.outermostCounter P.outerIter ∧
      (P.outerIter ≤ ns.outermostCounter + rem →
        ¬ (ns1.outermostCounter < P.outerIter ∧ ns1.outermostCheck > P.outerThresh)) := by
  induction rem with
  | zero =>
    intro ns ns1 h
    simp only [refineLoop, Option.some.injEq] at h
    subst h
    refine ⟨le_refl _, le_max_left _ _, fun hrem hc => ?_⟩
    simp only [Nat.cast_zero, add_zero] at hrem
    omega
  | succ m ih =>
    intro ns ns1 h
    simp only [refineLoop] at h
    split_ifs at h with hc
    · cases hs : rcppLinSolver P step ns.st.isActive fuel ns.st with
      | none => rw [hs] at h; exact absurd h (by simp)
      | some s1 =>
        rw [hs] at h
        simp only at h
        obtain ⟨h1, h2, h3⟩ := ih _ _ h
        simp only at h1 h2 h3
        refine ⟨by omega, ?_, fun hrem => h3 (by push_cast at hrem ⊢; omega)⟩
        have := hc.1
        rcases le_max_iff.mp h2 with h4 | h4
        · exact le_max_of_le_right (by omega)
        · exact le_max_of_le_right h4
    · simp only [Option.some.injEq] at h
      subst h
      exact ⟨le_refl _, le_max_left _ _, fun _ => hc⟩

theorem refineLoop_idle (P : Params K) (step fuel rem : ℕ) (ns : NestState K)
    (h : ¬ (ns.outermostCounter < P.outerIter ∧ ns.outermostCheck > P.outerThresh)) :
    refineLoop P step fuel rem ns = some ns := by
  cases rem with
  | zero => rfl
  | succ m => simp only [refineLoop, if_neg h]

theorem refineLoop_first_pass (P : Params K) (step fuel rem : ℕ) (ns ns1 : NestState K)
    (hc : ns.outermostCounter < P.outerIter ∧ ns.outermostCheck > P.outerThresh)
    (hrem : 0 < rem) (h : refineLoop P step fuel rem ns = some ns1) :
    ns.outermostCounter + 1 ≤ ns1.outermostCounter := by
  obtain ⟨m, hm⟩ := Nat.exists_eq_succ_of_ne_zero (Nat.pos_iff_ne_zero.mp hrem)
  rw [hm] at h
  simp only [refineLoop, if_pos hc] at h
  cases hs : rcppLinSolver P step ns.st.isActive fuel ns.st with
  | none => rw [hs] at h; exact absurd h (by simp)
  | some s1 =>
    rw [hs] at h
    simp only at h
    exact (refineLoop_counter P step fuel m _ _ h).1

/-- Once the test of the refinement loop is false, every later full scan of the
path step is followed by no pass. -/
theorem scanLoopTrace_idle (P : Params K) (step fuel : ℕ) (scans : ℕ) :
    ∀ (ns r : NestState K) (log : List ℤ),
      ¬ (ns.outermostCounter < P.outerIter ∧ ns.outermostCheck > P.outerThresh) →
      scanLoopTrace P step fuel scans ns = some (r, log) →
      (∀ x, x ∈ log → x = 0) ∧ r.outermostCounter = ns.outermostCounter ∧
        r.outermostCheck = ns.outermostCheck := by
  induction scans with
  | zero =>
    intro ns r log _ h
    simp only [scanLoopTrace] at h
    split_ifs at h
    simp only [Option.some.injEq, Prod.mk.injEq] at h
    obtain ⟨h1, h2⟩ := h
    subst h1 h2
    exact ⟨fun x hx => absurd hx (List.not_mem_nil x), rfl, rfl⟩
  | succ m ih =>
    intro ns r log hex h
    simp only [scanLoopTrace] at h
    split_ifs at h with hgc
    · cases hs : rcppLinSolver P step (fun _ => 1) fuel { ns.st with groupChange := 0 } with
      | none => rw [hs] at h; exact absurd h (by simp)
      | some s1 =>
        rw [hs] at h
        simp only at h
        rw [refineLoop_idle P step fuel _ { ns with st := s1 } hex] at h
        simp only at h
        cases htr : scanLoopTrace P step fuel m { ns with st := s1 } with
        | none => rw [htr] at h; exact absurd h (by simp)
        | some r2 =>
          obtain ⟨r3, l3⟩ := r2
          rw [htr] at h
          simp only [Option.map_some', Option.some.injEq, Prod.mk.injEq] at h
          obtain ⟨h1, h2⟩ := h
          subst h1 h2
          obtain ⟨ha, hb, hc⟩ := ih { ns with st := s1 } r3 l3 hex htr
          refine ⟨fun x hx => ?_, hb, hc⟩
          rcases List.mem_cons.mp hx with h0 | h1
          · rw [h0]; exact sub_self _
          · exact ha x h1
    · simp only [Option.some.injEq, Prod.mk.injEq] at h
      obtain ⟨h1, h2⟩ := h
      subst h1 h2
      exact ⟨fun x hx => absurd hx (List.not_mem_nil x), rfl, rfl⟩

/-- A scanned group that fails the zero test is marked active and raises
`groupChange` when it was not active. -/
theorem solveGroup_active_flags (P : Params K) (step : ℕ) (useGroup : ℕ → ℤ) (fuel i : ℕ)
    (s s2 : State K) (huse : useGroup i = 1) (hz : ¬ zeroTest P step i s)
    (h : solveGroup P step useGroup fuel i s = some s2) :
    s2.isActive = Function.update s.isActive i 1 ∧
      s2.groupChange = if s.isActive i = 0 then 1 else s.groupChange := by
  unfold solveGroup at h
  rw [if_pos huse, if_neg hz] at h
  have := innerLoop_flags P step i fuel _ _ _ _ _ h
  exact ⟨this.1, this.2.1⟩

theorem oneColumn_lineSearchExits (lam : ℕ → ℝ) (mom : ℝ) (inner outer : ℤ) (nlam step : ℕ) :
    LineSearchExits (oneColumn ℝ Real.sqrt lam mom inner outer nlam) step :=
  reference_lineSearchExits _ step rfl rfl (fun _ _ => zero_le_one)
    (by simp [oneColumn, oneByOne, vsum, forLoop]) (by norm_num [oneColumn, oneByOne])
    (by norm_num [oneColumn, oneByOne])

/-- The path step of the one-column instance with `lambda = 0`, `outerIter = 1`
from `beta = 0`: two full scans, one refinement pass after the first and none
after the second. -/
theorem oneColumn_scan_trace :
    ∃ fuel r, scanLoopTrace (oneColumn ℝ Real.sqrt (fun _ => 0) 1 0 1 1) 0 fuel 2
        (stepInit (oneColumn ℝ Real.sqrt (fun _ => 0) 1 0 1 1) 0 (zeroState ℝ))
      = some (r, [1, 0]) := by
  have hLS := oneColumn_lineSearchExits (fun _ => 0) 1 0 1 1 0
  have hg : 0 < (oneColumn ℝ Real.sqrt (fun _ => 0) 1 0 1 1).gamma := by
    norm_num [oneColumn, oneByOne]
  have hm : 0 < (oneColumn ℝ Real.sqrt (fun _ => 0) 1 0 1 1).momentum := by
    norm_num [oneColumn, oneByOne]
  -- first full scan
  obtain ⟨f1, s1, h1⟩ := rcppLinSolver_terminates (oneColumn ℝ Real.sqrt (fun _ => 0) 1 0 1 1) 0
    (fun _ => 1)
    { (stepInit (oneColumn ℝ Real.sqrt (fun _ => 0) 1 0 1 1) 0 (zeroState ℝ)).st with
      groupChange := 0 } hLS hg hm
  have hz : ¬ zeroTest (oneColumn ℝ Real.sqrt (fun _ => 0) 1 0 1 1) 0 0
      { (stepInit (oneColumn ℝ Real.sqrt (fun _ => 0) 1 0 1 1) 0 (zeroState ℝ)).st with
        groupChange := 0, theta := fun _ => 0, t := 1 } := by
    simp only [zeroTest, zeroCheck, nullGrad, groupGrad, rcppLinGradCalc, etaNull, vsum,
      forLoop, oneColumn, oneByOne, stepInit, zeroState, identityLinkCpp]
    norm_num
  have hsg : solveGroup (oneColumn ℝ Real.sqrt (fun _ => 0) 1 0 1 1) 0 (fun _ => 1) f1 0
      { (stepInit (oneColumn ℝ Real.sqrt (fun _ => 0) 1 0 1 1) 0 (zeroState ℝ)).st with
        groupChange := 0, theta := fun _ => 0, t := 1 } = some s1 := h1
  obtain ⟨hact1, hgc1⟩ := solveGroup_active_flags _ 0 _ f1 0 _ s1 rfl hz hsg
  have hgc1b : s1.groupChange = 1 := by rw [hgc1]; rfl
  have hact1b : s1.isActive 0 = 1 := by rw [hact1]; simp
  -- the refinement pass
  obtain ⟨f2, s1b, h2⟩ := rcppLinSolver_terminates (oneColumn ℝ Real.sqrt (fun _ => 0) 1 0 1 1) 0
    s1.isActive s1 hLS hg hm
  obtain ⟨hact2, hgc2⟩ := rcppLinSolver_refine_flags _ 0 f2 s1 s1b h2
  -- second full scan
  obtain ⟨f3, s2, h3⟩ := rcppLinSolver_terminates (oneColumn ℝ Real.sqrt (fun _ => 0) 1 0 1 1) 0
    (fun _ => 1) { s1b with groupChange := 0 } hLS hg hm
  have hgc3 : s2.groupChange ≠ 1 := by
    obtain ⟨_, hor⟩ := scan_groups_flags (oneColumn ℝ Real.sqrt (fun _ => 0) 1 0 1 1) 0 f3
      (fun _ => 1) { s1b with groupChange := 0, theta := fun _ => 0, t := 1 } 1 s2 h3
    rcases hor with h0 | ⟨i, hi, hi0, _⟩
    · rw [h0]
      show (0 : ℤ) ≠ 1
      decide
    · have hi0b : i = 0 := Nat.lt_one_iff.mp hi
      subst hi0b
      have : s1b.isActive 0 = 0 := hi0
      rw [hact2, hact1b] at this
      exact absurd this (by decide)
  obtain ⟨chk, hchk⟩ : ∃ chk,
      chk = rowChange (oneColumn ℝ Real.sqrt (fun _ => 0) 1 0 1 1) 0 s1.beta s1b.beta := ⟨_, rfl⟩
  refine ⟨max f1 (max f2 f3),
    { st := s2, outermostCounter := 0 + 1, outermostCheck := chk }, ?_⟩
  have h1m := rcppLinSolver_mono _ 0 _ f1 (max f1 (max f2 f3)) (le_max_left _ _) _ _ h1
  have h2m := rcppLinSolver_mono _ 0 _ f2 (max f1 (max f2 f3))
    (le_trans (le_max_left f2 f3) (le_max_right _ _)) _ _ h2
  have h3m := rcppLinSolver_mono _ 0 _ f3 (max f1 (max f2 f3))
    (le_trans (le_max_right f2 f3) (le_max_right _ _)) _ _ h3
  generalize max f1 (max f2 f3) = F at h1m h2m h3m ⊢
  have href1 : refineLoop (oneColumn ℝ Real.sqrt (fun _ => 0) 1 0 1 1) 0 F 1
      { stepInit (oneColumn ℝ Real.sqrt (fun _ => 0) 1 0 1 1) 0 (zeroState ℝ) with st := s1 }
      = some { st := s1b, outermostCounter := 0 + 1, outermostCheck := chk } := by
    subst hchk
    simp only [refineLoop]
    rw [if_pos ⟨by decide, by norm_num [stepInit, oneColumn, oneByOne]⟩]
    have : rcppLinSolver (oneColumn ℝ Real.sqrt (fun _ => 0) 1 0 1 1) 0 s1.isActive F s1 = some s1b := h2m
    rw [this]
    rfl
  have hstep2 : scanLoopTrace (oneColumn ℝ Real.sqrt (fun _ => 0) 1 0 1 1) 0 F 1
      { st := s1b, outermostCounter := 0 + 1, outermostCheck := chk }
      = some ({ st := s2, outermostCounter := 0 + 1, outermostCheck := chk }, [0]) := by
    simp only [scanLoopTrace]
    rw [if_pos (by rw [hgc2, hgc1b])]
    have : rcppLinSolver (oneColumn ℝ Real.sqrt (fun _ => 0) 1 0 1 1) 0 (fun _ => 1) F
        { s1b with groupChange := 0 } = some s2 := h3m
    rw [this]
    simp only
    have hr0 : refineLoop (oneColumn ℝ Real.sqrt (fun _ => 0) 1 0 1 1) 0 F
        ((oneColumn ℝ Real.sqrt (fun _ => 0) 1 0 1 1).outerIter - (0 + 1)).toNat
        { st := s2, outermostCounter := 0 + 1, outermostCheck := chk }
        = some { st := s2, outermostCounter := 0 + 1, outermostCheck := chk } := rfl
    rw [hr0]
    simp only [if_neg hgc3, Option.map_some']
    rfl
  have hstart : scanLoopTrace (oneColumn ℝ Real.sqrt (fun _ => 0) 1 0 1 1) 0 F 2
      (stepInit (oneColumn ℝ Real.sqrt (fun _ => 0) 1 0 1 1) 0 (zeroState ℝ))
      = (scanLoopTrace (oneColumn ℝ Real.sqrt (fun _ => 0) 1 0 1 1) 0 F 1
          { st := s1b, outermostCounter := 0 + 1, outermostCheck := chk }).map
          (fun r => (r.1, ((0 : ℤ) + 1 - 0) :: r.2)) := by
    rw [scanLoopTrace]
    rw [if_pos (show (stepInit (oneColumn ℝ Real.sqrt (fun _ => 0) 1 0 1 1) 0
      (zeroState ℝ)).st.groupChange = 1 from rfl)]
    have : rcppLinSolver (oneColumn ℝ Real.sqrt (fun _ => 0) 1 0 1 1) 0 (fun _ => 1) F
        { (stepInit (oneColumn ℝ Real.sqrt (fun _ => 0) 1 0 1 1) 0
            (zeroState ℝ)).st with groupChange := 0 } = some s1 := h1m
    rw [this]
    simp only
    have hr1 : refineLoop (oneColumn ℝ Real.sqrt (fun _ => 0) 1 0 1 1) 0 F
        ((oneColumn ℝ Real.sqrt (fun _ => 0) 1 0 1 1).outerIter
          - (stepInit (oneColumn ℝ Real.sqrt (fun _ => 0) 1 0 1 1) 0
              (zeroState ℝ)).outermostCounter).toNat
        { stepInit (oneColumn ℝ Real.sqrt (fun _ => 0) 1 0 1 1) 0 (zeroState ℝ) with st := s1 }
        = some { st := s1b, outermostCounter := 0 + 1, outermostCheck := chk } := href1
    rw [hr1]
    rfl
  rw [hstart, hstep2]
  rfl

/-- A path step in whose first full scan every group passes the zero test
returns after that scan with the state the scan left. -/
theorem pathStep_zeroScan (P : Params K) (step fuel : ℕ) (s : State K)
    (hz : ∀ i, i < P.numGroup →
      zeroTest P step i (zeroScan P step i (scanStart P step s))) :
    pathStep P fuel 1 step s = some (zeroScan P step P.numGroup (scanStart P step s)) := by
  have hfr := zeroScan_frame P step P.numGroup (scanStart P step s)
  have hgc : (zeroScan P step P.numGroup (scanStart P step s)).groupChange = 0 := by
    rw [hfr.2.1]; rfl
  have hact : ∀ i, i < P.numGroup →
      (zeroScan P step P.numGroup (scanStart P step s)).isActive i ≠ 1 := by
    intro i hi
    rw [hfr.1]
    simp [scanStart, stepInit, hi]
  obtain ⟨c, chk, hc⟩ := refineLoop_inactive P step fuel _ hact (by rw [hfr.2.2.1]; rfl)
    (by rw [hfr.2.2.2]; rfl) (P.outerIter - 0).toNat 0 100000
  have hscan : rcppLinSolver P step (fun _ => 1) fuel
      { (stepInit P step s).st with groupChange := 0 }
      = some (zeroScan P step P.numGroup (scanStart P step s)) :=
    forLoopM_zeroScan P step fuel (scanStart P step s) P.numGroup hz
  have hinit : (stepInit P step s).st.groupChange = 1 := rfl
  unfold pathStep
  simp only [scanLoop, hinit, if_true, hscan]
  have hc2 : refineLoop P step fuel (P.outerIter - (stepInit P step s).outermostCounter).toNat
      { stepInit P step s with st := zeroScan P step P.numGroup (scanStart P step s) }
      = some { st := zeroScan P step P.numGroup (scanStart P step s)
               outermostCounter := c, outermostCheck := chk } := hc
  rw [hc2]
  simp [hgc]

/-- The prologue of a path step `step > 0` carries the invariants of row
`step - 1` over to row `step`. -/
theorem stepInit_invariants (P : Params K) (step : ℕ) (s : State K) (hstep : 0 < step)
    (hin : GroupsInRange P) (hLin : LinPred P (step - 1) s) (hZ : ZeroFlags P (step - 1) s) :
    LinPred P step (stepInit P step s).st ∧ ZeroFlags P step (stepInit P step s).st := by
  have hrow : ∀ c, c < P.ncol →
      (stepInit P step s).st.beta (step * P.ncol + c) = s.beta ((step - 1) * P.ncol + c) := by
    intro c hc
    rw [stepInit_beta P step s hstep, if_pos ⟨Nat.le_add_right _ _, by omega⟩]
    congr 1
    obtain ⟨p, hp⟩ := Nat.exists_eq_succ_of_ne_zero (Nat.pos_iff_ne_zero.mp hstep)
    rw [hp, Nat.succ_sub_one, Nat.succ_mul]
    omega
  refine ⟨fun k hk => ?_, fun i hi hflag j hj => ?_⟩
  · have : (stepInit P step s).st.eta k = s.eta k := rfl
    rw [this, hLin k hk]
    exact Finset.sum_congr rfl (fun c hc => by rw [hrow c (Finset.mem_range.mp hc)])
  · have hlt : j + P.rangeGroupInd i < P.ncol := by
      have := hin i hi
      omega
    have h1 := hrow (j + P.rangeGroupInd i) hlt
    rw [Nat.add_assoc, h1]
    have h2 := hZ i hi hflag j hj
    rw [Nat.add_assoc] at h2
    exact h2

/-- With weight 0 the commit leaves `eta` at the `etaNew` of the trial whose
`U` it commits, when that trial's step is not 0. -/
theorem commit_eta_etaNew (P : Params K) (step i : ℕ) (count : ℤ) (s : State K)
    (grad : ℕ → K) (Lold t tkeep : K) (hcount : 0 ≤ count) (ht : t ≠ 0) (k : ℕ)
    (hk : k < P.nrow) :
    (commit P step i count (trial P step i s grad Lold t).U { s with t := tkeep }).1.eta k
      = (trial P step i s grad Lold t).etaNew k := by
  have hspec := commitLoop_spec P step i count (trial P step i s grad Lold t).U
    { s with t := tkeep } (P.groupLen i)
  have hmw : momentumWeight count P.reset = 0 := momentumWeight_eq_zero count P.reset hcount
  unfold commit
  rw [hspec.2.2.2 k hk, trial_etaNew_eq P step i s grad Lold t k hk]
  show s.eta k + _ = s.eta k + _
  congr 1
  unfold groupPredictor
  rw [Finset.mul_sum, ← Finset.sum_neg_distrib]
  refine Finset.sum_congr rfl (fun j hj => ?_)
  rw [hspec.1 j (Finset.mem_range.mp hj), hmw]
  have hG : (trial P step i s grad Lold t).G j
      = 1 / t * (s.beta (step * P.ncol + j + P.rangeGroupInd i)
          - (trial P step i s grad Lold t).U j) := rfl
  rw [hG]
  show P.X (k + P.nrow * (j + P.rangeGroupInd i)) * (_ - s.beta _) = _
  rw [Nat.add_comm j (P.rangeGroupInd i)]
  field_simp
  ring

theorem norm2_neg_smul {f : K → K} (hs : IsSqrt f) (n : ℕ) (t : K) (ht : 0 ≤ t) (g : ℕ → K) :
    norm2 f n (fun j => -(t * g j)) = t * norm2 f n g := by
  rw [← norm2_smul hs n t ht g]
  unfold norm2
  congr 1
  exact Finset.sum_congr rfl (fun j _ => by ring)

/-- The soft-threshold of `-t * g` vanishes on the group exactly when
`||g|| <= adaweight * lambda * sqrt(groupLen)`. -/
theorem softThreshold_zero_iff (P : Params K) (step i : ℕ) (g : ℕ → K) (t : K)
    (hs : IsSqrt P.sqrt) (ht : 0 < t) (ha : 0 ≤ P.adaweights i) (hl : 0 ≤ P.lambda step) :
    (∀ j, j < P.groupLen i → softThreshold P step i (fun j => -(t * g j)) t j = 0) ↔
      norm2 P.sqrt (P.groupLen i) g
        ≤ P.adaweights i * P.lambda step * P.sqrt (P.groupLen i : K) := by
  have hc : 0 ≤ P.adaweights i * P.lambda step * P.sqrt (P.groupLen i : K) :=
    mul_nonneg (mul_nonneg ha hl) (hs _ (Nat.cast_nonneg _)).1
  have hn := norm2_nonneg hs (P.groupLen i) g
  have hnz : P.sqrt (vsum (P.groupLen i) fun j => (-(t * g j)) ^ 2)
      = t * norm2 P.sqrt (P.groupLen i) g := by
    rw [vsum_eq_sum]
    exact norm2_neg_smul hs (P.groupLen i) t ht.le g
  rcases eq_or_lt_of_le hn with h0 | hpos
  · have hg := norm2_eq_zero hs (P.groupLen i) g h0.symm
    rw [← h0]
    refine ⟨fun _ => hc, fun _ j hj => ?_⟩
    simp only [softThreshold, hg j hj, mul_zero, neg_zero]
  · have hne : t * norm2 P.sqrt (P.groupLen i) g ≠ 0 := ne_of_gt (mul_pos ht hpos)
    have hshrink : shrink P step i (fun j => -(t * g j)) t
        = if 1 - P.adaweights i * P.lambda step * P.sqrt (P.groupLen i : K)
              / norm2 P.sqrt (P.groupLen i) g < 0 then 0
          else 1 - P.adaweights i * P.lambda step * P.sqrt (P.groupLen i : K)
              / norm2 P.sqrt (P.groupLen i) g := by
      unfold shrink
      simp only [hnz, if_pos hne]
      have : P.adaweights i * P.lambda step * P.sqrt (P.groupLen i : K) * t
            / (t * norm2 P.sqrt (P.groupLen i) g)
          = P.adaweights i * P.lambda step * P.sqrt (P.groupLen i : K)
            / norm2 P.sqrt (P.groupLen i) g := by
        field_simp
        ring
      rw [this]
    constructor
    · intro hU
      by_contra hcon
      have hlt : P.adaweights i * P.lambda step * P.sqrt (P.groupLen i : K)
          < norm2 P.sqrt (P.groupLen i) g := not_le.mp hcon
      have hu : 0 < 1 - P.adaweights i * P.lambda step * P.sqrt (P.groupLen i : K)
            / norm2 P.sqrt (P.groupLen i) g := by
        rw [sub_pos, div_lt_one hpos]
        exact hlt
      have hz : ∀ j, j < P.groupLen i → g j = 0 := by
        intro j hj
        have := hU j hj
        simp only [softThreshold, hshrink, if_neg (not_lt.mpr hu.le)] at this
        rcases mul_eq_zero.mp this with h1 | h1
        · exact absurd h1 (ne_of_gt hu)
        · have : t * g j = 0 := neg_eq_zero.mp h1
          rcases mul_eq_zero.mp this with h2 | h2
          · exact absurd h2 (ne_of_gt ht)
          · exact h2
      have : norm2 P.sqrt (P.groupLen i) g = 0 := by
        unfold norm2
        rw [Finset.sum_eq_zero (fun j hj => by rw [hz j (Finset.mem_range.mp hj)]; ring)]
        exact isSqrt_zero hs
      rw [this] at hpos
      exact lt_irrefl _ hpos
    · intro hle j _
      have hu : 1 - P.adaweights i * P.lambda step * P.sqrt (P.groupLen i : K)
            / norm2 P.sqrt (P.groupLen i) g ≤ 0 := by
        rw [sub_nonpos, one_le_div hpos]
        exact hle
      simp only [softThreshold, hshrink]
      split_ifs with h1
      · exact zero_mul _
      · have : 1 - P.adaweights i * P.lambda step * P.sqrt (P.groupLen i : K)
            / norm2 P.sqrt (P.groupLen i) g = 0 := le_antisymm hu (not_lt.mp h1)
        rw [this, zero_mul]

/-- For a group whose coefficients are all zero the gradient at the current
`eta` is the screening gradient. -/
theorem currentGrad_eq_nullGrad (P : Params K) (step i : ℕ) (s : State K)
    (hloc : LinkLocal P) (hzero : ∀ j, j < P.groupLen i → groupCoef P step i s j = 0)
    (j : ℕ) : currentGrad P i s j = nullGrad P step i s j := by
  unfold currentGrad nullGrad
  refine groupGrad_congr P i _ _ (fun k hk => ?_) j
  have hlk : P.link s.eta k = P.link (etaNull P step i s) k := by
    refine hloc _ _ (fun k2 hk2 => ?_) k hk
    rw [etaNull_eq P step i s k2 hk2]
    unfold groupPredictor
    rw [Finset.sum_eq_zero (fun j hj => by rw [hzero j (Finset.mem_range.mp hj), mul_zero]),
      sub_zero]
  show P.w k * (P.link s.eta k - P.y k) / _
    = P.w k * (P.link (etaNull P step i s) k - P.y k) / _
  rw [hlk]

theorem solveGroup_betaIsZero_outside (P : Params K) (step : ℕ) (useGroup : ℕ → ℤ)
    (fuel i : ℕ) (s s2 : State K) (h : solveGroup P step useGroup fuel i s = some s2)
    (i2 : ℕ) (hi2 : useGroup i = 1 → i2 ≠ i) : s2.betaIsZero i2 = s.betaIsZero i2 := by
  unfold solveGroup at h
  split_ifs at h with huse hz
  · simp only [Option.some.injEq] at h
    rw [← h]
    simp only [zeroBranch]
    exact Function.update_noteq (hi2 huse) _ _
  · rw [(innerLoop_flags P step i fuel _ _ _ _ _ h).2.2]
    simp only [activeInit]
    exact Function.update_noteq (hi2 huse) _ _
  · simp only [Option.some.injEq] at h
    rw [← h]

theorem groups_betaIsZero_outside (P : Params K) (step : ℕ) (useGroup : ℕ → ℤ) (fuel : ℕ)
    (s : State K) (n : ℕ) :
    ∀ s2, forLoopM n (solveGroup P step useGroup fuel) s = some s2 →
      ∀ i2, useGroup i2 ≠ 1 → s2.betaIsZero i2 = s.betaIsZero i2 := by
  induction n with
  | zero =>
    intro s2 h i2 _
    simp only [forLoopM, Option.some.injEq] at h
    rw [← h]
  | succ m ih =>
    intro s2 h i2 hi2
    simp only [forLoopM] at h
    cases hm : forLoopM m (solveGroup P step useGroup fuel) s with
    | none => rw [hm] at h; exact absurd h (by simp)
    | some s1 =>
      rw [hm] at h
      simp only [Option.some_bind] at h
      rw [solveGroup_betaIsZero_outside P step useGroup fuel m s1 s2 h i2
        (fun huse heq => hi2 (by rw [heq]; exact huse))]
      exact ih s1 hm i2 hi2

theorem refineLoop_flags (P : Params K) (step fuel : ℕ) (rem : ℕ) :
    ∀ (ns ns2 : NestState K), refineLoop P step fuel rem ns = some ns2 →
      ns2.st.isActive = ns.st.isActive ∧ ns2.st.groupChange = ns.st.groupChange := by
  induction rem with
  | zero =>
    intro ns ns2 h
    simp only [refineLoop, Option.some.injEq] at h
    rw [← h]
    exact ⟨rfl, rfl⟩
  | succ m ih =>
    intro ns ns2 h
    simp only [refineLoop] at h
    split_ifs at h with hc
    · cases hs : rcppLinSolver P step ns.st.isActive fuel ns.st with
      | none => rw [hs] at h; exact absurd h (by simp)
      | some s1 =>
        rw [hs] at h
        simp only at h
        obtain ⟨h1, h2⟩ := ih _ _ h
        obtain ⟨h3, h4⟩ := rcppLinSolver_refine_flags P step fuel ns.st s1 hs
        exact ⟨h1.trans h3, h2.trans h4⟩
    · simp only [Option.some.injEq] at h
      rw [← h]
      exact ⟨rfl, rfl⟩

theorem refineLoop_returns (P : Params K) (step : ℕ)
    (hsolve : ∀ (useGroup : ℕ → ℤ) (s : State K),
      ∃ fuel s2, rcppLinSolver P step useGroup fuel s = some s2) (rem : ℕ) :
    ∀ ns : NestState K, ∃ fuel ns2, refineLoop P step fuel rem ns = some ns2 := by
  induction rem with
  | zero => intro ns; exact ⟨0, ns, rfl⟩
  | succ m ih =>
    intro ns
    by_cases hc : ns.outermostCounter < P.outerIter ∧ ns.outermostCheck > P.outerThresh
    · obtain ⟨f1, s1, h1⟩ := hsolve ns.st.isActive ns.st
      obtain ⟨f2, ns2, h2⟩ := ih
        { st := s1, outermostCounter := ns.outermostCounter + 1
          outermostCheck := rowChange P step ns.st.beta s1.beta }
      refine ⟨max f1 f2, ns2, ?_⟩
      simp only [refineLoop, if_pos hc]
      rw [rcppLinSolver_mono P step _ f1 _ (le_max_left f1 f2) _ s1 h1]
      exact refineLoop_mono P step f2 _ (le_max_right f1 f2) m _ _ h2
    · exact ⟨0, ns, by simp only [refineLoop, if_neg hc]⟩

/-- If every call of the solver returns, the group-change loop needs at most
one scan more than there are groups not yet marked active. -/
theorem scanLoop_returns (P : Params K) (step : ℕ)
    (hsolve : ∀ (useGroup : ℕ → ℤ) (s : State K),
      ∃ fuel s2, rcppLinSolver P step useGroup fuel s = some s2) (m : ℕ) :
    ∀ ns : NestState K, inactiveCount P ns.st ≤ m →
      ∃ fuel ns2, scanLoop P step fuel (m + 1) ns = some ns2 := by
  induction m with
  | zero =>
    intro ns hcount
    by_cases hgc : ns.st.groupChange = 1
    · obtain ⟨f1, s1, h1⟩ := hsolve (fun _ => 1) { ns.st with groupChange := 0 }
      have hdec := fullScan_inactiveCount P step f1 _ ns.st s1 h1
      obtain ⟨f2, ns1, h2⟩ := refineLoop_returns P step hsolve
        (P.outerIter - ns.outermostCounter).toNat { ns with st := s1 }
      have hgc1 := (refineLoop_flags P step f2 _ _ _ h2).2
      have hne : ns1.st.groupChange ≠ 1 := by
        intro h
        have := hdec.2 (by rw [← hgc1]; exact h)
        omega
      refine ⟨max f1 f2, ns1, ?_⟩
      simp only [scanLoop, if_pos hgc]
      rw [rcppLinSolver_mono P step _ f1 _ (le_max_left f1 f2) _ s1 h1]
      simp only
      rw [refineLoop_mono P step f2 _ (le_max_right f1 f2) _ _ _ h2]
      simp only [if_neg hne]
    · exact ⟨0, ns, scanLoop_done P step 0 _ ns hgc⟩
  | succ k ih =>
    intro ns hcount
    by_cases hgc : ns.st.groupChange = 1
    · obtain ⟨f1, s1, h1⟩ := hsolve (fun _ => 1) { ns.st with groupChange := 0 }
      have hdec := fullScan_inactiveCount P step f1 _ ns.st s1 h1
      obtain ⟨f2, ns1, h2⟩ := refineLoop_returns P step hsolve
        (P.outerIter - ns.outermostCounter).toNat { ns with st := s1 }
      obtain ⟨hact1, hgc1⟩ := refineLoop_flags P step f2 _ _ _ h2
      have hcount1 : inactiveCount P ns1.st = inactiveCount P s1 := by
        unfold inactiveCount; rw [hact1]
      obtain ⟨f3, ns2, h3⟩ : ∃ f3 ns2, scanLoop P step f3 (k + 1) ns1 = some ns2 := by
        by_cases hgc2 : ns1.st.groupChange = 1
        · have := hdec.2 (by rw [← hgc1]; exact hgc2)
          exact ih ns1 (by rw [hcount1]; omega)
        · exact ⟨0, ns1, scanLoop_done P step 0 _ ns1 hgc2⟩
      refine ⟨max (max f1 f2) f3, ns2, ?_⟩
      rw [scanLoop]
      simp only [if_pos hgc]
      rw [rcppLinSolver_mono P step _ f1 _
        (le_trans (le_max_left f1 f2) (le_max_left _ f3)) _ s1 h1]
      simp only
      rw [refineLoop_mono P step f2 _
        (le_trans (le_max_right f1 f2) (le_max_left _ f3)) _ _ _ h2]
      exact scanLoop_mono P step f3 _ (le_max_right _ f3) _ _ _ h3
    · exact ⟨0, ns, scanLoop_done P step 0 _ ns hgc⟩

/-! ### The line search of the one-column instance from a given step -/

end Lemmas

section Claims

variable {K : Type} [LinearOrderedField K]

/-- C1 as stated fails: on the one-column instance (`X = [1]`, `y = [2]`,
`w = [1]`, `lambda = 3`) in the state `beta = 1`, `eta = 1`, `betaIsZero = 2`,
the groups are disjoint and in range, `eta = X * beta` and no group is flagged
`betaIsZero = 1`; the scanned group passes the zero test (`4 <= 9`), so its
coefficient is set to 0, and because the flag is not 0 line 110 leaves `eta` at
1: after the zero branch `eta = X * beta` fails. -/
theorem linPred_flag_counterexample :
    GroupsOK (oneByOne ℝ Real.sqrt 3 1) ∧
    LinPred (oneByOne ℝ Real.sqrt 3 1) 0 (oneByOneState ℝ 1 2 1) ∧
    ZeroFlags (oneByOne ℝ Real.sqrt 3 1) 0 (oneByOneState ℝ 1 2 1) ∧
    solveGroup (oneByOne ℝ Real.sqrt 3 1) 0 (fun _ => 1) 1 0 (oneByOneState ℝ 1 2 1)
      = some (zeroBranch (oneByOne ℝ Real.sqrt 3 1) 0 0 (oneByOneState ℝ 1 2 1)) ∧
    (zeroBranch (oneByOne ℝ Real.sqrt 3 1) 0 0 (oneByOneState ℝ 1 2 1)).beta 0 = 0 ∧
    (zeroBranch (oneByOne ℝ Real.sqrt 3 1) 0 0 (oneByOneState ℝ 1 2 1)).eta 0 = 1 ∧
    ¬ LinPred (oneByOne ℝ Real.sqrt 3 1) 0
      (zeroBranch (oneByOne ℝ Real.sqrt 3 1) 0 0 (oneByOneState ℝ 1 2 1)) := by
  have hz : zeroTest (oneByOne ℝ Real.sqrt 3 1) 0 0 (oneByOneState ℝ 1 2 1) := by
    simp only [zeroTest, zeroCheck, nullGrad, groupGrad, rcppLinGradCalc, etaNull, vsum,
      forLoop, oneByOne, oneByOneState, identityLinkCpp]
    norm_num
  have hb : (zeroBranch (oneByOne ℝ Real.sqrt 3 1) 0 0 (oneByOneState ℝ 1 2 1)).beta 0 = 0 := by
    simp [zeroBranch, forLoop, oneByOne, oneByOneState]
  have he : (zeroBranch (oneByOne ℝ Real.sqrt 3 1) 0 0 (oneByOneState ℝ 1 2 1)).eta 0 = 1 := by
    simp [zeroBranch, forLoop, oneByOne, oneByOneState]
  refine ⟨⟨by simp [oneByOne], ?_⟩, ?_, ?_, ?_, hb, he, ?_⟩
  · intro i i2 h1 h2 hne
    simp only [oneByOne, Nat.lt_one_iff] at h1 h2
    exact absurd (h1.trans h2.symm) hne
  · intro k hk
    simp [oneByOne, oneByOneState]
  · intro i2 _ hflag
    simp [oneByOneState] at hflag
  · unfold solveGroup
    rw [if_pos rfl, if_pos hz]
  · intro h
    have h0 := h 0 (by simp [oneByOne])
    rw [he] at h0
    have hX : (oneByOne ℝ Real.sqrt 3 1).ncol = 1 := rfl
    rw [hX, Finset.sum_range_one] at h0
    simp only [Nat.zero_mul, Nat.zero_add, Nat.add_zero, Nat.mul_zero] at h0
    rw [hb, mul_zero] at h0
    exact one_ne_zero h0

/-- C1 (amended): if every `betaIsZero` flag is 0 or 1, `eta = X * beta[step]`,
every group flagged `betaIsZero = 1` has zero coefficients, and the groups are
disjoint and inside `[0, ncol)`, then after group `i` is processed the same two
facts hold again: after the zero branch, after any number of completed inner
iterations of the active branch, and in the state `solveGroup` returns. -/
theorem linPred_invariant_preserved (P : Params K) (step i : ℕ) (s : State K)
    (hG : GroupsOK P) (hi : i < P.numGroup)
    (hflags : ∀ i2, i2 < P.numGroup → s.betaIsZero i2 = 0 ∨ s.betaIsZero i2 = 1)
    (hEta : LinPred P step s) (hZero : ZeroFlags P step s) :
    (LinPred P step (zeroBranch P step i s) ∧ ZeroFlags P step (zeroBranch P step i s)) ∧
    (∀ s2, InnerReach P step i (activeInit P step i s) s2 →
      LinPred P step s2 ∧ ZeroFlags P step s2) ∧
    (∀ useGroup fuel s2, solveGroup P step useGroup fuel i s = some s2 →
      LinPred P step s2 ∧ ZeroFlags P step s2) := by
  have hzb : LinPred P step (zeroBranch P step i s) ∧
      ZeroFlags P step (zeroBranch P step i s) := by
    refine ⟨zeroBranch_linPred P step i s (hG.1 i hi) ?_ hEta,
      zeroBranch_zeroFlags P step i s hZero⟩
    intro hne
    rcases hflags i hi with h0 | h1
    · exact absurd h0 hne
    · exact hZero i hi h1
  have hact := activeInit_activeInv P step i s hEta hZero
  refine ⟨hzb, ?_, ?_⟩
  · intro s2 hr
    have := innerReach_activeInv P step i _ s2 hG hi hact hr
    exact ⟨this.1, this.2.1⟩
  · intro useGroup fuel s2 hrun
    unfold solveGroup at hrun
    split at hrun
    · split at hrun
      · simp only [Option.some.injEq] at hrun
        exact hrun ▸ hzb
      · have := innerLoop_activeInv P step i fuel hG hi _ _ _ _ _ hact hrun
        exact ⟨this.1, this.2.1⟩
    · simp only [Option.some.injEq] at hrun
      exact hrun ▸ ⟨hEta, hZero⟩

/-- The amended C1 at the one-column instance with coefficient 1 and flag 0. -/
theorem linPred_invariant_preserved_witness :
    (LinPred (oneByOne ℝ Real.sqrt 1 1) 0
        (zeroBranch (oneByOne ℝ Real.sqrt 1 1) 0 0 (oneByOneState ℝ 1 0 1)) ∧
      ZeroFlags (oneByOne ℝ Real.sqrt 1 1) 0
        (zeroBranch (oneByOne ℝ Real.sqrt 1 1) 0 0 (oneByOneState ℝ 1 0 1))) ∧
    (∀ s2, InnerReach (oneByOne ℝ Real.sqrt 1 1) 0 0
        (activeInit (oneByOne ℝ Real.sqrt 1 1) 0 0 (oneByOneState ℝ 1 0 1)) s2 →
      LinPred (oneByOne ℝ Real.sqrt 1 1) 0 s2 ∧ ZeroFlags (oneByOne ℝ Real.sqrt 1 1) 0 s2) ∧
    (∀ useGroup fuel s2,
      solveGroup (oneByOne ℝ Real.sqrt 1 1) 0 useGroup fuel 0 (oneByOneState ℝ 1 0 1)
        = some s2 →
      LinPred (oneByOne ℝ Real.sqrt 1 1) 0 s2 ∧ ZeroFlags (oneByOne ℝ Real.sqrt 1 1) 0 s2) :=
  linPred_invariant_preserved (oneByOne ℝ Real.sqrt 1 1) 0 0 (oneByOneState ℝ 1 0 1)
    ⟨by simp [oneByOne], by
      intro i i2 h1 h2 hne
      simp only [oneByOne, Nat.lt_one_iff] at h1 h2
      exact absurd (h1.trans h2.symm) hne⟩
    (by simp [oneByOne])
    (by intro i2 _; left; rfl)
    (by intro k hk; simp [oneByOne, oneByOneState])
    (by intro i2 _ hflag; simp [oneByOneState] at hflag)

/-- C2: the vector `U` of a line-search trial is the soft-threshold of the
candidate `z`; for every `z`, `t > 0` and `adaweight, lambda >= 0` it equals
`max(0, 1 - adaweight*lambda*sqrt(groupLen)*t/||z||) * z` (and `0` when
`||z|| = 0`), and it is the unique minimiser over `x` of
`(1/2)*||x - z||^2 + t*adaweight*lambda*sqrt(groupLen)*||x||`. -/
theorem softThreshold_is_prox (P : Params K) (step i : ℕ) (z : ℕ → K) (t : K)
    (hs : IsSqrt P.sqrt) (ht : 0 < t) (ha : 0 ≤ P.adaweights i) (hl : 0 ≤ P.lambda step) :
    (∀ (s : State K) (grad : ℕ → K) (Lold : K),
      (trial P step i s grad Lold t).U
        = softThreshold P step i (candidate P step i s grad t) t) ∧
    (norm2 P.sqrt (P.groupLen i) z ≠ 0 → ∀ j, softThreshold P step i z t j
      = max 0 (1 - P.adaweights i * P.lambda step * P.sqrt (P.groupLen i : K) * t
          / norm2 P.sqrt (P.groupLen i) z) * z j) ∧
    (norm2 P.sqrt (P.groupLen i) z = 0 → ∀ j, softThreshold P step i z t j = 0) ∧
    (∀ x, proxObjective P.sqrt (P.groupLen i)
          (t * P.adaweights i * P.lambda step * P.sqrt (P.groupLen i : K)) z
          (softThreshold P step i z t)
        ≤ proxObjective P.sqrt (P.groupLen i)
          (t * P.adaweights i * P.lambda step * P.sqrt (P.groupLen i : K)) z x) ∧
    (∀ x, proxObjective P.sqrt (P.groupLen i)
          (t * P.adaweights i * P.lambda step * P.sqrt (P.groupLen i : K)) z x
        ≤ proxObjective P.sqrt (P.groupLen i)
          (t * P.adaweights i * P.lambda step * P.sqrt (P.groupLen i : K)) z
          (softThreshold P step i z t) →
      ∀ j, j < P.groupLen i → x j = softThreshold P step i z t j) := by
  refine ⟨fun _ _ _ => rfl, ?_, ?_, ?_, ?_⟩
  · intro hz j
    have hz2 : P.sqrt (vsum (P.groupLen i) fun j => z j ^ 2) ≠ 0 := by
      rw [vsum_eq_sum]; exact hz
    simp only [softThreshold, shrink, if_pos hz2]
    congr 1
    rw [vsum_eq_sum]
    unfold norm2
    split_ifs with h
    · exact (max_eq_left h.le).symm
    · exact (max_eq_right (not_lt.mp h)).symm
  · intro hz j
    have hz2 : ¬ P.sqrt (vsum (P.groupLen i) fun j => z j ^ 2) ≠ 0 := by
      rw [vsum_eq_sum]; exact not_not.mpr hz
    simp [softThreshold, shrink, if_neg hz2]
  · intro x
    have hgap := proxObjective_gap P step i z t hs ht ha hl x
    have : 0 ≤ ∑ j ∈ Finset.range (P.groupLen i), (x j - softThreshold P step i z t j) ^ 2 :=
      Finset.sum_nonneg (fun j _ => sq_nonneg _)
    linarith
  · intro x hx j hj
    have hgap := proxObjective_gap P step i z t hs ht ha hl x
    have hnn : 0 ≤ ∑ j ∈ Finset.range (P.groupLen i),
        (x j - softThreshold P step i z t j) ^ 2 :=
      Finset.sum_nonneg (fun j _ => sq_nonneg _)
    have h0 : ∑ j ∈ Finset.range (P.groupLen i),
        (x j - softThreshold P step i z t j) ^ 2 = 0 := by linarith
    have := (Finset.sum_eq_zero_iff_of_nonneg (fun j _ => sq_nonneg _)).mp h0 j
      (Finset.mem_range.mpr hj)
    have := pow_eq_zero_iff two_ne_zero |>.mp this
    linarith

/-- The proximal characterisation of C2 at the one-column instance over the
reals, with `z = [3]`, `t = 1`, `lambda = 1`. -/
theorem softThreshold_is_prox_witness :
    IsSqrt (oneByOne ℝ Real.sqrt 1 1).sqrt ∧
    ∀ x, proxObjective Real.sqrt 1 (1 * 1 * 1 * Real.sqrt ((1 : ℕ) : ℝ)) (fun _ => 3)
          (softThreshold (oneByOne ℝ Real.sqrt 1 1) 0 0 (fun _ => 3) 1)
        ≤ proxObjective Real.sqrt 1 (1 * 1 * 1 * Real.sqrt ((1 : ℕ) : ℝ)) (fun _ => 3) x :=
  ⟨isSqrt_real,
    (softThreshold_is_prox (oneByOne ℝ Real.sqrt 1 1) 0 0 (fun _ => 3) 1 isSqrt_real
      one_pos (by simp [oneByOne]) (by simp [oneByOne])).2.2.2.1⟩

/-- C3: for a scanned group `i` and `adaweight, lambda >= 0`, the squared test
`sum(grad^2) <= adaweight^2*lambda^2*groupLen` is the norm inequality
`||grad|| <= adaweight*lambda*sqrt(groupLen)` on the screening gradient, and
when it holds `solveGroup` returns a state in which every coefficient of the
group in row `step` is 0 and `betaIsZero[i] = 1`. -/
theorem kkt_zero_property (P : Params K) (step i : ℕ) (s : State K) (useGroup : ℕ → ℤ)
    (fuel : ℕ) (hs : IsSqrt P.sqrt) (ha : 0 ≤ P.adaweights i) (hl : 0 ≤ P.lambda step)
    (huse : useGroup i = 1) :
    (zeroTest P step i s ↔
      norm2 P.sqrt (P.groupLen i) (nullGrad P step i s)
        ≤ P.adaweights i * P.lambda step * P.sqrt (P.groupLen i : K)) ∧
    (norm2 P.sqrt (P.groupLen i) (nullGrad P step i s)
        ≤ P.adaweights i * P.lambda step * P.sqrt (P.groupLen i : K) →
      ∃ s2, solveGroup P step useGroup fuel i s = some s2 ∧
        (∀ j, j < P.groupLen i → s2.beta (step * P.ncol + j + P.rangeGroupInd i) = 0) ∧
        s2.betaIsZero i = 1) := by
  have hiff := zeroTest_iff_norm P step i s hs ha hl
  refine ⟨hiff, fun hnorm => ⟨zeroBranch P step i s, ?_, ?_, ?_⟩⟩
  · unfold solveGroup
    rw [if_pos huse, if_pos (hiff.mpr hnorm)]
  · exact fun j hj => zeroBranch_group_zero P step i s j hj
  · simp [zeroBranch]

/-- The zero property of C3 at the one-column instance over the reals with
`lambda = 2`: the screening gradient is `-2` and `||grad|| = 2 <= 1 * 2 * sqrt 1`. -/
theorem kkt_zero_property_witness :
    ∃ s2, solveGroup (oneByOne ℝ Real.sqrt 2 1) 0 (fun _ => 1) 0 0 (oneByOneState ℝ 1 0 1)
        = some s2 ∧
      (∀ j, j < 1 → s2.beta (0 * 1 + j + 0) = 0) ∧ s2.betaIsZero 0 = 1 :=
  (kkt_zero_property (oneByOne ℝ Real.sqrt 2 1) 0 0 (oneByOneState ℝ 1 0 1) (fun _ => 1) 0
    isSqrt_real (by simp [oneByOne]) (by simp [oneByOne]) rfl).2
    (by
      rw [← zeroTest_iff_norm _ _ _ _ isSqrt_real (by simp [oneByOne]) (by simp [oneByOne])]
      simp only [zeroTest, zeroCheck, nullGrad, groupGrad, rcppLinGradCalc, etaNull, vsum,
        forLoop, oneByOne, oneByOneState, identityLinkCpp]
      norm_num)

/-- C4: with `gamma != 0`, if the trials of the back-tracking loop at
`t, t*gamma, ..., t*gamma^(n-1)` have `diff < 0` and the trial at `t*gamma^n`
is the first with `diff >= 0`, the loop stops at that trial (fuel for `n + 1`
trials); the inner iteration then commits the `U` of that trial and, after the
restore `t <- t/gamma`, its `t` is exactly `t*gamma^n`.  Here
`diff = Lold - Loss(Link(etaNew)) - t*<grad,G> + (t/2)*||G||^2` with
`G = (beta_group - U)/t` and `etaNew = eta - t * X[:,group] * G`. -/
theorem backtracking_accepts_first (P : Params K) (step i : ℕ) (s : State K) (count : ℤ)
    (n fuel : ℕ) (hg : P.gamma ≠ 0)
    (hrej : ∀ m, m < n →
      (trial P step i s (currentGrad P i s) (currentLoss P s) (s.t * P.gamma ^ m)).diff < 0)
    (hacc : 0 ≤
      (trial P step i s (currentGrad P i s) (currentLoss P s) (s.t * P.gamma ^ n)).diff)
    (hfuel : n < fuel) :
    backtrack P step i s (currentGrad P i s) (currentLoss P s) fuel s.t
      = some (s.t * P.gamma ^ n * P.gamma,
          trial P step i s (currentGrad P i s) (currentLoss P s) (s.t * P.gamma ^ n)) ∧
    innerIteration P step i fuel count s
      = some (commit P step i count
          (trial P step i s (currentGrad P i s) (currentLoss P s) (s.t * P.gamma ^ n)).U
          { s with t := s.t * P.gamma ^ n }) ∧
    (commit P step i count
        (trial P step i s (currentGrad P i s) (currentLoss P s) (s.t * P.gamma ^ n)).U
        { s with t := s.t * P.gamma ^ n }).1.t = s.t * P.gamma ^ n ∧
    (∀ (grad : ℕ → K) (Lold t : K),
      (∀ j, (trial P step i s grad Lold t).G j
        = (s.beta (step * P.ncol + j + P.rangeGroupInd i) - (trial P step i s grad Lold t).U j)
            / t) ∧
      (∀ k, k < P.nrow → (trial P step i s grad Lold t).etaNew k
        = s.eta k - t * ∑ j ∈ Finset.range (P.groupLen i),
            P.X (k + P.nrow * (P.rangeGroupInd i + j)) * (trial P step i s grad Lold t).G j) ∧
      (trial P step i s grad Lold t).diff
        = Lold - P.loglik (P.link (trial P step i s grad Lold t).etaNew) P.y P.w
          - t * ∑ j ∈ Finset.range (P.groupLen i), grad j * (trial P step i s grad Lold t).G j
          + t / 2 * ∑ j ∈ Finset.range (P.groupLen i),
              (trial P step i s grad Lold t).G j ^ 2) := by
  have hbt := backtrack_first_accept P step i s (currentGrad P i s) (currentLoss P s) n s.t
    fuel hrej hacc hfuel
  refine ⟨hbt, ?_, (commit_frame P step i count _ _).2.2.2, ?_⟩
  · unfold innerIteration
    rw [hbt]
    simp only [mul_div_assoc, div_self hg, mul_one]
  · intro grad Lold t
    refine ⟨fun j => ?_, fun k hk => ?_, ?_⟩
    · simp only [trial]; ring
    · simp only [trial, if_pos hk, forLoop_sub_eq, Finset.mul_sum]
      congr 1
      exact Finset.sum_congr rfl (fun j _ => by ring)
    · simp only [trial, vsum_eq_sum]

/-- The line search of C4 on the unpenalised one-column instance started at
`t = 4` with `gamma = 1/2`: the trials at 4 and 2 are rejected, the trial at 1 is
accepted. -/
theorem backtracking_accepts_first_witness :
    innerIteration (oneByOne ℝ Real.sqrt 0 1) 0 0 3 1 (oneByOneState ℝ 0 0 4)
      = some (commit (oneByOne ℝ Real.sqrt 0 1) 0 0 1
          (trial (oneByOne ℝ Real.sqrt 0 1) 0 0 (oneByOneState ℝ 0 0 4)
            (currentGrad (oneByOne ℝ Real.sqrt 0 1) 0 (oneByOneState ℝ 0 0 4))
            (currentLoss (oneByOne ℝ Real.sqrt 0 1) (oneByOneState ℝ 0 0 4))
            ((oneByOneState ℝ 0 0 4).t * (oneByOne ℝ Real.sqrt 0 1).gamma ^ 2)).U
          { oneByOneState ℝ 0 0 4 with
            t := (oneByOneState ℝ 0 0 4).t * (oneByOne ℝ Real.sqrt 0 1).gamma ^ 2 }) :=
  (backtracking_accepts_first (oneByOne ℝ Real.sqrt 0 1) 0 0 (oneByOneState ℝ 0 0 4) 1 2 3
    (by norm_num [oneByOne])
    (by
      intro m hm
      have hgam : (oneByOne ℝ Real.sqrt 0 1).gamma = 1 / 2 := rfl
      have hst : (oneByOneState ℝ 0 0 4).t = 4 := rfl
      rw [oneByOne_trial_diff _ _ _ _ (by rw [hgam, hst]; positivity), hgam, hst]
      interval_cases m <;> norm_num [oneByOneState])
    (by
      have hgam : (oneByOne ℝ Real.sqrt 0 1).gamma = 1 / 2 := rfl
      have hst : (oneByOneState ℝ 0 0 4).t = 4 := rfl
      rw [oneByOne_trial_diff _ _ _ _ (by rw [hgam, hst]; positivity), hgam, hst]
      norm_num [oneByOneState])
    (by norm_num)).2.1

/-- C5 as stated fails: on the one-column instance (`X = [1]`, `y = [2]`,
`w = [1]`, `lambda = 3/2`) warm-started at the coefficient 1, group 0 is active,
the first trial (`t = 1`) is accepted with `diff = 0`, and the loss rises from
`1/2` to `9/8`. -/
theorem loss_descent_counterexample :
    ¬ zeroTest (oneByOne ℝ Real.sqrt (3 / 2) 1) 0 0 (oneByOneState ℝ 1 0 1) ∧
    ∃ t1 r, backtrack (oneByOne ℝ Real.sqrt (3 / 2) 1) 0 0 (oneByOneState ℝ 1 0 1)
        (currentGrad (oneByOne ℝ Real.sqrt (3 / 2) 1) 0 (oneByOneState ℝ 1 0 1))
        (currentLoss (oneByOne ℝ Real.sqrt (3 / 2) 1) (oneByOneState ℝ 1 0 1)) 1
        (oneByOneState ℝ 1 0 1).t = some (t1, r) ∧
      currentLoss (oneByOne ℝ Real.sqrt (3 / 2) 1) (oneByOneState ℝ 1 0 1) < r.Lnew := by
  obtain ⟨hold, hnew, _⟩ := oneByOne_warm_trial
  refine ⟨?_, _, _, oneByOne_warm_backtrack, ?_⟩
  · simp only [zeroTest, zeroCheck, nullGrad, groupGrad, rcppLinGradCalc, etaNull, vsum,
      forLoop, oneByOne, oneByOneState, identityLinkCpp]
    norm_num
  · rw [hnew, hold]; norm_num

/-- C5 (amended): for every trial on which the back-tracking loop exits, with a
positive starting step, `gamma > 0` and `adaweight, lambda >= 0`, the penalised
objective does not increase,
`Lnew + adaweight*lambda*sqrt(groupLen)*||U|| <= Lold + adaweight*lambda*sqrt(groupLen)*||beta_group||`,
and the loss satisfies `Lnew <= Lold - t*<grad,G> + (t/2)*||G||^2` at the
accepted `t`. -/
theorem accepted_step_penalised_descent (P : Params K) (step i : ℕ) (s : State K)
    (fuel : ℕ) (t1 : K) (r : Trial K) (hs : IsSqrt P.sqrt) (ht : 0 < s.t)
    (hg : 0 < P.gamma) (ha : 0 ≤ P.adaweights i) (hl : 0 ≤ P.lambda step)
    (hbt : backtrack P step i s (currentGrad P i s) (currentLoss P s) fuel s.t
      = some (t1, r)) :
    r.Lnew + P.adaweights i * P.lambda step * P.sqrt (P.groupLen i : K)
          * norm2 P.sqrt (P.groupLen i) r.U
      ≤ currentLoss P s + P.adaweights i * P.lambda step * P.sqrt (P.groupLen i : K)
          * norm2 P.sqrt (P.groupLen i)
              (fun j => s.beta (step * P.ncol + j + P.rangeGroupInd i)) ∧
    r.Lnew ≤ currentLoss P s
        - t1 / P.gamma * ∑ j ∈ Finset.range (P.groupLen i), currentGrad P i s j * r.G j
        + t1 / P.gamma / 2 * ∑ j ∈ Finset.range (P.groupLen i), r.G j ^ 2 := by
  obtain ⟨n, _, _, hacc, ht1, hr⟩ := backtrack_some P step i s _ _ fuel _ _ _ hbt
  have htn : 0 < s.t * P.gamma ^ n := mul_pos ht (pow_pos hg n)
  have ht1' : t1 / P.gamma = s.t * P.gamma ^ n := by
    rw [ht1, mul_div_assoc, div_self (ne_of_gt hg), mul_one]
  subst hr
  refine ⟨trial_penalised_descent P step i s _ _ _ hs htn ha hl hacc, ?_⟩
  rw [ht1']
  have hd : (trial P step i s (currentGrad P i s) (currentLoss P s) (s.t * P.gamma ^ n)).diff
      = currentLoss P s
        - (trial P step i s (currentGrad P i s) (currentLoss P s) (s.t * P.gamma ^ n)).Lnew
        - s.t * P.gamma ^ n * ∑ j ∈ Finset.range (P.groupLen i), currentGrad P i s j
            * (trial P step i s (currentGrad P i s) (currentLoss P s)
                (s.t * P.gamma ^ n)).G j
        + s.t * P.gamma ^ n / 2 * ∑ j ∈ Finset.range (P.groupLen i),
            (trial P step i s (currentGrad P i s) (currentLoss P s)
              (s.t * P.gamma ^ n)).G j ^ 2 := by
    simp only [trial, vsum_eq_sum]
  rw [hd] at hacc
  linarith

/-- The amended C5 at the warm-started one-column instance with `lambda = 3/2`:
the accepted step keeps the penalised objective at or below `1/2 + 3/2`. -/
theorem accepted_step_penalised_descent_witness :
    ∃ t1 r, backtrack (oneByOne ℝ Real.sqrt (3 / 2) 1) 0 0 (oneByOneState ℝ 1 0 1)
        (currentGrad (oneByOne ℝ Real.sqrt (3 / 2) 1) 0 (oneByOneState ℝ 1 0 1))
        (currentLoss (oneByOne ℝ Real.sqrt (3 / 2) 1) (oneByOneState ℝ 1 0 1)) 1
        (oneByOneState ℝ 1 0 1).t = some (t1, r) ∧
      r.Lnew + (oneByOne ℝ Real.sqrt (3 / 2) 1).adaweights 0
            * (oneByOne ℝ Real.sqrt (3 / 2) 1).lambda 0
            * Real.sqrt (((oneByOne ℝ Real.sqrt (3 / 2) 1).groupLen 0 : ℕ) : ℝ)
            * norm2 Real.sqrt ((oneByOne ℝ Real.sqrt (3 / 2) 1).groupLen 0) r.U
        ≤ currentLoss (oneByOne ℝ Real.sqrt (3 / 2) 1) (oneByOneState ℝ 1 0 1)
          + (oneByOne ℝ Real.sqrt (3 / 2) 1).adaweights 0
            * (oneByOne ℝ Real.sqrt (3 / 2) 1).lambda 0
            * Real.sqrt (((oneByOne ℝ Real.sqrt (3 / 2) 1).groupLen 0 : ℕ) : ℝ)
            * norm2 Real.sqrt ((oneByOne ℝ Real.sqrt (3 / 2) 1).groupLen 0)
                (fun j => (oneByOneState ℝ 1 0 1).beta
                  (0 * (oneByOne ℝ Real.sqrt (3 / 2) 1).ncol + j
                    + (oneByOne ℝ Real.sqrt (3 / 2) 1).rangeGroupInd 0)) := by
  exact ⟨_, _, oneByOne_warm_backtrack, (accepted_step_penalised_descent (oneByOne ℝ Real.sqrt (3 / 2) 1) 0 0
    (oneByOneState ℝ 1 0 1) 1 _ _ isSqrt_real (by norm_num [oneByOneState])
    (by norm_num [oneByOne]) (by norm_num [oneByOne]) (by norm_num [oneByOne])
    oneByOne_warm_backtrack).1⟩

/-- C9: with the identity link and `sum(w) != 0`, the vector
`ldot[k] = w[k]*(eta[k] - y[k])/sum(w)` of `rcppLinGradCalc` is the partial
derivative in `eta[k]` of `linLogLik(eta, y, w) = 0.5*sum(w*(eta - y)^2)/sum(w)`,
and `grad[j] = X[:,j]^T ldot` is the partial derivative of the loss at
`eta = X * beta` in the coefficient of column `j + rangeGroupInd[i]`. -/
theorem ldot_is_loss_gradient (P : Params ℝ) (eta b : ℕ → ℝ) (k i j : ℕ)
    (_hw : vsum P.nrow P.w ≠ 0) (hk : k < P.nrow) (hj : j + P.rangeGroupInd i < P.ncol) :
    (∀ k2, rcppLinGradCalc P.nrow (identityLinkCpp eta) P.y P.w k2
      = P.w k2 * (eta k2 - P.y k2) / vsum P.nrow P.w) ∧
    linLogLik P.nrow (identityLinkCpp eta) P.y P.w
      = 1 / 2 * (∑ k2 ∈ Finset.range P.nrow, P.w k2 * (eta k2 - P.y k2) ^ 2)
          / vsum P.nrow P.w ∧
    HasDerivAt
      (fun x => linLogLik P.nrow (identityLinkCpp (Function.update eta k x)) P.y P.w)
      (rcppLinGradCalc P.nrow (identityLinkCpp eta) P.y P.w k) (eta k) ∧
    HasDerivAt
      (fun x => linLogLik P.nrow
        (identityLinkCpp (fun k2 => ∑ c ∈ Finset.range P.ncol,
          P.X (k2 + P.nrow * c) * Function.update b (j + P.rangeGroupInd i) x c)) P.y P.w)
      (groupGrad P i
        (rcppLinGradCalc P.nrow
          (identityLinkCpp (fun k2 => ∑ c ∈ Finset.range P.ncol, P.X (k2 + P.nrow * c) * b c))
          P.y P.w) j)
      (b (j + P.rangeGroupInd i)) := by
  refine ⟨fun k2 => rfl, ?_, ?_, ?_⟩
  · simp only [linLogLik, identityLinkCpp, vsum_eq_sum]
  · have h := linLogLik_hasDerivAt P.nrow P.y P.w eta (fun k2 => if k2 = k then 1 else 0)
      (eta k)
    have hfun : (fun x => linLogLik P.nrow (identityLinkCpp (Function.update eta k x)) P.y P.w)
        = fun x => linLogLik P.nrow
            (fun k2 => eta k2 + (if k2 = k then 1 else 0) * (x - eta k)) P.y P.w := by
      funext x
      congr 1
      funext k2
      simp only [identityLinkCpp, Function.update_apply]
      split_ifs with hkk
      · rw [hkk]; ring
      · ring
    rw [hfun]
    refine h.congr_deriv ?_
    simp only [ite_mul, one_mul, zero_mul]
    rw [Finset.sum_ite_eq' (Finset.range P.nrow) k, if_pos (Finset.mem_range.mpr hk)]
    rfl
  · have h := linLogLik_hasDerivAt P.nrow P.y P.w
      (fun k2 => ∑ c ∈ Finset.range P.ncol, P.X (k2 + P.nrow * c) * b c)
      (fun k2 => P.X (k2 + P.nrow * (j + P.rangeGroupInd i))) (b (j + P.rangeGroupInd i))
    have hfun : (fun x => linLogLik P.nrow
          (identityLinkCpp (fun k2 => ∑ c ∈ Finset.range P.ncol,
            P.X (k2 + P.nrow * c) * Function.update b (j + P.rangeGroupInd i) x c)) P.y P.w)
        = fun x => linLogLik P.nrow
            (fun k2 => ∑ c ∈ Finset.range P.ncol, P.X (k2 + P.nrow * c) * b c
              + P.X (k2 + P.nrow * (j + P.rangeGroupInd i))
                * (x - b (j + P.rangeGroupInd i))) P.y P.w := by
      funext x
      congr 1
      funext k2
      simp only [identityLinkCpp]
      exact predictor_update P b _ hj x k2
    rw [hfun]
    refine h.congr_deriv ?_
    simp only [groupGrad, forLoop_add_eq, zero_add]
    rfl

/-- C9 at the one-column instance over the reals (`sum(w) = 1`). -/
theorem ldot_is_loss_gradient_witness :
    HasDerivAt
      (fun x => linLogLik (oneByOne ℝ Real.sqrt 0 1).nrow
        (identityLinkCpp (Function.update (fun _ => (1 : ℝ)) 0 x))
        (oneByOne ℝ Real.sqrt 0 1).y (oneByOne ℝ Real.sqrt 0 1).w)
      (rcppLinGradCalc (oneByOne ℝ Real.sqrt 0 1).nrow (identityLinkCpp (fun _ => (1 : ℝ)))
        (oneByOne ℝ Real.sqrt 0 1).y (oneByOne ℝ Real.sqrt 0 1).w 0) 1 :=
  (ldot_is_loss_gradient (oneByOne ℝ Real.sqrt 0 1) (fun _ => 1) (fun _ => 1) 0 0 0
    (by simp [oneByOne, vsum, forLoop]) (by simp [oneByOne]) (by simp [oneByOne])).2.2.1

/-- C6: if in the first full scan of a path step every group passes the zero
test when it is visited, the step is finished by that one scan (one scan is
needed and one suffices), `groupChange` ends 0, the refinement passes leave the
state of the scan as it is, and every coefficient of every group in row `step`
is 0. -/
theorem all_zero_step (P : Params K) (step fuel : ℕ) (s : State K)
    (hz : ∀ i, i < P.numGroup →
      zeroTest P step i (zeroScan P step i (scanStart P step s))) :
    pathStep P fuel 1 step s = some (zeroScan P step P.numGroup (scanStart P step s)) ∧
    pathStep P fuel 0 step s = none ∧
    (zeroScan P step P.numGroup (scanStart P step s)).groupChange = 0 ∧
    (∃ c chk, refineLoop P step fuel (P.outerIter - 0).toNat
        { st := zeroScan P step P.numGroup (scanStart P step s)
          outermostCounter := 0, outermostCheck := 100000 }
      = some { st := zeroScan P step P.numGroup (scanStart P step s)
               outermostCounter := c, outermostCheck := chk }) ∧
    (∀ i j, i < P.numGroup → j < P.groupLen i →
      (zeroScan P step P.numGroup (scanStart P step s)).beta
        (step * P.ncol + j + P.rangeGroupInd i) = 0) := by
  have hfr := zeroScan_frame P step P.numGroup (scanStart P step s)
  have hgc : (zeroScan P step P.numGroup (scanStart P step s)).groupChange = 0 := by
    rw [hfr.2.1]; rfl
  have hact : ∀ i, i < P.numGroup →
      (zeroScan P step P.numGroup (scanStart P step s)).isActive i ≠ 1 := by
    intro i hi
    rw [hfr.1]
    simp [scanStart, stepInit, hi]
  have href := refineLoop_inactive P step fuel _ hact (by rw [hfr.2.2.1]; rfl)
    (by rw [hfr.2.2.2]; rfl) (P.outerIter - 0).toNat 0 100000
  have hscan : rcppLinSolver P step (fun _ => 1) fuel
      { (stepInit P step s).st with groupChange := 0 }
      = some (zeroScan P step P.numGroup (scanStart P step s)) :=
    forLoopM_zeroScan P step fuel (scanStart P step s) P.numGroup hz
  refine ⟨?_, ?_, hgc, href, fun i j hi hj => zeroScan_group_zero P step _ _ i j hi hj⟩
  · obtain ⟨c, chk, hc⟩ := href
    have hinit : (stepInit P step s).st.groupChange = 1 := rfl
    unfold pathStep
    simp only [scanLoop, hinit, if_true, hscan]
    have hc2 : refineLoop P step fuel (P.outerIter - (stepInit P step s).outermostCounter).toNat
        { stepInit P step s with st := zeroScan P step P.numGroup (scanStart P step s) }
        = some { st := zeroScan P step P.numGroup (scanStart P step s)
                 outermostCounter := c, outermostCheck := chk } := hc
    rw [hc2]
    simp [hgc]
  · unfold pathStep
    have hinit : (stepInit P step s).st.groupChange = 1 := rfl
    simp [scanLoop, hinit]

/-- C6 on the two-column instance with `lambda = 2`: both groups pass the zero
test, one scan finishes `rcppLinNest`, and the coefficients are `[0, 0]`. -/
theorem all_zero_step_witness :
    ∃ sF, rcppLinNest (fourByTwo ℚ id 2 1 10 10) 0 1 (zeroState ℚ) = some sF ∧
      sF.beta 0 = 0 ∧ sF.beta 1 = 0 := by
  have h := all_zero_step (fourByTwo ℚ id 2 1 10 10) 0 0 (zeroState ℚ) fourByTwo_zeroTests
  refine ⟨_, ?_, h.2.2.2.2 0 0 (by decide) (by decide), h.2.2.2.2 1 0 (by decide) (by decide)⟩
  show (some (zeroState ℚ)).bind (pathStep (fourByTwo ℚ id 2 1 10 10) 0 1 0) = _
  exact h.1

/-- C11: in a run of `rcppLinNest` with every group inside `[0, ncol)`, path
step `step` starts from the state `sa` left by the steps before it; for
`step > 0` the prologue makes row `step` of `beta` equal to row `step - 1` of
`sa`; solving the step writes only entries of row `step` in columns of groups
(a call of `rcppLinSolver` only those of the groups it scans), the other rows
are as in `sa`, and on return the rows up to `step` are as step `step` left
them. -/
theorem warm_start_row_frame (P : Params K) (fuel scans : ℕ) (s sF : State K)
    (hin : GroupsInRange P) (hrun : rcppLinNest P fuel scans s = some sF)
    (step : ℕ) (hstep : step < P.nlam) :
    ∃ sa sb, forLoopM step (pathStep P fuel scans) s = some sa ∧
      pathStep P fuel scans step sa = some sb ∧
      (0 < step → ∀ c, c < P.ncol →
        (stepInit P step sa).st.beta (step * P.ncol + c) = sa.beta ((step - 1) * P.ncol + c)) ∧
      (∀ (useGroup : ℕ → ℤ) (fuel2 : ℕ) (s1 s2 : State K),
        rcppLinSolver P step useGroup fuel2 s1 = some s2 →
        ∀ c, ¬ ScannedEntry P step useGroup P.numGroup c → s2.beta c = s1.beta c) ∧
      (∀ c, ¬ ScannedEntry P step (fun _ => 1) P.numGroup c →
        sb.beta c = (stepInit P step sa).st.beta c) ∧
      (∀ c, c < step * P.ncol ∨ (step + 1) * P.ncol ≤ c → sb.beta c = sa.beta c) ∧
      (∀ c, c < (step + 1) * P.ncol → sF.beta c = sb.beta c) := by
  obtain ⟨sa, sb, hsa, hsb, hsab⟩ := forLoopM_split _ _ _ _ hrun step hstep
  refine ⟨sa, sb, hsa, hsb, ?_, ?_, ?_, ?_, ?_⟩
  · intro hpos c hc
    rw [stepInit_beta P step sa hpos, if_pos ⟨Nat.le_add_right _ _, by omega⟩]
    congr 1
    obtain ⟨p, hp⟩ := Nat.exists_eq_succ_of_ne_zero (Nat.pos_iff_ne_zero.mp hpos)
    rw [hp, Nat.succ_sub_one, Nat.succ_mul]
    omega
  · intro useGroup fuel2 s1 s2 h c hc
    exact rcppLinSolver_beta_outside P step useGroup fuel2 s1 s2 h c hc
  · intro c hc
    exact pathStep_beta_outside P fuel scans step sa sb hsb c hc
  · intro c hc
    exact pathStep_other_rows P fuel scans step sa sb hin hsb c hc
  · intro c hc
    obtain ⟨n, hn⟩ : ∃ n, P.nlam = step + 1 + n := ⟨P.nlam - (step + 1), by omega⟩
    have hrun2 : forLoopM (step + 1 + n) (pathStep P fuel scans) s = some sF := by
      rw [← hn]; exact hrun
    exact later_steps_keep_row P fuel scans s hin step n sb sF hsab hrun2 c hc

/-- C11 on the one-column instance with a path of two steps: step 1 starts
with row 1 equal to row 0 as step 0 left it, and leaves row 0 alone. -/
theorem warm_start_row_frame_witness :
    ∃ fuel sF sa sb,
      rcppLinNest (oneColumn ℝ Real.sqrt (fun _ => 0) 1 0 0 2) fuel 2 (zeroState ℝ)
        = some sF ∧
      forLoopM 1 (pathStep (oneColumn ℝ Real.sqrt (fun _ => 0) 1 0 0 2) fuel 2) (zeroState ℝ)
        = some sa ∧
      pathStep (oneColumn ℝ Real.sqrt (fun _ => 0) 1 0 0 2) fuel 2 1 sa = some sb ∧
      (stepInit (oneColumn ℝ Real.sqrt (fun _ => 0) 1 0 0 2) 1 sa).st.beta 1 = sa.beta 0 ∧
      sb.beta 0 = sa.beta 0 ∧ sF.beta 1 = sb.beta 1 := by
  obtain ⟨fuel, sF, hrun⟩ := rcppLinNest_terminates (oneColumn ℝ Real.sqrt (fun _ => 0) 1 0 0 2)
    (zeroState ℝ)
    (fun step _ => reference_lineSearchExits _ step rfl rfl (fun _ _ => zero_le_one)
      (by simp [oneColumn, oneByOne, vsum, forLoop]) (by norm_num [oneColumn, oneByOne])
      (by norm_num [oneColumn, oneByOne]))
    (by norm_num [oneColumn, oneByOne]) (by norm_num [oneColumn, oneByOne]) 2 le_rfl
  obtain ⟨sa, sb, hsa, hsb, hwarm, _, _, hrows, hfin⟩ :=
    warm_start_row_frame (oneColumn ℝ Real.sqrt (fun _ => 0) 1 0 0 2) fuel 2 (zeroState ℝ) sF
      (fun i hi => by
        have hi0 : i = 0 := Nat.lt_one_iff.mp hi
        subst hi0
        exact le_rfl)
      hrun 1 (by decide)
  exact ⟨fuel, sF, sa, sb, hrun, hsa, hsb, hwarm Nat.one_pos 0 Nat.one_pos,
    hrows 0 (Or.inl Nat.one_pos), hfin 1 (by decide)⟩

/-- C12: the code overruns the cap by one.  On the one-column instance
(`X = [1]`, `y = [2]`, `w = [1]`, `lambda = 0`, `momentum = 1`, `thresh = 0`)
with `innerIter = 0`, started from `beta = 0`, `eta = 0`, group 0 is active and
its visit performs one inner iteration (final `count = 1`), which moves the
coefficient from 0 to 2, where a cap of `innerIter = 0` iterations allows none:
line 148 tests `count <= innerIter` with `count` starting at 0, while the
refinement loop of line 293 tests `outermostCounter < outerIter`. -/
theorem inner_cap_counterexample :
    (oneByOne ℝ Real.sqrt 0 1).innerIter = 0 ∧
    ¬ zeroTest (oneByOne ℝ Real.sqrt 0 1) 0 0 (oneByOneState ℝ 0 1 1) ∧
    ∃ r, innerLoopTrace (oneByOne ℝ Real.sqrt 0 1) 0 0 1
        ((oneByOne ℝ Real.sqrt 0 1).innerIter + 1).toNat 0 100000
        (activeInit (oneByOne ℝ Real.sqrt 0 1) 0 0 (oneByOneState ℝ 0 1 1)) = some r ∧
      r.count = 1 ∧ r.starts.length = 1 ∧ r.st.beta 0 = 2 ∧
      solveGroup (oneByOne ℝ Real.sqrt 0 1) 0 (fun _ => 1) 1 0 (oneByOneState ℝ 0 1 1)
        = some r.st := by
  have hz : ¬ zeroTest (oneByOne ℝ Real.sqrt 0 1) 0 0 (oneByOneState ℝ 0 1 1) := by
    simp only [zeroTest, zeroCheck, nullGrad, groupGrad, rcppLinGradCalc, etaNull, vsum,
      forLoop, oneByOne, oneByOneState, identityLinkCpp]
    norm_num
  obtain ⟨r, hr, hc, hs, hb⟩ := oneByOne_innerLoopTrace
  refine ⟨rfl, hz, r, hr, hc, by rw [hs]; rfl, hb, ?_⟩
  unfold solveGroup
  rw [if_pos rfl, if_neg hz, ← innerLoopTrace_erase, hr]
  rfl

/-- The extent of the overrun of line 148: the final `count` of a visit is the
number of line searches made and is at most `innerIter + 1` (0 when
`innerIter < 0`); the loop stops with `count <= innerIter` only when
`check <= thresh`, and with `innerIter >= 0` and `thresh < 100000` it makes at
least one iteration. -/
theorem inner_iterations_bounded (P : Params K) (step i fuel : ℕ) (s : State K)
    (r : InnerRun K)
    (h : innerLoopTrace P step i fuel (P.innerIter + 1).toNat 0 100000
      (activeInit P step i s) = some r) :
    innerLoop P step i fuel (P.innerIter + 1).toNat 0 100000 (activeInit P step i s)
      = some r.st ∧
    r.count = r.starts.length ∧ r.count ≤ max 0 (P.innerIter + 1) ∧
    (r.count ≤ P.innerIter → r.check ≤ P.thresh) ∧
    (0 ≤ P.innerIter → P.thresh < 100000 → 1 ≤ r.count) := by
  obtain ⟨h1, h2, h3⟩ := innerLoopTrace_count P step i fuel _ _ _ _ r h
  refine ⟨?_, by rw [h1, zero_add], ?_, ?_, ?_⟩
  · rw [← innerLoopTrace_erase, h]
    rfl
  · rw [zero_add, Int.toNat_eq_max] at h2
    rw [max_comm]
    exact h2
  · exact h3 (by rw [zero_add]; exact Int.self_le_toNat _)
  · intro hi hthr
    obtain ⟨k, hk⟩ : ∃ k, (P.innerIter + 1).toNat = k + 1 :=
      ⟨(P.innerIter + 1).toNat - 1, by omega⟩
    rw [hk] at h
    have := innerLoopTrace_first P step i fuel k 0 100000 _ r hi hthr h
    omega

/-- C13 as stated fails: on the two-column instance (`lambda = 0`,
`gamma = 1/2`, `momentum = 8`, `innerIter = 0`) started from `beta = 0`,
`eta = 0`, the line search of group 0 starts at `t = 8` and accepts 4, and the
line search of group 1 then starts at `t = 4`, not at `momentum`. -/
theorem momentum_seed_counterexample :
    (fourByTwo ℝ Real.sqrt 0 8 0 0).momentum = 8 ∧
    ∃ s2, rcppLinSolverTrace (fourByTwo ℝ Real.sqrt 0 8 0 0) 0 (fun _ => 1) 2 (zeroState ℝ)
      = some (s2, [8, 4]) :=
  ⟨rfl, fourByTwo_solver_trace⟩

/-- C13 (amended): `momentum` seeds the step size once per call of
`rcppLinSolver` (`gamma != 0`): the first line search of the call starts at
`t = momentum`; every line search leaves `t` at the step it accepted, its
starting step times `gamma^n` after `n` rejected trials, and the next line
search of the call (next inner iteration or next group) starts there.  So every
first trial uses `momentum * gamma^n` for some `n`. -/
theorem momentum_seeds_call (P : Params K) (step : ℕ) (useGroup : ℕ → ℤ) (fuel : ℕ)
    (s s2 : State K) (log : List K) (hg : P.gamma ≠ 0)
    (h : rcppLinSolverTrace P step useGroup fuel s = some (s2, log)) :
    rcppLinSolver P step useGroup fuel s = some s2 ∧
    StepChain P.gamma P.momentum log s2.t ∧
    (∀ t0 rest, log = t0 :: rest → t0 = P.momentum) ∧
    (∀ t, t ∈ log → ∃ n, t = P.momentum * P.gamma ^ n) ∧
    (∀ (i : ℕ) (count : ℤ) (s0 s1 : State K) (check : K),
      innerIteration P step i fuel count s0 = some (s1, check) →
      ∃ n, s1.t = s0.t * P.gamma ^ n ∧
        (∀ m, m < n → (trial P step i s0 (currentGrad P i s0) (currentLoss P s0)
          (s0.t * P.gamma ^ m)).diff < 0) ∧
        0 ≤ (trial P step i s0 (currentGrad P i s0) (currentLoss P s0)
          (s0.t * P.gamma ^ n)).diff) := by
  obtain ⟨l, hl, hchain⟩ := groupsTrace_chain P step useGroup fuel hg _ P.numGroup _ h
  have hlog : log = l := by
    have : log = [] ++ l := hl
    rw [this, List.nil_append]
  rw [← hlog] at hchain
  have hchain2 : StepChain P.gamma P.momentum log s2.t := hchain
  refine ⟨?_, hchain2, ?_, (stepChain_mem _ _ _ _ hchain2).2, ?_⟩
  · rw [← rcppLinSolverTrace_erase, h]
    rfl
  · intro t0 rest hlr
    rw [hlr] at hchain2
    exact stepChain_head _ _ _ _ _ hchain2
  · intro i count s0 s1 check hit
    exact innerIteration_step P step i fuel count s0 s1 check hg hit

/-- The amended C13 on the two-column instance with `momentum = 8`: the log of
starting steps `[8, 4]` is a chain from `momentum`. -/
theorem momentum_seeds_call_witness :
    ∃ s2, rcppLinSolverTrace (fourByTwo ℝ Real.sqrt 0 8 0 0) 0 (fun _ => 1) 2 (zeroState ℝ)
        = some (s2, [8, 4]) ∧
      StepChain (fourByTwo ℝ Real.sqrt 0 8 0 0).gamma (fourByTwo ℝ Real.sqrt 0 8 0 0).momentum
        [8, 4] s2.t := by
  obtain ⟨s2, h⟩ := fourByTwo_solver_trace
  exact ⟨s2, h, (momentum_seeds_call (fourByTwo ℝ Real.sqrt 0 8 0 0) 0 (fun _ => 1) 2
    (zeroState ℝ) s2 [8, 4] (by norm_num [fourByTwo]) h).2.1⟩

/-- C14: the code makes no refinement pass after a repeated full scan.  On the
one-column instance (`X = [1]`, `y = [2]`, `w = [1]`, `lambda = 0`,
`momentum = 1`, `innerIter = 0`) with `outerIter = 1` and
`outerThresh = 0 < 100000`, started from `beta = 0`, `eta = 0`, the path step
makes two full scans (the first raises `groupChange`); one refinement pass
follows the first scan and none follows the second: `outermostCounter` and
`outermostCheck` are set at lines 282-283, before `while (groupChange == 1)`,
and are not set again for the refinement loop of a repeated scan, while the
inner loop sets `count` and `check` anew at lines 145-146 on every visit. -/
theorem refinement_after_repeat_counterexample :
    1 ≤ (oneColumn ℝ Real.sqrt (fun _ => 0) 1 0 1 1).outerIter ∧
    (oneColumn ℝ Real.sqrt (fun _ => 0) 1 0 1 1).outerThresh < 100000 ∧
    ∃ fuel r, scanLoopTrace (oneColumn ℝ Real.sqrt (fun _ => 0) 1 0 1 1) 0 fuel 2
        (stepInit (oneColumn ℝ Real.sqrt (fun _ => 0) 1 0 1 1) 0 (zeroState ℝ))
      = some (r, [1, 0]) :=
  ⟨by decide, by norm_num [oneColumn, oneByOne], oneColumn_scan_trace⟩

/-- The refinement passes of a path step: the passes after the first full scan
number at most `outerIter`, at least one when `outerIter >= 1` and
`outerThresh < 100000`, and fewer than `outerIter` only when the L1 change of
the row over the last pass is `<= outerThresh`; no pass runs after a repeated
full scan, because `outermostCounter` and `outermostCheck` keep the values the
first refinement loop left. -/
theorem refinement_once_per_step (P : Params K) (step fuel scans : ℕ) (s : State K)
    (r : NestState K) (log : List ℤ)
    (h : scanLoopTrace P step fuel scans (stepInit P step s) = some (r, log)) :
    scanLoop P step fuel scans (stepInit P step s) = some r ∧
    r.outermostCounter ≤ max 0 P.outerIter ∧
    ∃ first rest, log = first :: rest ∧
      0 ≤ first ∧ first ≤ max 0 P.outerIter ∧ r.outermostCounter = first ∧
      (1 ≤ P.outerIter → P.outerThresh < 100000 → 1 ≤ first) ∧
      (first < P.outerIter → r.outermostCheck ≤ P.outerThresh) ∧
      ∀ x, x ∈ rest → x = 0 := by
  have herase : scanLoop P step fuel scans (stepInit P step s) = some r := by
    rw [← scanLoopTrace_erase, h]
    rfl
  have hgc : (stepInit P step s).st.groupChange = 1 := rfl
  have hc0 : (stepInit P step s).outermostCounter = 0 := rfl
  have hchk0 : (stepInit P step s).outermostCheck = 100000 := rfl
  cases scans with
  | zero =>
    simp only [scanLoopTrace, if_pos hgc] at h
    exact absurd h (by simp)
  | succ m =>
    simp only [scanLoopTrace, if_pos hgc] at h
    cases hs : rcppLinSolver P step (fun _ => 1) fuel
        { (stepInit P step s).st with groupChange := 0 } with
    | none => rw [hs] at h; exact absurd h (by simp)
    | some s1 =>
      rw [hs] at h
      simp only at h
      cases hr : refineLoop P step fuel
          (P.outerIter - (stepInit P step s).outermostCounter).toNat
          { stepInit P step s with st := s1 } with
      | none => rw [hr] at h; exact absurd h (by simp)
      | some ns1 =>
        rw [hr] at h
        simp only at h
        cases htr : scanLoopTrace P step fuel m ns1 with
        | none => rw [htr] at h; exact absurd h (by simp)
        | some r2 =>
          obtain ⟨r3, l3⟩ := r2
          rw [htr] at h
          simp only [Option.map_some', Option.some.injEq, Prod.mk.injEq] at h
          obtain ⟨h1, h2⟩ := h
          subst h1
          obtain ⟨hlo, hhi, hexit⟩ := refineLoop_counter P step fuel _ _ _ hr
          have hlo2 : 0 ≤ ns1.outermostCounter := hlo
          have hhi2 : ns1.outermostCounter ≤ max 0 P.outerIter := hhi
          have hexit2 : ¬ (ns1.outermostCounter < P.outerIter ∧
              ns1.outermostCheck > P.outerThresh) := by
            refine hexit ?_
            show P.outerIter ≤ (0 : ℤ) + ((P.outerIter - 0).toNat : ℤ)
            rw [zero_add, sub_zero]
            exact Int.self_le_toNat _
          obtain ⟨hidle, hcnt, hchk⟩ := scanLoopTrace_idle P step fuel m ns1 r3 l3 hexit2 htr
          refine ⟨herase, by rw [hcnt]; exact hhi2,
            ns1.outermostCounter - (stepInit P step s).outermostCounter, l3, h2.symm, ?_⟩
          rw [hc0, sub_zero]
          refine ⟨hlo2, hhi2, hcnt, ?_, ?_, hidle⟩
          · intro h1 hthr
            have hrem : 0 < (P.outerIter - (stepInit P step s).outermostCounter).toNat := by
              rw [hc0, sub_zero]
              omega
            have := refineLoop_first_pass P step fuel _ { stepInit P step s with st := s1 } ns1
              ⟨by show (0 : ℤ) < P.outerIter; omega,
                by show (100000 : K) > P.outerThresh; exact hthr⟩ hrem hr
            have h0 : ({ stepInit P step s with st := s1 } : NestState K).outermostCounter = 0 :=
              rfl
            rw [h0] at this
            omega
          · intro hlt
            rw [hchk]
            by_contra hcon
            exact hexit2 ⟨hlt, not_le.mp hcon⟩

/-- C15 as stated fails: on the one-column instance with a path of two steps
(`lambda = 2` at both) take three states with the same coefficient array
(`beta = 1`): `eta = 1, betaIsZero = 0`; `eta = 2, betaIsZero = 0`; and
`eta = 1, betaIsZero = 1`.  The prologue of path step 1 leaves `eta` and
`betaIsZero` of each as they were, and step 1 (the zero branch in all three
cases) returns `eta = 0`, `eta = 1` and `eta = 1`: the result depends on the
`eta` and `betaIsZero` carried into the step. -/
theorem reinit_counterexample :
    (oneByOneState ℝ 1 0 1).beta = ({ oneByOneState ℝ 1 0 1 with eta := fun _ => 2 } :
        State ℝ).beta ∧
    (oneByOneState ℝ 1 0 1).beta = ({ oneByOneState ℝ 1 0 1 with betaIsZero := fun _ => 1 } :
        State ℝ).beta ∧
    (stepInit (oneColumn ℝ Real.sqrt (fun _ => 2) 1 0 0 2) 1
      (oneByOneState ℝ 1 0 1)).st.eta 0 = 1 ∧
    (stepInit (oneColumn ℝ Real.sqrt (fun _ => 2) 1 0 0 2) 1
      { oneByOneState ℝ 1 0 1 with eta := fun _ => 2 }).st.eta 0 = 2 ∧
    (stepInit (oneColumn ℝ Real.sqrt (fun _ => 2) 1 0 0 2) 1
      (oneByOneState ℝ 1 0 1)).st.betaIsZero 0 = 0 ∧
    (stepInit (oneColumn ℝ Real.sqrt (fun _ => 2) 1 0 0 2) 1
      { oneByOneState ℝ 1 0 1 with betaIsZero := fun _ => 1 }).st.betaIsZero 0 = 1 ∧
    ∃ rA rE rF,
      pathStep (oneColumn ℝ Real.sqrt (fun _ => 2) 1 0 0 2) 0 1 1 (oneByOneState ℝ 1 0 1)
        = some rA ∧
      pathStep (oneColumn ℝ Real.sqrt (fun _ => 2) 1 0 0 2) 0 1 1
        { oneByOneState ℝ 1 0 1 with eta := fun _ => 2 } = some rE ∧
      pathStep (oneColumn ℝ Real.sqrt (fun _ => 2) 1 0 0 2) 0 1 1
        { oneByOneState ℝ 1 0 1 with betaIsZero := fun _ => 1 } = some rF ∧
      rA.eta 0 = 0 ∧ rE.eta 0 = 1 ∧ rF.eta 0 = 1 := by
  refine ⟨rfl, rfl, rfl, rfl, rfl, rfl, _, _, _,
    pathStep_zeroScan _ 1 0 _ ?_, pathStep_zeroScan _ 1 0 _ ?_,
    pathStep_zeroScan _ 1 0 _ ?_, ?_, ?_, ?_⟩
  · intro i hi
    have hi0 : i = 0 := Nat.lt_one_iff.mp hi
    subst hi0
    simp only [zeroScan, forLoop, zeroTest, zeroCheck, nullGrad, groupGrad, rcppLinGradCalc,
      etaNull, vsum, scanStart, stepInit, oneColumn, oneByOne, oneByOneState, identityLinkCpp]
    norm_num
  · intro i hi
    have hi0 : i = 0 := Nat.lt_one_iff.mp hi
    subst hi0
    simp only [zeroScan, forLoop, zeroTest, zeroCheck, nullGrad, groupGrad, rcppLinGradCalc,
      etaNull, vsum, scanStart, stepInit, oneColumn, oneByOne, oneByOneState, identityLinkCpp]
    norm_num
  · intro i hi
    have hi0 : i = 0 := Nat.lt_one_iff.mp hi
    subst hi0
    simp only [zeroScan, forLoop, zeroTest, zeroCheck, nullGrad, groupGrad, rcppLinGradCalc,
      etaNull, vsum, scanStart, stepInit, oneColumn, oneByOne, oneByOneState, identityLinkCpp]
    norm_num
  · simp only [zeroScan, forLoop, zeroBranch, scanStart, stepInit, oneColumn, oneByOne,
      oneByOneState]
    norm_num
  · simp only [zeroScan, forLoop, zeroBranch, scanStart, stepInit, oneColumn, oneByOne,
      oneByOneState]
    norm_num
  · simp only [zeroScan, forLoop, zeroBranch, scanStart, stepInit, oneColumn, oneByOne,
      oneByOneState]
    norm_num

/-- C15 (amended): the prologue of a path step re-initialises `isActive` (and,
with it, the all-ones `useGroup` of the full scans), `groupChange`,
`outermostCounter` and `outermostCheck`, and for `step > 0` copies row
`step - 1` of `beta` into row `step`; `eta` and `betaIsZero` are not
re-initialised but enter the step as the previous step left them.  For groups
inside `[0, ncol)` they are then consistent with the copied row: if
`eta = X * beta[step - 1]` and the flags were sound for row `step - 1`, then
`eta = X * beta[step]` and the flags are sound for row `step`. -/
theorem step_prologue (P : Params K) (step : ℕ) (s : State K) (hstep : 0 < step)
    (hin : GroupsInRange P) (hLin : LinPred P (step - 1) s)
    (hZ : ZeroFlags P (step - 1) s) :
    (∀ i, i < P.numGroup → (stepInit P step s).st.isActive i = 0) ∧
    (stepInit P step s).st.groupChange = 1 ∧
    (stepInit P step s).outermostCounter = 0 ∧
    (stepInit P step s).outermostCheck = 100000 ∧
    (∀ c, c < P.ncol →
      (stepInit P step s).st.beta (step * P.ncol + c) = s.beta ((step - 1) * P.ncol + c)) ∧
    (stepInit P step s).st.eta = s.eta ∧
    (stepInit P step s).st.betaIsZero = s.betaIsZero ∧
    LinPred P step (stepInit P step s).st ∧ ZeroFlags P step (stepInit P step s).st := by
  obtain ⟨h1, h2⟩ := stepInit_invariants P step s hstep hin hLin hZ
  refine ⟨fun i hi => ?_, rfl, rfl, rfl, fun c hc => ?_, rfl, rfl, h1, h2⟩
  · simp only [stepInit, if_pos hi]
  · rw [stepInit_beta P step s hstep, if_pos ⟨Nat.le_add_right _ _, by omega⟩]
    congr 1
    obtain ⟨p, hp⟩ := Nat.exists_eq_succ_of_ne_zero (Nat.pos_iff_ne_zero.mp hstep)
    rw [hp, Nat.succ_sub_one, Nat.succ_mul]
    omega

/-- The amended C15 on the one-column instance with two path steps, entering
step 1 with `beta[0] = 1`, `eta = 1`, `betaIsZero = 0`. -/
theorem step_prologue_witness :
    (stepInit (oneColumn ℝ Real.sqrt (fun _ => 2) 1 0 0 2) 1
      (oneByOneState ℝ 1 0 1)).st.eta = (oneByOneState ℝ 1 0 1).eta ∧
    (stepInit (oneColumn ℝ Real.sqrt (fun _ => 2) 1 0 0 2) 1
      (oneByOneState ℝ 1 0 1)).st.betaIsZero = (oneByOneState ℝ 1 0 1).betaIsZero ∧
    LinPred (oneColumn ℝ Real.sqrt (fun _ => 2) 1 0 0 2) 1
      (stepInit (oneColumn ℝ Real.sqrt (fun _ => 2) 1 0 0 2) 1 (oneByOneState ℝ 1 0 1)).st := by
  have h := step_prologue (oneColumn ℝ Real.sqrt (fun _ => 2) 1 0 0 2) 1
    (oneByOneState ℝ 1 0 1) Nat.one_pos
    (fun i hi => by
      have hi0 : i = 0 := Nat.lt_one_iff.mp hi
      subst hi0
      exact le_rfl)
    (fun k _ => by simp [oneColumn, oneByOne, oneByOneState])
    (fun i _ hflag => by simp [oneByOneState] at hflag)
  exact ⟨h.2.2.2.2.2.1, h.2.2.2.2.2.2.1, h.2.2.2.2.2.2.2.1⟩

/-- C16: for `count >= 0` and `reset > 0` the integer expression
`count % reset / (count % reset + 3)` is 0; hence after an inner iteration
(`gamma != 0`, starting step `t != 0`) the committed coefficients of the group
are the `U` of the accepted trial and `eta` is its `etaNew`. -/
theorem momentum_weight_inert (P : Params K) (step i fuel : ℕ) (count : ℤ) (s s1 : State K)
    (check : K) (hcount : 0 ≤ count) (_hreset : 0 < P.reset) (hg : P.gamma ≠ 0)
    (ht : s.t ≠ 0) (h : innerIteration P step i fuel count s = some (s1, check)) :
    (∀ c r : ℤ, 0 ≤ c → 0 < r → momentumWeight c r = 0) ∧
    momentumWeight count P.reset = 0 ∧
    ∃ t1 r, backtrack P step i s (currentGrad P i s) (currentLoss P s) fuel s.t
        = some (t1, r) ∧
      (∀ j, j < P.groupLen i → s1.beta (step * P.ncol + j + P.rangeGroupInd i) = r.U j) ∧
      (∀ k, k < P.nrow → s1.eta k = r.etaNew k) := by
  refine ⟨fun c r hc _ => momentumWeight_eq_zero c r hc,
    momentumWeight_eq_zero count P.reset hcount, ?_⟩
  unfold innerIteration at h
  cases hb : backtrack P step i s (currentGrad P i s) (currentLoss P s) fuel s.t with
  | none => rw [hb] at h; exact absurd h (by simp)
  | some res =>
    obtain ⟨t1, r⟩ := res
    rw [hb] at h
    simp only [Option.some.injEq] at h
    obtain ⟨n, _, _, _, _, hr⟩ := backtrack_some P step i s _ _ fuel _ _ _ hb
    have hs1 : s1 = (commit P step i count r.U { s with t := t1 / P.gamma }).1 := by rw [h]
    refine ⟨t1, r, rfl, fun j hj => ?_, fun k hk => ?_⟩
    · rw [hs1]
      exact commit_groupCoef P step i count r.U _ hcount j hj
    · rw [hs1, hr]
      exact commit_eta_etaNew P step i count s _ _ _ _ hcount
        (mul_ne_zero ht (pow_ne_zero n hg)) k hk

/-- C16 on the one-column instance: after the inner iteration from `beta = 0`
with `t = 1` the coefficient is the accepted `U` and `eta` the accepted
`etaNew`. -/
theorem momentum_weight_inert_witness :
    ∃ s1 check t1 r,
      innerIteration (oneByOne ℝ Real.sqrt 0 1) 0 0 1 1 (oneByOneState ℝ 0 0 1)
        = some (s1, check) ∧
      backtrack (oneByOne ℝ Real.sqrt 0 1) 0 0 (oneByOneState ℝ 0 0 1)
        (currentGrad (oneByOne ℝ Real.sqrt 0 1) 0 (oneByOneState ℝ 0 0 1))
        (currentLoss (oneByOne ℝ Real.sqrt 0 1) (oneByOneState ℝ 0 0 1)) 1
        (oneByOneState ℝ 0 0 1).t = some (t1, r) ∧
      s1.beta 0 = r.U 0 ∧ s1.eta 0 = r.etaNew 0 := by
  obtain ⟨s1, check, h, _⟩ := oneByOne_innerIteration (oneByOneState ℝ 0 0 1) 1 1 1
    (by norm_num [oneByOneState]) (by norm_num [oneByOneState]) (by decide) Nat.one_pos
  obtain ⟨_, _, t1, r, hb, hU, he⟩ := momentum_weight_inert (oneByOne ℝ Real.sqrt 0 1) 0 0 1 1
    (oneByOneState ℝ 0 0 1) s1 check (by decide) (by decide) (by norm_num [oneByOne])
    (by norm_num [oneByOneState]) h
  exact ⟨s1, check, t1, r, h, hb, hU 0 Nat.one_pos, he 0 Nat.one_pos⟩

/-- C17: for a group whose coefficients in row `step` are all zero (link
plug-in acting on vectors of length `nrow`), `t > 0` and
`adaweight, lambda >= 0`: the current `eta` is `etaNull`, the gradient of the
trial is the screening gradient, the candidate is `z = -t * grad`, and the `U`
of the trial is the zero vector exactly when the zero test
`sum(grad^2) <= adaweight^2 * lambda^2 * groupLen` passes. -/
theorem screening_agrees_with_prox (P : Params K) (step i : ℕ) (s : State K) (t Lold : K)
    (hs : IsSqrt P.sqrt) (hloc : LinkLocal P) (ht : 0 < t) (ha : 0 ≤ P.adaweights i)
    (hl : 0 ≤ P.lambda step)
    (hzero : ∀ j, j < P.groupLen i → s.beta (step * P.ncol + j + P.rangeGroupInd i) = 0) :
    (∀ k, k < P.nrow → s.eta k = etaNull P step i s k) ∧
    (∀ j, currentGrad P i s j = nullGrad P step i s j) ∧
    (∀ j, j < P.groupLen i →
      candidate P step i s (currentGrad P i s) t j = -(t * currentGrad P i s j)) ∧
    ((∀ j, j < P.groupLen i → (trial P step i s (currentGrad P i s) Lold t).U j = 0) ↔
      zeroCheck P step i s
        ≤ P.adaweights i ^ 2 * P.lambda step ^ 2 * (P.groupLen i : K)) := by
  have hgrad := currentGrad_eq_nullGrad P step i s hloc hzero
  have hcand : ∀ j, j < P.groupLen i →
      candidate P step i s (currentGrad P i s) t j = -(t * currentGrad P i s j) := by
    intro j hj
    unfold candidate
    rw [hzero j hj, zero_sub]
  refine ⟨fun k hk => ?_, hgrad, hcand, ?_⟩
  · rw [etaNull_eq P step i s k hk]
    unfold groupPredictor
    rw [Finset.sum_eq_zero (fun j hj => by
      show _ * s.beta _ = 0
      rw [hzero j (Finset.mem_range.mp hj), mul_zero]), sub_zero]
  · have hU : ∀ j, j < P.groupLen i →
        (trial P step i s (currentGrad P i s) Lold t).U j
          = softThreshold P step i (fun j => -(t * nullGrad P step i s j)) t j := by
      intro j hj
      show softThreshold P step i (candidate P step i s (currentGrad P i s) t) t j = _
      exact softThreshold_congr P step i _ _ t
        (fun j2 hj2 => by rw [hcand j2 hj2, hgrad j2]) j hj
    have hiff := softThreshold_zero_iff P step i (nullGrad P step i s) t hs ht ha hl
    have hz := zeroTest_iff_norm P step i s hs ha hl
    unfold zeroTest at hz
    rw [hz, ← hiff]
    exact ⟨fun h j hj => by rw [← hU j hj]; exact h j hj,
      fun h j hj => by rw [hU j hj]; exact h j hj⟩

/-- C17 on the one-column instance with `lambda = 1` from `beta = 0`: the
screening gradient is `-2`, the zero test fails and `U` is not zero. -/
theorem screening_agrees_with_prox_witness :
    (∀ j, j < (oneByOne ℝ Real.sqrt 1 1).groupLen 0 →
      (trial (oneByOne ℝ Real.sqrt 1 1) 0 0 (oneByOneState ℝ 0 1 1)
        (currentGrad (oneByOne ℝ Real.sqrt 1 1) 0 (oneByOneState ℝ 0 1 1)) 2 1).U j = 0) ↔
      zeroCheck (oneByOne ℝ Real.sqrt 1 1) 0 0 (oneByOneState ℝ 0 1 1)
        ≤ (oneByOne ℝ Real.sqrt 1 1).adaweights 0 ^ 2
          * (oneByOne ℝ Real.sqrt 1 1).lambda 0 ^ 2
          * ((oneByOne ℝ Real.sqrt 1 1).groupLen 0 : ℝ) :=
  (screening_agrees_with_prox (oneByOne ℝ Real.sqrt 1 1) 0 0 (oneByOneState ℝ 0 1 1) 1 2
    isSqrt_real (fun e e2 h k hk => h k hk) one_pos (by norm_num [oneByOne])
    (by norm_num [oneByOne]) (fun _ _ => rfl)).2.2.2

/-- C19: a call of `rcppLinSolver` changes an `isActive` flag only to 1 (from 0
when the flags are 0/1, as they are within a path step, which starts them at
0), and changes `groupChange` only when some group's flag went from 0 to 1;
hence, if every call of `rcppLinSolver` returns, the group-change loop of a path
step returns after at most `numGroup + 1` full scans. -/
theorem active_set_loop_bounded (P : Params K) (step : ℕ) (s : State K)
    (hsolve : ∀ (useGroup : ℕ → ℤ) (s0 : State K),
      ∃ fuel s2, rcppLinSolver P step useGroup fuel s0 = some s2) :
    (∀ (useGroup : ℕ → ℤ) (fuel : ℕ) (s0 s2 : State K),
      rcppLinSolver P step useGroup fuel s0 = some s2 →
      (∀ i, s2.isActive i = s0.isActive i ∨ s2.isActive i = 1) ∧
      (∀ i, s0.isActive i = 0 ∨ s0.isActive i = 1 →
        s2.isActive i = s0.isActive i ∨ (s0.isActive i = 0 ∧ s2.isActive i = 1)) ∧
      (s2.groupChange = s0.groupChange ∨
        ∃ i, i < P.numGroup ∧ s0.isActive i = 0 ∧ s2.isActive i = 1)) ∧
    (∀ i, i < P.numGroup → (stepInit P step s).st.isActive i = 0) ∧
    ∃ fuel ns, scanLoop P step fuel (P.numGroup + 1) (stepInit P step s) = some ns := by
  refine ⟨fun useGroup fuel s0 s2 h => ?_, fun i hi => ?_, ?_⟩
  · obtain ⟨h1, h2⟩ := scan_groups_flags P step fuel useGroup
      { s0 with theta := fun _ => 0, t := P.momentum } P.numGroup s2 h
    refine ⟨h1, fun i h01 => ?_, h2⟩
    rcases h1 i with h3 | h3
    · exact Or.inl h3
    · rcases h01 with h4 | h4
      · exact Or.inr ⟨h4, h3⟩
      · exact Or.inl (h3.trans h4.symm)
  · simp only [stepInit, if_pos hi]
  · have hcount : inactiveCount P (stepInit P step s).st ≤ P.numGroup := by
      unfold inactiveCount
      exact le_trans (Finset.card_filter_le _ _) (by rw [Finset.card_range])
    exact scanLoop_returns P step hsolve P.numGroup _ hcount

/-- C19 on the one-column instance, whose solver calls return: the loop ends
within `numGroup + 1 = 2` full scans. -/
theorem active_set_loop_bounded_witness :
    ∃ fuel ns, scanLoop (oneColumn ℝ Real.sqrt (fun _ => 0) 1 0 1 1) 0 fuel
      ((oneColumn ℝ Real.sqrt (fun _ => 0) 1 0 1 1).numGroup + 1)
      (stepInit (oneColumn ℝ Real.sqrt (fun _ => 0) 1 0 1 1) 0 (zeroState ℝ)) = some ns :=
  (active_set_loop_bounded (oneColumn ℝ Real.sqrt (fun _ => 0) 1 0 1 1) 0 (zeroState ℝ)
    (fun useGroup s0 => rcppLinSolver_terminates _ 0 useGroup s0
      (oneColumn_lineSearchExits (fun _ => 0) 1 0 1 1 0) (by norm_num [oneColumn, oneByOne])
      (by norm_num [oneColumn, oneByOne]))).2.2

/-- C20: a call of `rcppLinSolver` whose `useGroup` is the `isActive` it starts
with (a refinement pass) leaves `isActive` and `groupChange` unchanged, writes
`beta` only in entries of groups marked active, and, the groups being disjoint,
leaves the coefficients and the `betaIsZero` flag of every group not marked
active as they were; so the refinement loop never changes `groupChange`, which
only a full scan can raise. -/
theorem refinement_keeps_active_set (P : Params K) (step fuel : ℕ) (s s2 : State K)
    (hG : GroupsOK P) (h : rcppLinSolver P step s.isActive fuel s = some s2) :
    s2.isActive = s.isActive ∧ s2.groupChange = s.groupChange ∧
    (∀ c, ¬ ScannedEntry P step s.isActive P.numGroup c → s2.beta c = s.beta c) ∧
    (∀ i, i < P.numGroup → s.isActive i ≠ 1 →
      s2.betaIsZero i = s.betaIsZero i ∧
      ∀ j, j < P.groupLen i →
        s2.beta (step * P.ncol + j + P.rangeGroupInd i)
          = s.beta (step * P.ncol + j + P.rangeGroupInd i)) ∧
    (∀ (rem fuel2 : ℕ) (ns ns2 : NestState K), refineLoop P step fuel2 rem ns = some ns2 →
      ns2.st.isActive = ns.st.isActive ∧ ns2.st.groupChange = ns.st.groupChange) := by
  obtain ⟨h1, h2⟩ := rcppLinSolver_refine_flags P step fuel s s2 h
  have hframe : ∀ c, ¬ ScannedEntry P step s.isActive P.numGroup c → s2.beta c = s.beta c :=
    fun c hc => rcppLinSolver_beta_outside P step s.isActive fuel s s2 h c hc
  refine ⟨h1, h2, hframe, fun i hi hna => ⟨?_, fun j hj => ?_⟩,
    fun rem fuel2 ns ns2 hr => refineLoop_flags P step fuel2 rem ns ns2 hr⟩
  · exact groups_betaIsZero_outside P step s.isActive fuel
      { s with theta := fun _ => 0, t := P.momentum } P.numGroup s2 h i hna
  · refine hframe _ ?_
    rintro ⟨i2, j2, hi2, huse, hj2, hc⟩
    have hne : i ≠ i2 := fun heq => hna (by rw [heq]; exact huse)
    rcases hG.2 i i2 hi hi2 hne with hd | hd <;> omega

/-- C20 on the one-column instance with its group marked active: the pass
returns and leaves `isActive` and `groupChange` as they were. -/
theorem refinement_keeps_active_set_witness :
    ∃ fuel s2,
      rcppLinSolver (oneColumn ℝ Real.sqrt (fun _ => 0) 1 0 1 1) 0
        ({ zeroState ℝ with isActive := fun _ => 1 } : State ℝ).isActive fuel
        { zeroState ℝ with isActive := fun _ => 1 } = some s2 ∧
      s2.isActive = ({ zeroState ℝ with isActive := fun _ => 1 } : State ℝ).isActive ∧
      s2.groupChange = ({ zeroState ℝ with isActive := fun _ => 1 } : State ℝ).groupChange := by
  obtain ⟨fuel, s2, h⟩ := rcppLinSolver_terminates
    (oneColumn ℝ Real.sqrt (fun _ => 0) 1 0 1 1) 0
    ({ zeroState ℝ with isActive := fun _ => 1 } : State ℝ).isActive
    { zeroState ℝ with isActive := fun _ => 1 }
    (oneColumn_lineSearchExits (fun _ => 0) 1 0 1 1 0) (by norm_num [oneColumn, oneByOne])
    (by norm_num [oneColumn, oneByOne])
  have h2 := refinement_keeps_active_set (oneColumn ℝ Real.sqrt (fun _ => 0) 1 0 1 1) 0 fuel
    { zeroState ℝ with isActive := fun _ => 1 } s2
    ⟨fun i hi => by
        have hi0 : i = 0 := Nat.lt_one_iff.mp hi
        subst hi0
        exact le_rfl,
      fun i i2 hi hi2 hne => by
        have hi0 : i = 0 := Nat.lt_one_iff.mp hi
        have hi20 : i2 = 0 := Nat.lt_one_iff.mp hi2
        exact absurd (hi0.trans hi20.symm) hne⟩ h
  exact ⟨fuel, s2, h, h2.1, h2.2.1⟩

end Claims

end GroupLasso
